import Mathlib

/-!
Reagent bank: ledger and capacity simulation.

A shallow embedding of `src/ReagentBankAccount.cpp` (class
`mod_reagent_bank_account`): the dry-run capacity simulator
`SimulateBatchAdd`, the category summary cache with `GetCategorySummary` and
the main menu of `OnGossipHello`, the deposit merge with `AccumulateInventory` and `FlushReagentState`, the withdraw
flows, and the audit table with its sweep `EnsureAuditCleanup`.

Conventions.
* `uint32` values are natural numbers; an operation that can leave the range
  reduces modulo `2^32` explicitly (`U32`).
* `std::map<uint32, uint32>` is a key-sorted association list (`UMap`); every
  map the code builds is shown to be sorted (`UMap.Sorted`), and the lookup
  searches in key order.
* `std::unordered_map` that is only looked up by key is a function; the one
  that is iterated (`emptySlotsByFamily`) is an association list whose order is
  the enumeration order of the table.
-/

namespace ReagentBank

/-- Number of values of a `uint32`. -/
def U32 : Nat := 4294967296

/-! ## `std::map<uint32, uint32>` -/

/-- A `std::map<uint32, uint32>`: association list kept sorted by key. -/
abbrev UMap := List (Nat × Nat)

/-- `m.find(k)`: the mapped value, if the key is present. The search follows the
key order, as the lookup in the ordered container does: it stops at the first
key that is not below `k`. -/
def UMap.find (k : Nat) : UMap → Option Nat
  | [] => none
  | (k', v) :: rest =>
    if k < k' then none else if k = k' then some v else UMap.find k rest

/-- Reading `m[k]`: an absent key reads as the value-initialised `0`. -/
def UMap.get (k : Nat) (m : UMap) : Nat :=
  (UMap.find k m).getD 0

/-- `m[k] = v`. -/
def UMap.set (k v : Nat) : UMap → UMap
  | [] => [(k, v)]
  | (k', v') :: rest =>
    if k < k' then (k, v) :: (k', v') :: rest
    else if k = k' then (k', v) :: rest
    else (k', v') :: UMap.set k v rest

/-- `m[k] += v` on `uint32` values: an absent key starts from `0`, the sum wraps
at `2^32`. -/
def UMap.addTo (k v : Nat) : UMap → UMap
  | [] => [(k, v % U32)]
  | (k', v') :: rest =>
    if k < k' then (k, v % U32) :: (k', v') :: rest
    else if k = k' then (k', (v' + v) % U32) :: rest
    else (k', v') :: UMap.addTo k v rest

/-- Sum of all mapped values. -/
def UMap.total (m : UMap) : Nat :=
  (m.map Prod.snd).sum

/-! ## Item catalog -/

/-- The fields of the host's `ItemTemplate` that the module reads.
`maxStack` is `GetMaxStackSize()`, `bagFamily` is `GetBagFamily()`. -/
structure ItemTemplate where
  ItemId : Nat
  Class : Nat
  SubClass : Nat
  maxStack : Nat
  bagFamily : Nat
deriving DecidableEq, Repr

/-- The host lookup `sObjectMgr->GetItemTemplate(entry)`; `none` is the null
pointer. -/
abbrev Catalog := Nat → Option ItemTemplate

/-! ## Capacity simulator (`SimulateBatchAdd`) -/

/-- The table `emptySlotsByFamily` (bag family mask -> number of empty slots) in
its enumeration order. -/
abbrev SlotTable := List (Nat × Nat)

/-- The mutable locals of `SimulateBatchAdd` after the inventory scan:
`partials e` is `partial[e]`, the free space of each partial stack of item `e`. -/
structure SimState where
  partials : Nat → List Nat
  emptySlotsByFamily : SlotTable
  granted : UMap

/-- The loop `for (auto &slot : vec)`: fills the partial stacks in order until
the request is met. Returns the stacks, the remaining request and the result
map. -/
def fillPartialStacks (entry : Nat) : List Nat → Nat → UMap → List Nat × Nat × UMap
  | [], remaining, granted => ([], remaining, granted)
  | freeSpace :: rest, remaining, granted =>
    if remaining = 0 then (freeSpace :: rest, remaining, granted)
    else
      let use := min freeSpace remaining
      let r := fillPartialStacks entry rest (remaining - use) (UMap.addTo entry use granted)
      ((freeSpace - use) :: r.1, r.2.1, r.2.2)

/-- The `erase(remove_if(... freeSpace == 0 ...))` after the fill loop. -/
def removeExhausted (vec : List Nat) : List Nat :=
  vec.filter (fun s => s != 0)

/-- The lambda `fitsSpecialty`. -/
def fitsSpecialty (bagFamily bagMask : Nat) : Bool :=
  bagMask == 0 || (bagFamily &&& bagMask) != 0

/-- The `uint32` decrement `kv.second--`. -/
def dec32 (c : Nat) : Nat :=
  (c + (U32 - 1)) % U32

/-- The specialty scan `for (auto &kv : emptySlotsByFamily)`: the first entry
with a non-zero mask, a non-zero count and a compatible mask is decremented.
`none` when the scan ends without placing. -/
def takeSpecialty (bagFamily : Nat) : SlotTable → Option SlotTable
  | [] => none
  | (mask, count) :: rest =>
    if mask = 0 ∨ count = 0 then
      (takeSpecialty bagFamily rest).map (fun r => (mask, count) :: r)
    else if !fitsSpecialty bagFamily mask then
      (takeSpecialty bagFamily rest).map (fun r => (mask, count) :: r)
    else some ((mask, dec32 count) :: rest)

/-- The fallback `emptySlotsByFamily.find(0)`: `none` when there is no entry
for mask 0 or its count is 0, else that entry is decremented. -/
def takeGeneric : SlotTable → Option SlotTable
  | [] => none
  | (mask, count) :: rest =>
    if mask = 0 then
      if count = 0 then none else some ((mask, dec32 count) :: rest)
    else (takeGeneric rest).map (fun r => (mask, count) :: r)

/-- One iteration of `while (remaining > 0)` that places a stack: specialty
slots first, then the unrestricted one. `none` is the `break`. -/
def placeStep (entry maxStack bagFamily : Nat) (remaining : Nat) (table : SlotTable)
    (granted : UMap) : Option (Nat × SlotTable × UMap) :=
  match takeSpecialty bagFamily table with
  | some table' =>
    let create := min maxStack remaining
    some (remaining - create, table', UMap.addTo entry create granted)
  | none =>
    match takeGeneric table with
    | none => none
    | some table' =>
      let create := min maxStack remaining
      some (remaining - create, table', UMap.addTo entry create granted)

/-- The loop `while (remaining > 0)`. Every iteration that does not break
lowers `remaining` (as `maxStack > 0`), so `fuel = remaining` iterations are
enough; see `placeLoop_fuel`. -/
def placeLoop (entry maxStack bagFamily : Nat) :
    Nat → Nat → SlotTable → UMap → Nat × SlotTable × UMap
  | 0, remaining, table, granted => (remaining, table, granted)
  | fuel + 1, remaining, table, granted =>
    if remaining = 0 then (remaining, table, granted)
    else
      match placeStep entry maxStack bagFamily remaining table granted with
      | none => (remaining, table, granted)
      | some r => placeLoop entry maxStack bagFamily fuel r.1 r.2.1 r.2.2

/-- The body of `for (auto const &pr : items)` for one request. -/
def simulateRequest (catalog : Catalog) (s : SimState) (pr : Nat × Nat) : SimState :=
  match catalog pr.1 with
  | none => s
  | some temp =>
    if temp.maxStack = 0 then s
    else
      let filled := fillPartialStacks pr.1 (s.partials pr.1) pr.2 s.granted
      let vec := removeExhausted filled.1
      let placed := placeLoop pr.1 temp.maxStack temp.bagFamily filled.2.1 filled.2.1
        s.emptySlotsByFamily filled.2.2
      { partials := fun e => if e = pr.1 then vec else s.partials e
        emptySlotsByFamily := placed.2.1
        granted := placed.2.2 }

/-- The request loop of `SimulateBatchAdd` from the scanned snapshot: the final
values of `partial`, `emptySlotsByFamily` and `granted`. -/
def simulateRun (catalog : Catalog) (partials : Nat → List Nat) (table : SlotTable)
    (items : List (Nat × Nat)) : SimState :=
  items.foldl (simulateRequest catalog)
    { partials := partials, emptySlotsByFamily := table, granted := [] }

/-- `SimulateBatchAdd`: the returned map `granted`. The inventory scan is taken
as done: `partials` and `table` are the scanned snapshot. -/
def SimulateBatchAdd (catalog : Catalog) (partials : Nat → List Nat) (table : SlotTable)
    (items : List (Nat × Nat)) : UMap :=
  (simulateRun catalog partials table items).granted

/-- Total free capacity of a list of partial stacks. -/
def freeTotal (vec : List Nat) : Nat := vec.sum

/-- Number of empty slots of the table an item of family `bagFamily` may use:
entries whose mask is 0 or shares a bit with the item family. -/
def compatibleSlots (bagFamily : Nat) (table : SlotTable) : Nat :=
  ((table.filter (fun kv => fitsSpecialty bagFamily kv.1)).map Prod.snd).sum

/-- Sum of the requested amounts. -/
def requestedTotal (items : List (Nat × Nat)) : Nat :=
  (items.map Prod.snd).sum

/-! ## Example data -/

/-- A catalog with three stackable items: item 7 fits no specialty bag, item 8
fits the bag families 1 and 2, item 9 fits the bag family 1 only. -/
def exampleCatalog : Catalog := fun entry =>
  if entry = 7 then some ⟨7, 7, 5, 20, 0⟩
  else if entry = 8 then some ⟨8, 7, 5, 20, 3⟩
  else if entry = 9 then some ⟨9, 7, 5, 20, 1⟩
  else none

/-- One partial stack of item 7 with free space 5. -/
def examplePartials : Nat → List Nat := fun entry =>
  if entry = 7 then [5] else []

/-- No partial stack at all. -/
def noPartials : Nat → List Nat := fun _ => []

/-- Every count of the table is a `uint32` value. -/
def SlotTable.InRange (table : SlotTable) : Prop :=
  ∀ p ∈ table, p.2 < U32

/-- Number of empty slots in bags with a non-zero mask that the item family
fits. -/
def specialtySlots (bagFamily : Nat) (table : SlotTable) : Nat :=
  ((table.filter (fun kv => kv.1 != 0 && fitsSpecialty bagFamily kv.1)).map Prod.snd).sum

/-- Number of empty unrestricted slots (mask 0). -/
def genericSlots (table : SlotTable) : Nat :=
  ((table.filter (fun kv => kv.1 == 0)).map Prod.snd).sum

/-- What the placement of an item of family `bagFamily` can tell two tables
apart by: both are well-formed tables (counts in range, one entry per mask)
with the same number of fitting specialty slots and of unrestricted slots. -/
def SlotTable.SameFor (bagFamily : Nat) (t u : SlotTable) : Prop :=
  specialtySlots bagFamily t = specialtySlots bagFamily u ∧
  genericSlots t = genericSlots u ∧
  SlotTable.InRange t ∧ SlotTable.InRange u ∧
  (t.map Prod.fst).Nodup ∧ (u.map Prod.fst).Nodup

/-! ## Category summary cache -/

/-- The members `m_categorySummaryCache` (subclass -> (distinct items, total
amount)) and `m_cacheAllCategoriesInvalid`. The table is only ever looked up by
key, so it is a function; `none` is an absent key. -/
structure CacheState where
  m_categorySummaryCache : Nat → Option (Nat × Nat)
  m_cacheAllCategoriesInvalid : Bool

/-- `InvalidateCategorySummary`: subclass 0 clears the whole table and sets the
flag, any other subclass erases its own entry. -/
def InvalidateCategorySummary (subclass : Nat) (st : CacheState) : CacheState :=
  if subclass = 0 then
    { m_categorySummaryCache := fun _ => none, m_cacheAllCategoriesInvalid := true }
  else
    { st with m_categorySummaryCache :=
        fun k => if k = subclass then none else st.m_categorySummaryCache k }

/-- `GetCachedCategorySummary`: the cached pair, `none` for `std::nullopt`. -/
def GetCachedCategorySummary (subclass : Nat) (st : CacheState) : Option (Nat × Nat) :=
  st.m_categorySummaryCache subclass

/-- `StoreCategorySummary`: sets or replaces the entry and clears the flag. -/
def StoreCategorySummary (subclass : Nat) (summary : Nat × Nat) (st : CacheState) : CacheState :=
  { m_categorySummaryCache :=
      fun k => if k = subclass then some summary else st.m_categorySummaryCache k
    m_cacheAllCategoriesInvalid := false }

/-- A call of one of the three cache operations. -/
inductive CacheOp where
  | invalidate (subclass : Nat)
  | get (subclass : Nat)
  | store (subclass : Nat) (summary : Nat × Nat)

/-- The state after a call; `GetCachedCategorySummary` is `const`. -/
def CacheOp.apply (st : CacheState) : CacheOp → CacheState
  | CacheOp.invalidate subclass => InvalidateCategorySummary subclass st
  | CacheOp.get _ => st
  | CacheOp.store subclass summary => StoreCategorySummary subclass summary st

/-- The state after a sequence of calls. -/
def runCacheOps (ops : List CacheOp) (st : CacheState) : CacheState :=
  ops.foldl CacheOp.apply st

/-- A call that is neither a store to category `c`, nor an invalidation of `c`,
nor the invalidation of all categories. -/
def CacheOp.leaves (c : Nat) : CacheOp → Prop
  | CacheOp.invalidate subclass => subclass ≠ c ∧ subclass ≠ 0
  | CacheOp.get _ => True
  | CacheOp.store subclass _ => subclass ≠ c

/-- The cache as the constructor leaves it: empty, flag set. -/
def emptyCache : CacheState :=
  { m_categorySummaryCache := fun _ => none, m_cacheAllCategoriesInvalid := true }

/-! ## Ledger store and effects -/

/-- A row of `mod_reagent_bank_account` under one storage key
`(account_id, guid)`: `(item_entry, item_subclass, amount)`. The amount is read
back with `Get<uint32>()`. -/
structure Row where
  item_entry : Nat
  item_subclass : Nat
  amount : Nat
deriving DecidableEq, Repr

/-- The rows of one storage key, in the order a `SELECT` returns them. The
table is unique on `item_entry` within a key. -/
abbrev Store := List Row

/-- `SELECT amount ... WHERE item_entry = entry`: the amount of the row, if
there is one. -/
def Store.amountOf (entry : Nat) : Store → Option Nat
  | [] => none
  | row :: rest => if row.item_entry = entry then some row.amount else Store.amountOf entry rest

/-- `SELECT ... WHERE item_subclass = subclass`. -/
def Store.rowsOfCategory (subclass : Nat) (store : Store) : List Row :=
  store.filter (fun row => row.item_subclass == subclass)

/-- `INSERT ... ON DUPLICATE KEY UPDATE item_subclass=VALUES(item_subclass),
amount=VALUES(amount)`. -/
def Store.upsert (entry subclass amount : Nat) : Store → Store
  | [] => [⟨entry, subclass, amount⟩]
  | row :: rest =>
    if row.item_entry = entry then ⟨entry, subclass, amount⟩ :: rest
    else row :: Store.upsert entry subclass amount rest

/-- `DELETE ... WHERE item_entry = entry`. -/
def Store.delete (entry : Nat) (store : Store) : Store :=
  store.filter (fun row => row.item_entry != entry)

/-- `UPDATE ... SET amount = amount WHERE item_entry = entry`. -/
def Store.update (entry amount : Nat) (store : Store) : Store :=
  store.map (fun row => if row.item_entry = entry then { row with amount := amount } else row)

/-- The `action` column of the audit table. -/
inductive AuditAction where
  | DEPOSIT
  | WITHDRAW
deriving DecidableEq, Repr

/-- The chat lines the flows send to the requester. -/
inductive Message where
  | noStoredReagents (entry : Nat)
  | templateNotFound (entry : Nat)
  | withdrew (amount entry : Nat)
  | notEnoughBagSpace (amount entry : Nat)
  | followingWasDeposited
  | deposited (amount entry : Nat)
  | noReagentsToDeposit
  | noReagentsToDepositInCategory
  | noReagentsToWithdraw
  | noReagentsWithdrawn
  | equipError (entry : Nat)
deriving DecidableEq, Repr

/-- What a flow does to the world outside its locals, in program order:
statements on the ledger table, inserts into the audit table, cache
invalidations, the audit sweep, items handed to the requester, chat lines. -/
inductive Effect where
  | upsert (entry subclass amount : Nat)
  | delete (entry : Nat)
  | update (entry amount : Nat)
  | audit (action : AuditAction) (entry subclass delta : Nat)
  | invalidate (subclass : Nat)
  | ensureAuditCleanup
  | storeNewItem (entry count : Nat)
  | message (msg : Message)
deriving DecidableEq, Repr

/-- The ledger after one effect. -/
def Effect.applyTo (store : Store) : Effect → Store
  | Effect.upsert entry subclass amount => Store.upsert entry subclass amount store
  | Effect.delete entry => Store.delete entry store
  | Effect.update entry amount => Store.update entry amount store
  | _ => store

/-- The ledger after a sequence of effects. -/
def runEffects (effects : List Effect) (store : Store) : Store :=
  effects.foldl Effect.applyTo store

/-! ## Deposit -/

/-- Values of the host enumerations the module compares against; they are
declared in the host's headers. -/
structure HostEnums where
  ITEM_CLASS_TRADE_GOODS : Nat
  ITEM_CLASS_GEM : Nat
  ITEM_SUBCLASS_JEWELCRAFTING : Nat

/-- An item in a slot of the requester: `GetTemplate()` and `GetCount()`. -/
structure InvItem where
  template : Option ItemTemplate
  count : Nat
deriving DecidableEq, Repr

/-- The slots `AccumulateInventory` visits, in its order (backpack, then each
bag); `none` is an empty slot. -/
abbrev Inventory := List (Option InvItem)

/-- `AccumulateResult`. -/
structure AccumulateResult where
  addedCounts : UMap
  subclassByEntry : UMap
deriving DecidableEq, Repr

/-- The tests of the lambda `considerItem`: for a stack that is taken, its item
id, category and count. -/
def eligibleStack (K : HostEnums) (filterSubclass : Option Nat) :
    Option InvItem → Option (Nat × Nat × Nat)
  | none => none
  | some pItem =>
    match pItem.template with
    | none => none
    | some itemTemplate =>
      if ¬ (itemTemplate.Class = K.ITEM_CLASS_TRADE_GOODS ∨ itemTemplate.Class = K.ITEM_CLASS_GEM)
      then none
      else if itemTemplate.maxStack = 1 then none
      else
        let subclass := if itemTemplate.Class = K.ITEM_CLASS_GEM
          then K.ITEM_SUBCLASS_JEWELCRAFTING else itemTemplate.SubClass
        if filterSubclass.isSome ∧ some subclass ≠ filterSubclass then none
        else some (itemTemplate.ItemId, subclass, pItem.count)

/-- The updates of `considerItem` for a stack that is taken. -/
def recordStack (result : AccumulateResult) (entry subclass count : Nat) : AccumulateResult :=
  { addedCounts := UMap.addTo entry count result.addedCounts
    subclassByEntry :=
      if (UMap.find entry result.subclassByEntry).isSome then result.subclassByEntry
      else UMap.set entry subclass result.subclassByEntry }

/-- The slot walk of `AccumulateInventory` from an accumulated `result`: the
final result and the inventory with the taken stacks destroyed. -/
def accumulateFrom (K : HostEnums) (filterSubclass : Option Nat) :
    Inventory → AccumulateResult → AccumulateResult × Inventory
  | [], result => (result, [])
  | slot :: rest, result =>
    match eligibleStack K filterSubclass slot with
    | none =>
      let r := accumulateFrom K filterSubclass rest result
      (r.1, slot :: r.2)
    | some (entry, subclass, count) =>
      let r := accumulateFrom K filterSubclass rest (recordStack result entry subclass count)
      (r.1, none :: r.2)

/-- `AccumulateInventory`. -/
def AccumulateInventory (K : HostEnums) (inventory : Inventory) (filterSubclass : Option Nat) :
    AccumulateResult × Inventory :=
  accumulateFrom K filterSubclass inventory { addedCounts := [], subclassByEntry := [] }

/-- The loop `existingAmounts[itemEntry] = itemAmount` over the result rows. -/
def existingAmountsOf (rows : List Row) : UMap :=
  rows.foldl (fun m row => UMap.set row.item_entry row.amount m) []

/-- The loop `subclassByEntry[itemEntry] = itemSubclass` over the result rows. -/
def subclassByEntryOf (rows : List Row) : UMap :=
  rows.foldl (fun m row => UMap.set row.item_entry row.item_subclass m) []

/-- The merge `finalAmounts[kv.first] = existingAmounts[kv.first] + kv.second`
in `uint32`, starting from a copy of `existingAmounts`. -/
def mergeAmounts (existingAmounts addedCounts : UMap) : UMap :=
  addedCounts.foldl
    (fun fin kv => UMap.set kv.1 ((UMap.get kv.1 existingAmounts + kv.2) % U32) fin)
    existingAmounts

/-- `FlushReagentState`: one insert-or-update per entry of `finalAmounts`, in
key order, in one transaction; the subclass of an entry missing from
`subclassByEntry` is 0. -/
def FlushReagentState (finalAmounts subclassByEntry : UMap) : List Effect :=
  finalAmounts.map (fun kv =>
    Effect.upsert kv.1 ((UMap.find kv.1 subclassByEntry).getD 0) kv.2)

/-- Insertion into a `std::set<uint32>` (sorted, no duplicates). -/
def setInsert (x : Nat) : List Nat → List Nat
  | [] => [x]
  | y :: rest =>
    if x < y then x :: y :: rest
    else if x = y then y :: rest
    else y :: setInsert x rest

/-- The lines `<added> <name>` sent for the deposited items that have a
template. -/
def depositedMessages (catalog : Catalog) (addedCounts : UMap) : List Effect :=
  (addedCounts.filter (fun kv => (catalog kv.1).isSome)).map
    (fun kv => Effect.message (Message.deposited kv.2 kv.1))

/-- The continuation of `DepositAllReagents` for a requester who is present:
`store` holds the rows of the storage key, `inventory` the requester's slots.
Returns the effects in program order and the inventory afterwards. -/
def DepositAllReagents (K : HostEnums) (catalog : Catalog) (auditOn : Bool) (store : Store)
    (inventory : Inventory) : List Effect × Inventory :=
  let existingAmounts := existingAmountsOf store
  let subclassByEntry := subclassByEntryOf store
  let accum := AccumulateInventory K inventory none
  if accum.1.addedCounts = [] then
    ([Effect.message Message.noReagentsToDeposit], accum.2)
  else
    let auditRows := if auditOn then
        accum.1.addedCounts.map (fun kv =>
          Effect.audit AuditAction.DEPOSIT kv.1 (UMap.get kv.1 accum.1.subclassByEntry) kv.2)
      else []
    let finalAmounts := mergeAmounts existingAmounts accum.1.addedCounts
    let mergedSubclass :=
      accum.1.subclassByEntry.foldl (fun m kv => UMap.set kv.1 kv.2 m) subclassByEntry
    let touched := accum.1.subclassByEntry.foldl (fun t kv => setInsert kv.2 t) []
    (auditRows ++ FlushReagentState finalAmounts mergedSubclass
      ++ touched.map Effect.invalidate
      ++ Effect.message Message.followingWasDeposited
          :: depositedMessages catalog accum.1.addedCounts,
     accum.2)

/-- The continuation of `DepositAllReagentsForCategory` for a requester who is
present. -/
def DepositAllReagentsForCategory (K : HostEnums) (catalog : Catalog) (auditOn : Bool)
    (item_subclass : Nat) (store : Store) (inventory : Inventory) : List Effect × Inventory :=
  let existingAmounts := existingAmountsOf (Store.rowsOfCategory item_subclass store)
  let accum := AccumulateInventory K inventory (some item_subclass)
  if accum.1.addedCounts = [] then
    ([Effect.message Message.noReagentsToDepositInCategory], accum.2)
  else
    let auditRows := if auditOn then
        accum.1.addedCounts.map (fun kv =>
          Effect.audit AuditAction.DEPOSIT kv.1 item_subclass kv.2)
      else []
    let finalAmounts := mergeAmounts existingAmounts accum.1.addedCounts
    let subclassMap := finalAmounts.foldl (fun m kv => UMap.set kv.1 item_subclass m) []
    (auditRows ++ FlushReagentState finalAmounts subclassMap
      ++ Effect.invalidate item_subclass
      :: Effect.message Message.followingWasDeposited
      :: depositedMessages catalog accum.1.addedCounts,
     accum.2)

/-- Host enumeration values used in the examples. -/
def exampleEnums : HostEnums :=
  { ITEM_CLASS_TRADE_GOODS := 7, ITEM_CLASS_GEM := 3, ITEM_SUBCLASS_JEWELCRAFTING := 4 }

/-- Item 100: a trade good of subclass 5, stack size 20. -/
def itemA : ItemTemplate := ⟨100, 7, 5, 20, 0⟩

/-- The keys of the map are strictly increasing, as in any `std::map`. -/
def UMap.Sorted (m : UMap) : Prop :=
  (m.map Prod.fst).Pairwise (fun a b => a < b)

/-- The store has one row per item, as the unique key of the table demands. -/
def Store.UniqueKeys (store : Store) : Prop :=
  (store.map Row.item_entry).Nodup

/-- The catalog that knows item 100 only. -/
def itemACatalog : Catalog := fun entry =>
  if entry = 100 then some itemA else none

/-! ## Withdraw -/

/-- The requester's real storage as the module uses it, over the host's
inventory state `Inv`: `canStoreNewItem inv entry count` is
`CanStoreNewItem(NULL_BAG, NULL_SLOT, dest, entry, count) == EQUIP_ERR_OK`,
`storeNewItem` is the inventory after `StoreNewItem`, and `partials`,
`emptySlotsByFamily` are what the scan at the head of `SimulateBatchAdd`
collects. -/
structure Host (Inv : Type) where
  canStoreNewItem : Inv → Nat → Nat → Bool
  storeNewItem : Inv → Nat → Nat → Inv
  partials : Inv → Nat → List Nat
  emptySlotsByFamily : Inv → SlotTable

/-- The `uint32` subtraction `a - b`. -/
def sub32 (a b : Nat) : Nat :=
  (a + (U32 - b % U32)) % U32

/-- The continuation of `WithdrawItem` for a requester who is present. Returns
the effects in program order and the inventory afterwards. -/
def WithdrawItem {Inv : Type} (host : Host Inv) (catalog : Catalog) (store : Store) (inv : Inv)
    (entry : Nat) : List Effect × Inv :=
  match Store.amountOf entry store with
  | none => ([Effect.message (Message.noStoredReagents entry)], inv)
  | some storedAmount =>
    match catalog entry with
    | none => ([Effect.message (Message.templateNotFound entry)], inv)
    | some temp =>
      let stackSize := temp.maxStack
      if storedAmount ≤ stackSize then
        if host.canStoreNewItem inv entry storedAmount then
          ([Effect.delete entry, Effect.storeNewItem entry storedAmount,
            Effect.message (Message.withdrew storedAmount entry),
            Effect.invalidate temp.SubClass],
           host.storeNewItem inv entry storedAmount)
        else
          ([Effect.message (Message.equipError entry),
            Effect.message (Message.notEnoughBagSpace storedAmount entry)], inv)
      else
        if host.canStoreNewItem inv entry stackSize then
          ([Effect.update entry (storedAmount - stackSize), Effect.storeNewItem entry stackSize,
            Effect.message (Message.withdrew stackSize entry),
            Effect.invalidate temp.SubClass],
           host.storeNewItem inv entry stackSize)
        else
          ([Effect.message (Message.equipError entry),
            Effect.message (Message.notEnoughBagSpace stackSize entry)], inv)

/-- The locals a give loop leaves behind, with the effects it had. -/
structure GiveResult (Inv : Type) where
  effects : List Effect
  remainingBank : Nat
  inventory : Inv
  any : Bool

/-- The loop `while (remainingToGive > 0)` of `WithdrawAllInCategory`: one stack
per iteration until the host refuses. Each iteration lowers `remainingToGive`
when `stackSize > 0`, so `fuel = remainingToGive` is enough. -/
def giveLoop {Inv : Type} (host : Host Inv) (entry stackSize : Nat) :
    Nat → Nat → Nat → Inv → Bool → GiveResult Inv
  | 0, _, remainingBank, inv, any => ⟨[], remainingBank, inv, any⟩
  | fuel + 1, remainingToGive, remainingBank, inv, any =>
    if remainingToGive = 0 then ⟨[], remainingBank, inv, any⟩
    else
      let toGive := min stackSize remainingToGive
      if host.canStoreNewItem inv entry toGive then
        let r := giveLoop host entry stackSize fuel (remainingToGive - toGive)
          (sub32 remainingBank toGive) (host.storeNewItem inv entry toGive) true
        ⟨Effect.storeNewItem entry toGive :: Effect.message (Message.withdrew toGive entry)
            :: r.effects, r.remainingBank, r.inventory, r.any⟩
      else ⟨[Effect.message (Message.equipError entry)], remainingBank, inv, any⟩

/-- The ledger statement both loops of `WithdrawAllInCategory` choose:
`DELETE` when nothing remains, `UPDATE` when the amount changed, else none. -/
def ledgerWrite (entry amount remainingBank : Nat) : List Effect :=
  if remainingBank = 0 then [Effect.delete entry]
  else if remainingBank ≠ amount then [Effect.update entry remainingBank]
  else []

/-- The audit insert of a withdrawal, when auditing is on. -/
def withdrawAudit (auditOn : Bool) (item_subclass entry allowed : Nat) : List Effect :=
  if auditOn ∧ 0 < allowed then
    [Effect.audit AuditAction.WITHDRAW entry item_subclass allowed]
  else []

/-- The body of the first loop `for (auto const& pr : items)` of
`WithdrawAllInCategory` for one row. -/
def withdrawRow {Inv : Type} (host : Host Inv) (catalog : Catalog) (auditOn : Bool)
    (item_subclass : Nat) (sim : UMap) (inv : Inv) (any : Bool) (pr : Nat × Nat) :
    GiveResult Inv :=
  let allowed := UMap.get pr.1 sim
  if allowed = 0 then ⟨[], pr.2, inv, any⟩
  else
    match catalog pr.1 with
    | none => ⟨[], pr.2, inv, any⟩
    | some temp =>
      let g := giveLoop host pr.1 temp.maxStack allowed allowed pr.2 inv any
      ⟨g.effects ++ ledgerWrite pr.1 pr.2 g.remainingBank
          ++ withdrawAudit auditOn item_subclass pr.1 allowed,
        g.remainingBank, g.inventory, g.any⟩

/-- The first loop of `WithdrawAllInCategory` over all rows. -/
def withdrawRows {Inv : Type} (host : Host Inv) (catalog : Catalog) (auditOn : Bool)
    (item_subclass : Nat) (sim : UMap) : List (Nat × Nat) → Inv → Bool → GiveResult Inv
  | [], inv, any => ⟨[], 0, inv, any⟩
  | pr :: rest, inv, any =>
    let r := withdrawRow host catalog auditOn item_subclass sim inv any pr
    let rs := withdrawRows host catalog auditOn item_subclass sim rest r.inventory r.any
    ⟨r.effects ++ rs.effects, rs.remainingBank, rs.inventory, rs.any⟩

/-- The body of the loop that fills the final transaction, for one row. -/
def batchRow (auditOn : Bool) (item_subclass : Nat) (sim : UMap) (pr : Nat × Nat) :
    List Effect :=
  let allowed := UMap.get pr.1 sim
  if allowed = 0 then []
  else
    let remainingBank := if pr.2 > allowed then pr.2 - allowed else 0
    ledgerWrite pr.1 pr.2 remainingBank ++ withdrawAudit auditOn item_subclass pr.1 allowed

/-- The continuation of `WithdrawAllInCategory` for a requester who is present.
Returns the effects in program order and the inventory afterwards. -/
def WithdrawAllInCategory {Inv : Type} (host : Host Inv) (catalog : Catalog) (auditOn : Bool)
    (item_subclass : Nat) (store : Store) (inv : Inv) : List Effect × Inv :=
  let rows := Store.rowsOfCategory item_subclass store
  if rows = [] then ([Effect.message Message.noReagentsToWithdraw], inv)
  else
    let items := rows.map (fun row => (row.item_entry, row.amount))
    let sim := SimulateBatchAdd catalog (host.partials inv) (host.emptySlotsByFamily inv) items
    let r := withdrawRows host catalog auditOn item_subclass sim items inv false
    if r.any = false then
      (r.effects ++ [Effect.message Message.noReagentsWithdrawn], r.inventory)
    else
      (r.effects ++ (items.map (batchRow auditOn item_subclass sim)).flatten
        ++ (if auditOn then [Effect.ensureAuditCleanup] else [])
        ++ [Effect.invalidate item_subclass],
       r.inventory)

/-- The quantity of item `entry` handed to the requester by a list of
effects. -/
def deliveredOf (entry : Nat) : List Effect → Nat
  | [] => 0
  | Effect.storeNewItem e count :: rest =>
    (if e = entry then count else 0) + deliveredOf entry rest
  | _ :: rest => deliveredOf entry rest

/-- An inventory that is a number of free slots: a stack is accepted while a
slot is free and takes one. No bag has a family, no stack is partial. -/
def slotsHost : Host Nat :=
  { canStoreNewItem := fun free _ _ => decide (0 < free)
    storeNewItem := fun free _ _ => free - 1
    partials := fun _ _ => []
    emptySlotsByFamily := fun free => [(0, free)] }

/-- The effect stores no amount 0: an insert-or-update or an update carries a
positive amount. -/
def Effect.WritesPositive : Effect → Prop
  | Effect.upsert _ _ amount => 0 < amount
  | Effect.update _ amount => 0 < amount
  | _ => True

/-- The effect creates no row: it is no insert-or-update. -/
def Effect.NoInsert : Effect → Prop
  | Effect.upsert _ _ _ => False
  | _ => True

/-- Every amount of the store is a `uint32` value. -/
def Store.InRange (store : Store) : Prop :=
  ∀ row ∈ store, row.amount < U32

/-- The item whose row a statement on the ledger table addresses. -/
def Effect.entryOf : Effect → Option Nat
  | Effect.upsert entry _ _ => some entry
  | Effect.delete entry => some entry
  | Effect.update entry _ => some entry
  | _ => none

/-- The statements of an effect list that address the row of item `k`. -/
def statementsOn (k : Nat) (effects : List Effect) : List Effect :=
  effects.filter (fun e => e.entryOf == some k)

/-! ## Audit records of a flow -/

/-- The effect is an insert into the audit table. -/
def Effect.isAudit : Effect → Bool
  | Effect.audit _ _ _ _ => true
  | _ => false

/-- The inserts into the audit table among the effects of a flow, in program
order. -/
def auditRecords (effects : List Effect) : List Effect :=
  effects.filter Effect.isAudit

/-- A requester whose bags show `inv.1` empty unrestricted slots to the scan of
`SimulateBatchAdd` while the host accepts only `inv.2` more stacks, as when the
item has a carry limit the simulator does not look at. -/
def limitedHost : Host (Nat × Nat) :=
  { canStoreNewItem := fun inv _ _ => decide (0 < inv.2)
    storeNewItem := fun inv _ _ => (inv.1 - 1, inv.2 - 1)
    partials := fun _ _ => []
    emptySlotsByFamily := fun inv => [(0, inv.1)] }

/-! ## Audit table and retention sweep -/

/-- A row of `mod_reagent_bank_audit` without its autoincrement id:
`(ts, action, item_entry, item_subclass, delta)`; the storage key columns are
left out as the sweep does not look at them. `ts` is `UNIX_TIMESTAMP()` at the
insert. -/
structure AuditRow where
  ts : Int
  action : AuditAction
  item_entry : Nat
  item_subclass : Nat
  delta : Nat
deriving DecidableEq, Repr

/-- The globals `g_reagentBankAudit`, `g_reagentBankAuditRetentionSeconds` and
`g_reagentBankAuditCleanupIntervalSeconds` (both `uint32`), as the constructor
read them from the configuration. -/
structure AuditConfig where
  g_reagentBankAudit : Bool
  g_reagentBankAuditRetentionSeconds : Nat
  g_reagentBankAuditCleanupIntervalSeconds : Nat
deriving DecidableEq, Repr

/-- The audit table together with the global `g_reagentBankLastCleanup`, a
`time_t` that starts at 0. -/
structure AuditState where
  log : List AuditRow
  g_reagentBankLastCleanup : Int
deriving DecidableEq, Repr

/-- `EnsureAuditCleanup` at game time `now`. `time_t` is a signed 64-bit
integer, so `now - g_reagentBankLastCleanup` and the cutoff
`now - g_reagentBankAuditRetentionSeconds` are integer differences and the
comparison with the `uint32` interval is a signed one. The `DELETE ... WHERE
ts < cutoff` is taken as done at once. -/
def EnsureAuditCleanup (cfg : AuditConfig) (now : Int) (st : AuditState) : AuditState :=
  if cfg.g_reagentBankAudit = false then st
  else if st.g_reagentBankLastCleanup ≠ 0 ∧
      now - st.g_reagentBankLastCleanup < (cfg.g_reagentBankAuditCleanupIntervalSeconds : Int)
    then st
  else
    { log := st.log.filter
        (fun r => decide (¬ r.ts < now - (cfg.g_reagentBankAuditRetentionSeconds : Int)))
      g_reagentBankLastCleanup := now }

/-- The test that lets `EnsureAuditCleanup` sweep: auditing is on, and
`g_reagentBankLastCleanup` is 0 or at least the interval ago. -/
def sweeps (cfg : AuditConfig) (now : Int) (st : AuditState) : Prop :=
  cfg.g_reagentBankAudit = true ∧
  ¬ (st.g_reagentBankLastCleanup ≠ 0 ∧
      now - st.g_reagentBankLastCleanup < (cfg.g_reagentBankAuditCleanupIntervalSeconds : Int))

/-- The defaults of the globals with auditing switched on: seven days of
retention, one hour between sweeps. -/
def defaultAuditConfig : AuditConfig :=
  { g_reagentBankAudit := true
    g_reagentBankAuditRetentionSeconds := 604800
    g_reagentBankAuditCleanupIntervalSeconds := 3600 }

/-! ## The state the flows act on -/

/-- The ledger rows of the storage key, the audit table with
`g_reagentBankLastCleanup`, and the category summary cache. -/
structure World where
  ledger : Store
  audit : AuditState
  cache : CacheState

/-- The state after one effect that takes place at time `now`: a statement on
the ledger table changes the ledger, an audit insert appends a row stamped
`now`, an invalidation acts on the cache, the sweep on the audit table; handing
over an item and chat lines leave the three as they are. -/
def Effect.run (cfg : AuditConfig) (now : Int) (w : World) : Effect → World
  | Effect.upsert entry subclass amount =>
    { w with ledger := Store.upsert entry subclass amount w.ledger }
  | Effect.delete entry => { w with ledger := Store.delete entry w.ledger }
  | Effect.update entry amount => { w with ledger := Store.update entry amount w.ledger }
  | Effect.audit action entry subclass delta =>
    { w with audit :=
        { w.audit with log := w.audit.log ++ [⟨now, action, entry, subclass, delta⟩] } }
  | Effect.invalidate subclass => { w with cache := InvalidateCategorySummary subclass w.cache }
  | Effect.ensureAuditCleanup => { w with audit := EnsureAuditCleanup cfg now w.audit }
  | Effect.storeNewItem _ _ => w
  | Effect.message _ => w

/-- The state after a sequence of effects. -/
def runWorld (cfg : AuditConfig) (now : Int) (effects : List Effect) (w : World) : World :=
  effects.foldl (Effect.run cfg now) w

/-! ## The callbacks of the asynchronous queries -/

/-- The callback of the query of `DepositAllReagents`: `found` tells whether
`ObjectAccessor::FindPlayer(playerGuid)` returned a player, `session` whether
that player has a session; if either fails the callback returns at once. -/
def DepositAllReagentsCallback (K : HostEnums) (catalog : Catalog) (auditOn : Bool)
    (found session : Bool) (store : Store) (inventory : Inventory) : List Effect × Inventory :=
  if found = false ∨ session = false then ([], inventory)
  else DepositAllReagents K catalog auditOn store inventory

/-- The callback of the query of `DepositAllReagentsForCategory`. -/
def DepositAllReagentsForCategoryCallback (K : HostEnums) (catalog : Catalog) (auditOn : Bool)
    (item_subclass : Nat) (found session : Bool) (store : Store) (inventory : Inventory) :
    List Effect × Inventory :=
  if found = false ∨ session = false then ([], inventory)
  else DepositAllReagentsForCategory K catalog auditOn item_subclass store inventory

/-- The callback of the query of `WithdrawAllInCategory`. -/
def WithdrawAllInCategoryCallback {Inv : Type} (host : Host Inv) (catalog : Catalog)
    (auditOn : Bool) (item_subclass : Nat) (found session : Bool) (store : Store) (inv : Inv) :
    List Effect × Inv :=
  if found = false ∨ session = false then ([], inv)
  else WithdrawAllInCategory host catalog auditOn item_subclass store inv

/-- The callback of the query of `WithdrawItem`. -/
def WithdrawItemCallback {Inv : Type} (host : Host Inv) (catalog : Catalog)
    (found session : Bool) (store : Store) (inv : Inv) (entry : Nat) : List Effect × Inv :=
  if found = false ∨ session = false then ([], inv)
  else WithdrawItem host catalog store inv entry

/-- Item 200: a gem of gem subclass 1, stack size 20. -/
def gemB : ItemTemplate := ⟨200, 3, 1, 20, 0⟩

/-- The catalog that knows item 200 only. -/
def gemCatalog : Catalog := fun entry =>
  if entry = 200 then some gemB else none

/-- An audit state with an empty table and no sweep so far. -/
def emptyAudit : AuditState :=
  { log := [], g_reagentBankLastCleanup := 0 }

/-! ## What a deposit removes -/

/-- The quantity removed for item `k`: the counts of the stacks of item `k`
that `AccumulateInventory` takes, added up without a bound. -/
def removedQuantity (K : HostEnums) (filterSubclass : Option Nat) (k : Nat) : Inventory → Nat
  | [] => 0
  | slot :: rest =>
    (match eligibleStack K filterSubclass slot with
      | some (entry, _, count) => if entry = k then count else 0
      | none => 0) + removedQuantity K filterSubclass k rest

/-- The category of item `k` in the inventory: the category computed for the
first stack of item `k` that `AccumulateInventory` takes, `none` when it takes
no stack of item `k`. -/
def categoryOf (K : HostEnums) (filterSubclass : Option Nat) (k : Nat) : Inventory → Option Nat
  | [] => none
  | slot :: rest =>
    match eligibleStack K filterSubclass slot with
    | some (entry, subclass, _) =>
      if entry = k then some subclass else categoryOf K filterSubclass k rest
    | none => categoryOf K filterSubclass k rest

/-- The item of an audit insert. -/
def Effect.auditEntry : Effect → Option Nat
  | Effect.audit _ entry _ _ => some entry
  | _ => none

/-- The inserts into the audit table for item `k` among the effects of a
flow. -/
def auditRecordsOn (k : Nat) (effects : List Effect) : List Effect :=
  (auditRecords effects).filter (fun e => e.auditEntry == some k)

/-- Item 300: a trade good of subclass 5 with the largest stack size of the
host, 2147483646. -/
def bulkItem : ItemTemplate := ⟨300, 7, 5, 2147483646, 0⟩

/-- Three full stacks of item 300. -/
def bulkInventory : Inventory :=
  [some ⟨some bulkItem, 2147483646⟩, some ⟨some bulkItem, 2147483646⟩,
    some ⟨some bulkItem, 2147483646⟩]

/-- The catalog that knows item 300 only. -/
def bulkCatalog : Catalog := fun entry =>
  if entry = 300 then some bulkItem else none

/-! ## Category summary of a storage key -/

/-- Number of values of a `uint64`. -/
def U64 : Nat := 18446744073709551616

/-- The table `mod_reagent_bank_account`: the rows of every storage key
`(account_id, guid)`. -/
abbrev Database := Nat → Nat → Store

/-- The answer of `SELECT COUNT(*), COALESCE(SUM(amount),0) ... WHERE
account_id = .. AND guid = .. AND item_subclass = ..` as the code reads it:
the count with `Get<uint32>()`, the sum with `Get<uint64>()`. The aggregate
query has one result row whatever the table holds. -/
def summaryQuery (db : Database) (subclass accountId guid : Nat) : Option (Nat × Nat) :=
  some ((Store.rowsOfCategory subclass (db accountId guid)).length % U32,
    ((Store.rowsOfCategory subclass (db accountId guid)).map Row.amount).sum % U64)

/-- `GetCategorySummary`: the cached pair if the category has one, else the
answer of `query` (the call `CharacterDatabase.Query`), which is stored; a null
query result stores and returns `(0, 0)`. Returns the pair and the cache
afterwards. -/
def GetCategorySummary (query : Nat → Nat → Nat → Option (Nat × Nat))
    (subclass accountId guid : Nat) (st : CacheState) : (Nat × Nat) × CacheState :=
  match GetCachedCategorySummary subclass st with
  | some cached => (cached, st)
  | none =>
    match query subclass accountId guid with
    | some (distinctCount, totalAmount) =>
      ((distinctCount, totalAmount),
        StoreCategorySummary subclass (distinctCount, totalAmount) st)
    | none => ((0, 0), StoreCategorySummary subclass (0, 0) st)

/-- A table with two storage keys: key `(1, 0)` holds 45 of item 100 in
category 5, key `(2, 0)` holds nothing. -/
def twoKeys : Database := fun accountId guid =>
  if accountId = 1 ∧ guid = 0 then [⟨100, 5, 45⟩] else []

/-! ## Order of the effects of a flow -/

/-- The effect is a statement on the ledger table. -/
def Effect.isLedgerWrite : Effect → Bool
  | Effect.upsert _ _ _ => true
  | Effect.delete _ => true
  | Effect.update _ _ => true
  | _ => false

/-- The effect is a call of `InvalidateCategorySummary`. -/
def Effect.isInvalidation : Effect → Bool
  | Effect.invalidate _ => true
  | _ => false

/-- Every effect of kind `p` precedes every effect of kind `q`: no effect of
kind `q` has an effect of kind `p` after it. -/
def allBefore (p q : Effect → Bool) (effects : List Effect) : Prop :=
  effects.Pairwise (fun a b => ¬ (q a = true ∧ p b = true))

/-! ## Eligible stacks, in the words of the specification -/

/-- The category of an item: Jewelcrafting for a gem, else its subclass. -/
def categoryOfTemplate (K : HostEnums) (t : ItemTemplate) : Nat :=
  if t.Class = K.ITEM_CLASS_GEM then K.ITEM_SUBCLASS_JEWELCRAFTING else t.SubClass

/-- An eligible item: its class is trade goods or gem, its stack size is not 1,
and, when a category filter is given, its category equals the filter. -/
def eligibleItem (K : HostEnums) (filterSubclass : Option Nat) (t : ItemTemplate) : Bool :=
  decide ((t.Class = K.ITEM_CLASS_TRADE_GOODS ∨ t.Class = K.ITEM_CLASS_GEM) ∧
    t.maxStack ≠ 1 ∧ ∀ c, filterSubclass = some c → categoryOfTemplate K t = c)

/-- The sum of the counts of the stacks of an eligible item with id `k`. -/
def eligibleCount (K : HostEnums) (filterSubclass : Option Nat) (k : Nat) : Inventory → Nat
  | [] => 0
  | slot :: rest =>
    (match slot with
      | some ⟨some t, count⟩ =>
        if t.ItemId = k ∧ eligibleItem K filterSubclass t = true then count else 0
      | _ => 0) + eligibleCount K filterSubclass k rest

/-- The inventory without the stacks of eligible items. -/
def withoutEligible (K : HostEnums) (filterSubclass : Option Nat) (inventory : Inventory) :
    Inventory :=
  inventory.map (fun slot =>
    match slot with
    | some ⟨some t, _⟩ => if eligibleItem K filterSubclass t = true then none else slot
    | _ => slot)

/-! ## The main menu (`OnGossipHello`) -/

/-- The assignment `fresh[sc] = {distinct, total}` on the local
`unordered_map` of `OnGossipHello`: the entry of `sc` is replaced, or added. -/
def freshSet (sc : Nat) (summary : Nat × Nat) :
    List (Nat × (Nat × Nat)) → List (Nat × (Nat × Nat))
  | [] => [(sc, summary)]
  | (k, v) :: rest =>
    if k = sc then (k, summary) :: rest else (k, v) :: freshSet sc summary rest

/-- The result rows of `SELECT item_subclass, COUNT(*), COALESCE(SUM(amount),0)
... WHERE account_id = .. AND guid = .. GROUP BY item_subclass` as the callback
reads them: one row per subclass that has a row under the storage key, the
count read with `Get<uint32>()`, the sum with `Get<uint64>()`. No row at all is
the null result. -/
def groupSummaryQuery (db : Database) (accountId guid : Nat) : List (Nat × Nat × Nat) :=
  ((db accountId guid).map Row.item_subclass).dedup.map (fun sc =>
    (sc, (Store.rowsOfCategory sc (db accountId guid)).length % U32,
      ((Store.rowsOfCategory sc (db accountId guid)).map Row.amount).sum % U64))

/-- The callback of the query of `OnGossipHello` on the result rows `result`:
the rows are collected in `fresh`, every entry of `fresh` is stored in the
summary cache, and the menu gets one line per category of `kCategories` with
the cached pair of that category, `(0, 0)` when the cache has none. Returns the
lines `(subclass, distinctItems, totalAmount)` and the cache afterwards; a
requester who is gone gets nothing. `kCategories` holds the subclasses of the
table of that name, whose values are host enumeration constants. -/
def OnGossipHelloCallback (kCategories : List Nat) (found session : Bool)
    (result : List (Nat × Nat × Nat)) (st : CacheState) :
    List (Nat × Nat × Nat) × CacheState :=
  if found = false ∨ session = false then ([], st)
  else
    let fresh := result.foldl (fun m row => freshSet row.1 (row.2.1, row.2.2) m) []
    let st' := fresh.foldl (fun c kv => StoreCategorySummary kv.1 kv.2 c) st
    (kCategories.map (fun subclass =>
        match GetCachedCategorySummary subclass st' with
        | some cached => (subclass, cached.1, cached.2)
        | none => (subclass, 0, 0)),
      st')

/-- The subclasses of `kCategories` in its order, with the values of the host
enumeration: cloth 5, meat 8, metal and stone 7, enchanting 12, elemental 10,
parts 1, other 11, herb 9, leather 6, jewelcrafting 4, explosives 2, devices 3,
material 13, armor enchantment 14, weapon enchantment 15. -/
def exampleCategories : List Nat := [5, 8, 7, 12, 10, 1, 11, 9, 6, 4, 2, 3, 13, 14, 15]

/-! # Theorems -/

/-! ## Lemmas on `UMap` -/

theorem UMap.find_addTo_self (k v : Nat) (m : UMap) :
    UMap.find k (UMap.addTo k v m) = some ((UMap.get k m + v) % U32) := by
  induction m with
  | nil => simp [UMap.addTo, UMap.find, UMap.get]
  | cons hd tl ih =>
    obtain ⟨k', v'⟩ := hd
    unfold UMap.addTo
    by_cases h1 : k < k'
    · simp [UMap.find, UMap.get, h1]
    · by_cases h2 : k = k'
      · subst h2
        simp [UMap.find, UMap.get]
      · simp only [h1, h2, if_false, UMap.find, UMap.get] at ih ⊢
        exact ih

theorem UMap.get_addTo_self (k v : Nat) (m : UMap) :
    UMap.get k (UMap.addTo k v m) = (UMap.get k m + v) % U32 := by
  simp [UMap.get, UMap.find_addTo_self]

theorem UMap.find_addTo_ne {j k : Nat} (h : j ≠ k) (v : Nat) (m : UMap) :
    UMap.find j (UMap.addTo k v m) = UMap.find j m := by
  induction m with
  | nil =>
    simp only [UMap.addTo, UMap.find]
    split_ifs <;> rfl
  | cons hd tl ih =>
    obtain ⟨k', v'⟩ := hd
    unfold UMap.addTo
    by_cases h1 : k < k'
    · simp only [h1, if_true, UMap.find]
      split_ifs <;> first | rfl | omega
    · by_cases h2 : k = k'
      · subst h2
        simp only [lt_irrefl, if_false, if_true, UMap.find]
        split_ifs <;> rfl
      · simp only [h1, h2, if_false, UMap.find, ih]

theorem UMap.get_addTo_ne {j k : Nat} (h : j ≠ k) (v : Nat) (m : UMap) :
    UMap.get j (UMap.addTo k v m) = UMap.get j m := by
  simp [UMap.get, UMap.find_addTo_ne h]

theorem UMap.get_addTo_le (j k v : Nat) (m : UMap) :
    UMap.get j (UMap.addTo k v m) ≤ UMap.get j m + (if j = k then v else 0) := by
  by_cases h : j = k
  · subst h
    rw [UMap.get_addTo_self]
    simp only [if_true]
    exact Nat.mod_le _ _
  · simp [UMap.get_addTo_ne h, h]

theorem UMap.total_addTo_le (k v : Nat) (m : UMap) :
    UMap.total (UMap.addTo k v m) ≤ UMap.total m + v := by
  induction m with
  | nil =>
    simp only [UMap.addTo, UMap.total, List.map, List.sum_cons, List.sum_nil]
    have := Nat.mod_le v U32
    omega
  | cons hd tl ih =>
    obtain ⟨k', v'⟩ := hd
    unfold UMap.addTo
    have hv := Nat.mod_le v U32
    have hv' := Nat.mod_le (v' + v) U32
    simp only [UMap.total] at ih
    split_ifs
    · simp only [UMap.total, List.map, List.sum_cons]
      omega
    · simp only [UMap.total, List.map, List.sum_cons]
      omega
    · simp only [UMap.total, List.map, List.sum_cons]
      omega

/-! ## The simulator never grants more than requested -/

theorem fillPartialStacks_get_le (entry j : Nat) (vec : List Nat) (remaining : Nat) (g : UMap) :
    UMap.get j (fillPartialStacks entry vec remaining g).2.2 +
        (if j = entry then (fillPartialStacks entry vec remaining g).2.1 else 0)
      ≤ UMap.get j g + (if j = entry then remaining else 0) := by
  induction vec generalizing remaining g with
  | nil => simp [fillPartialStacks]
  | cons f rest ih =>
    unfold fillPartialStacks
    by_cases h0 : remaining = 0
    · simp [h0]
    · simp only [h0, if_false]
      have h1 := ih (remaining - min f remaining) (UMap.addTo entry (min f remaining) g)
      have h2 := UMap.get_addTo_le j entry (min f remaining) g
      have h3 : min f remaining ≤ remaining := Nat.min_le_right _ _
      split_ifs at h1 h2 ⊢ <;> omega

theorem fillPartialStacks_total_le (entry : Nat) (vec : List Nat) (remaining : Nat) (g : UMap) :
    UMap.total (fillPartialStacks entry vec remaining g).2.2 +
        (fillPartialStacks entry vec remaining g).2.1 ≤ UMap.total g + remaining := by
  induction vec generalizing remaining g with
  | nil => simp [fillPartialStacks]
  | cons f rest ih =>
    unfold fillPartialStacks
    by_cases h0 : remaining = 0
    · simp [h0]
    · simp only [h0, if_false]
      have h1 := ih (remaining - min f remaining) (UMap.addTo entry (min f remaining) g)
      have h2 := UMap.total_addTo_le entry (min f remaining) g
      have h3 : min f remaining ≤ remaining := Nat.min_le_right _ _
      omega

/-- What a successful `placeStep` returns: the table after one of the two
takes, the request lowered by the created stack, the stack added to the map. -/
theorem placeStep_some {entry maxStack bagFamily remaining : Nat} {table : SlotTable}
    {g : UMap} {r : Nat × SlotTable × UMap}
    (h : placeStep entry maxStack bagFamily remaining table g = some r) :
    r.1 = remaining - min maxStack remaining ∧
    r.2.2 = UMap.addTo entry (min maxStack remaining) g ∧
    (takeSpecialty bagFamily table = some r.2.1 ∨
      (takeSpecialty bagFamily table = none ∧ takeGeneric table = some r.2.1)) := by
  unfold placeStep at h
  cases hs : takeSpecialty bagFamily table with
  | some t' =>
    rw [hs] at h
    simp only [Option.some.injEq] at h
    subst h
    simp
  | none =>
    rw [hs] at h
    cases hg : takeGeneric table with
    | none => rw [hg] at h; simp at h
    | some t' =>
      rw [hg] at h
      simp only [Option.some.injEq] at h
      subst h
      simp

theorem placeLoop_get_le (entry maxStack bagFamily j : Nat) (fuel remaining : Nat)
    (table : SlotTable) (g : UMap) :
    UMap.get j (placeLoop entry maxStack bagFamily fuel remaining table g).2.2 +
        (if j = entry then (placeLoop entry maxStack bagFamily fuel remaining table g).1 else 0)
      ≤ UMap.get j g + (if j = entry then remaining else 0) := by
  induction fuel generalizing remaining table g with
  | zero => simp [placeLoop]
  | succ n ih =>
    unfold placeLoop
    by_cases h0 : remaining = 0
    · simp [h0]
    · simp only [h0, if_false]
      cases hp : placeStep entry maxStack bagFamily remaining table g with
      | none => simp
      | some r =>
        simp only
        obtain ⟨hr1, hr2, -⟩ := placeStep_some hp
        have h1 := ih r.1 r.2.1 r.2.2
        have h2 := UMap.get_addTo_le j entry (min maxStack remaining) g
        have h3 : min maxStack remaining ≤ remaining := Nat.min_le_right _ _
        rw [hr2, hr1] at h1
        rw [hr2, hr1]
        split_ifs at h1 h2 ⊢ <;> omega

theorem placeLoop_total_le (entry maxStack bagFamily : Nat) (fuel remaining : Nat)
    (table : SlotTable) (g : UMap) :
    UMap.total (placeLoop entry maxStack bagFamily fuel remaining table g).2.2 +
        (placeLoop entry maxStack bagFamily fuel remaining table g).1
      ≤ UMap.total g + remaining := by
  induction fuel generalizing remaining table g with
  | zero => simp [placeLoop]
  | succ n ih =>
    unfold placeLoop
    by_cases h0 : remaining = 0
    · simp [h0]
    · simp only [h0, if_false]
      cases hp : placeStep entry maxStack bagFamily remaining table g with
      | none => simp
      | some r =>
        simp only
        obtain ⟨hr1, hr2, -⟩ := placeStep_some hp
        have h1 := ih r.1 r.2.1 r.2.2
        have h2 := UMap.total_addTo_le entry (min maxStack remaining) g
        have h3 : min maxStack remaining ≤ remaining := Nat.min_le_right _ _
        rw [hr2, hr1] at h1
        rw [hr2, hr1]
        omega

theorem simulateRequest_get_le (catalog : Catalog) (s : SimState) (pr : Nat × Nat) (j : Nat) :
    UMap.get j (simulateRequest catalog s pr).granted
      ≤ UMap.get j s.granted + (if j = pr.1 then pr.2 else 0) := by
  unfold simulateRequest
  cases hc : catalog pr.1 with
  | none => simp
  | some temp =>
    simp only
    by_cases hm : temp.maxStack = 0
    · simp [hm]
    · simp only [hm, if_false]
      have h1 := fillPartialStacks_get_le pr.1 j (s.partials pr.1) pr.2 s.granted
      have h2 := placeLoop_get_le pr.1 temp.maxStack temp.bagFamily j
        (fillPartialStacks pr.1 (s.partials pr.1) pr.2 s.granted).2.1
        (fillPartialStacks pr.1 (s.partials pr.1) pr.2 s.granted).2.1
        s.emptySlotsByFamily (fillPartialStacks pr.1 (s.partials pr.1) pr.2 s.granted).2.2
      split_ifs at h1 h2 ⊢ <;> omega

theorem simulateRequest_total_le (catalog : Catalog) (s : SimState) (pr : Nat × Nat) :
    UMap.total (simulateRequest catalog s pr).granted ≤ UMap.total s.granted + pr.2 := by
  unfold simulateRequest
  cases hc : catalog pr.1 with
  | none => simp
  | some temp =>
    simp only
    by_cases hm : temp.maxStack = 0
    · simp [hm]
    · simp only [hm, if_false]
      have h1 := fillPartialStacks_total_le pr.1 (s.partials pr.1) pr.2 s.granted
      have h2 := placeLoop_total_le pr.1 temp.maxStack temp.bagFamily
        (fillPartialStacks pr.1 (s.partials pr.1) pr.2 s.granted).2.1
        (fillPartialStacks pr.1 (s.partials pr.1) pr.2 s.granted).2.1
        s.emptySlotsByFamily (fillPartialStacks pr.1 (s.partials pr.1) pr.2 s.granted).2.2
      omega

theorem foldl_simulateRequest_total_le (catalog : Catalog) (items : List (Nat × Nat))
    (s : SimState) :
    UMap.total (items.foldl (simulateRequest catalog) s).granted
      ≤ UMap.total s.granted + requestedTotal items := by
  induction items generalizing s with
  | nil => simp [requestedTotal]
  | cons pr rest ih =>
    have h1 := ih (simulateRequest catalog s pr)
    have h2 := simulateRequest_total_le catalog s pr
    simp only [requestedTotal, List.map, List.sum_cons, List.foldl] at h1 ⊢
    omega

/-- Requests for other items leave the granted amount of `j` as it is. -/
theorem foldl_simulateRequest_get_notin (catalog : Catalog) (items : List (Nat × Nat))
    (s : SimState) (j : Nat) (hj : j ∉ items.map Prod.fst) :
    UMap.get j (items.foldl (simulateRequest catalog) s).granted ≤ UMap.get j s.granted := by
  induction items generalizing s with
  | nil => simp
  | cons pr rest ih =>
    simp only [List.map, List.mem_cons, not_or] at hj
    have h1 := ih (simulateRequest catalog s pr) hj.2
    have h2 := simulateRequest_get_le catalog s pr j
    simp only [hj.1, if_false] at h2
    simp only [List.foldl]
    omega

theorem foldl_simulateRequest_get_le (catalog : Catalog) (items : List (Nat × Nat))
    (s : SimState) (hnd : (items.map Prod.fst).Nodup) (pr : Nat × Nat) (hpr : pr ∈ items) :
    UMap.get pr.1 (items.foldl (simulateRequest catalog) s).granted
      ≤ UMap.get pr.1 s.granted + pr.2 := by
  induction items generalizing s with
  | nil => simp at hpr
  | cons hd rest ih =>
    simp only [List.map, List.nodup_cons] at hnd
    simp only [List.foldl]
    rcases List.mem_cons.mp hpr with h | h
    · subst h
      have h1 := foldl_simulateRequest_get_notin catalog rest (simulateRequest catalog s pr)
        pr.1 hnd.1
      have h2 := simulateRequest_get_le catalog s pr pr.1
      simp only [if_true] at h2
      omega
    · have hne : pr.1 ≠ hd.1 := by
        intro heq
        exact hnd.1 (heq ▸ List.mem_map_of_mem Prod.fst h)
      have h1 := ih (simulateRequest catalog s hd) hnd.2 h
      have h2 := simulateRequest_get_le catalog s hd pr.1
      simp only [hne, if_false] at h2
      omega

/-! ## Slot table lemmas -/

theorem dec32_lt {c : Nat} (h : c ≠ 0) : dec32 c + 1 ≤ c := by
  unfold dec32 U32
  omega

theorem dec32_exact {c : Nat} (h : c ≠ 0) (hc : c < U32) : dec32 c = c - 1 := by
  unfold dec32
  unfold U32 at hc ⊢
  omega

/-- A successful specialty scan decrements exactly the first entry with a
non-zero mask, a non-zero count and a compatible mask. -/
theorem takeSpecialty_some {bagFamily : Nat} {table table' : SlotTable}
    (h : takeSpecialty bagFamily table = some table') :
    ∃ l1 mask count l2, table = l1 ++ (mask, count) :: l2 ∧
      table' = l1 ++ (mask, dec32 count) :: l2 ∧
      mask ≠ 0 ∧ count ≠ 0 ∧ fitsSpecialty bagFamily mask = true ∧
      ∀ p ∈ l1, p.1 = 0 ∨ p.2 = 0 ∨ fitsSpecialty bagFamily p.1 = false := by
  induction table generalizing table' with
  | nil => simp [takeSpecialty] at h
  | cons hd tl ih =>
    obtain ⟨mask, count⟩ := hd
    unfold takeSpecialty at h
    by_cases h1 : mask = 0 ∨ count = 0
    · simp only [h1, if_true, Option.map_eq_some'] at h
      obtain ⟨r, hr, hr'⟩ := h
      obtain ⟨l1, m, c, l2, e1, e2, hm, hc, hf, hall⟩ := ih hr
      refine ⟨(mask, count) :: l1, m, c, l2, by simp [e1], by simp [← hr', e2], hm, hc, hf, ?_⟩
      intro p hp
      rcases List.mem_cons.mp hp with hp | hp
      · subst hp
        rcases h1 with h1 | h1
        · exact Or.inl h1
        · exact Or.inr (Or.inl h1)
      · exact hall p hp
    · simp only [h1, if_false] at h
      by_cases h2 : fitsSpecialty bagFamily mask = true
      · simp only [h2, Bool.not_true, Bool.false_eq_true, if_false, Option.some.injEq] at h
        simp only [not_or] at h1
        exact ⟨[], mask, count, tl, by simp, by simp [← h], h1.1, h1.2, h2, by simp⟩
      · simp only [Bool.not_eq_true] at h2
        simp only [h2, Bool.not_false, if_true, Option.map_eq_some'] at h
        obtain ⟨r, hr, hr'⟩ := h
        obtain ⟨l1, m, c, l2, e1, e2, hm, hc, hf, hall⟩ := ih hr
        refine ⟨(mask, count) :: l1, m, c, l2, by simp [e1], by simp [← hr', e2], hm, hc, hf, ?_⟩
        intro p hp
        rcases List.mem_cons.mp hp with hp | hp
        · subst hp
          exact Or.inr (Or.inr h2)
        · exact hall p hp

/-- The specialty scan places nothing exactly when no entry with a non-zero
mask that is compatible has a slot left. -/
theorem takeSpecialty_none {bagFamily : Nat} {table : SlotTable}
    (h : takeSpecialty bagFamily table = none) :
    ∀ p ∈ table, p.1 = 0 ∨ p.2 = 0 ∨ fitsSpecialty bagFamily p.1 = false := by
  induction table with
  | nil => simp
  | cons hd tl ih =>
    obtain ⟨mask, count⟩ := hd
    unfold takeSpecialty at h
    by_cases h1 : mask = 0 ∨ count = 0
    · simp only [h1, if_true, Option.map_eq_none'] at h
      intro p hp
      rcases List.mem_cons.mp hp with hp | hp
      · subst hp
        rcases h1 with h1 | h1
        · exact Or.inl h1
        · exact Or.inr (Or.inl h1)
      · exact ih h p hp
    · simp only [h1, if_false] at h
      by_cases h2 : fitsSpecialty bagFamily mask = true
      · simp [h2] at h
      · simp only [Bool.not_eq_true] at h2
        simp only [h2, Bool.not_false, if_true, Option.map_eq_none'] at h
        intro p hp
        rcases List.mem_cons.mp hp with hp | hp
        · subst hp
          exact Or.inr (Or.inr h2)
        · exact ih h p hp

/-- A successful fallback decrements the first entry for mask 0. -/
theorem takeGeneric_some {table table' : SlotTable} (h : takeGeneric table = some table') :
    ∃ l1 count l2, table = l1 ++ (0, count) :: l2 ∧
      table' = l1 ++ (0, dec32 count) :: l2 ∧ count ≠ 0 ∧ ∀ p ∈ l1, p.1 ≠ 0 := by
  induction table generalizing table' with
  | nil => simp [takeGeneric] at h
  | cons hd tl ih =>
    obtain ⟨mask, count⟩ := hd
    unfold takeGeneric at h
    by_cases h1 : mask = 0
    · subst h1
      by_cases h2 : count = 0
      · simp [h2] at h
      · simp only [if_true, h2, if_false, Option.some.injEq] at h
        exact ⟨[], count, tl, by simp, by simp [← h], h2, by simp⟩
    · simp only [h1, if_false, Option.map_eq_some'] at h
      obtain ⟨r, hr, hr'⟩ := h
      obtain ⟨l1, c, l2, e1, e2, hc, hall⟩ := ih hr
      refine ⟨(mask, count) :: l1, c, l2, by simp [e1], by simp [← hr', e2], hc, ?_⟩
      intro p hp
      rcases List.mem_cons.mp hp with hp | hp
      · subst hp
        exact h1
      · exact hall p hp

theorem fitsSpecialty_zero (bagFamily : Nat) : fitsSpecialty bagFamily 0 = true := by
  simp [fitsSpecialty]

/-- Every stack that `placeStep` creates takes one slot from one entry of the
table, an entry the item fits and that had a slot left. -/
theorem placeStep_table {entry maxStack bagFamily remaining : Nat} {table : SlotTable}
    {g : UMap} {r : Nat × SlotTable × UMap}
    (h : placeStep entry maxStack bagFamily remaining table g = some r) :
    ∃ l1 mask count l2, table = l1 ++ (mask, count) :: l2 ∧
      r.2.1 = l1 ++ (mask, dec32 count) :: l2 ∧ count ≠ 0 ∧
      fitsSpecialty bagFamily mask = true := by
  obtain ⟨-, -, hs | ⟨-, hg⟩⟩ := placeStep_some h
  · obtain ⟨l1, m, c, l2, e1, e2, -, hc, hf, -⟩ := takeSpecialty_some hs
    exact ⟨l1, m, c, l2, e1, e2, hc, hf⟩
  · obtain ⟨l1, c, l2, e1, e2, hc, -⟩ := takeGeneric_some hg
    exact ⟨l1, 0, c, l2, e1, e2, hc, fitsSpecialty_zero _⟩

theorem compatibleSlots_append (f : Nat) (l1 l2 : SlotTable) :
    compatibleSlots f (l1 ++ l2) = compatibleSlots f l1 + compatibleSlots f l2 := by
  simp [compatibleSlots]

theorem compatibleSlots_cons (f : Nat) (p : Nat × Nat) (l : SlotTable) :
    compatibleSlots f (p :: l) =
      (if fitsSpecialty f p.1 = true then p.2 else 0) + compatibleSlots f l := by
  unfold compatibleSlots
  by_cases h : fitsSpecialty f p.1 = true
  · simp [List.filter_cons, h]
  · simp [List.filter_cons, h]

/-! ## The simulator never allocates more than the capacity -/

theorem noGain_refl (t : SlotTable) :
    List.Forall₂ (fun a b : Nat × Nat => a.1 = b.1 ∧ b.2 ≤ a.2) t t := by
  induction t with
  | nil => exact List.Forall₂.nil
  | cons hd tl ih => exact List.Forall₂.cons ⟨rfl, le_refl _⟩ ih

theorem noGain_trans {t1 t2 t3 : SlotTable}
    (h12 : List.Forall₂ (fun a b : Nat × Nat => a.1 = b.1 ∧ b.2 ≤ a.2) t1 t2)
    (h23 : List.Forall₂ (fun a b : Nat × Nat => a.1 = b.1 ∧ b.2 ≤ a.2) t2 t3) :
    List.Forall₂ (fun a b : Nat × Nat => a.1 = b.1 ∧ b.2 ≤ a.2) t1 t3 := by
  induction h12 generalizing t3 with
  | nil => cases h23; exact List.Forall₂.nil
  | cons hab _ ih =>
    cases h23 with
    | cons hbc htl =>
      exact List.Forall₂.cons ⟨hab.1.trans hbc.1, le_trans hbc.2 hab.2⟩ (ih htl)

theorem noGain_decrement (l1 l2 : SlotTable) (mask count : Nat) (hc : count ≠ 0) :
    List.Forall₂ (fun a b : Nat × Nat => a.1 = b.1 ∧ b.2 ≤ a.2)
      (l1 ++ (mask, count) :: l2) (l1 ++ (mask, dec32 count) :: l2) := by
  induction l1 with
  | nil =>
    have := dec32_lt hc
    exact List.Forall₂.cons ⟨rfl, by simp only; omega⟩ (noGain_refl l2)
  | cons hd tl ih => exact List.Forall₂.cons ⟨rfl, le_refl _⟩ ih

theorem compatibleSlots_noGain (f : Nat) {t t' : SlotTable}
    (h : List.Forall₂ (fun a b : Nat × Nat => a.1 = b.1 ∧ b.2 ≤ a.2) t t') :
    compatibleSlots f t' ≤ compatibleSlots f t := by
  induction h with
  | nil => simp
  | cons hab _ ih =>
    rw [compatibleSlots_cons, compatibleSlots_cons, ← hab.1]
    have := hab.2
    split_ifs <;> omega

theorem compatibleSlots_decrement (f : Nat) (l1 l2 : SlotTable) (mask count : Nat)
    (hc : count ≠ 0) (hf : fitsSpecialty f mask = true) :
    compatibleSlots f (l1 ++ (mask, dec32 count) :: l2) + 1
      ≤ compatibleSlots f (l1 ++ (mask, count) :: l2) := by
  have := dec32_lt hc
  simp only [compatibleSlots_append, compatibleSlots_cons, hf, if_true]
  omega

theorem placeLoop_noGain (entry maxStack bagFamily : Nat) (fuel remaining : Nat)
    (table : SlotTable) (g : UMap) :
    List.Forall₂ (fun a b : Nat × Nat => a.1 = b.1 ∧ b.2 ≤ a.2) table
      (placeLoop entry maxStack bagFamily fuel remaining table g).2.1 := by
  induction fuel generalizing remaining table g with
  | zero => exact noGain_refl table
  | succ n ih =>
    unfold placeLoop
    by_cases h0 : remaining = 0
    · simp only [h0, if_true]
      exact noGain_refl table
    · simp only [h0, if_false]
      cases hp : placeStep entry maxStack bagFamily remaining table g with
      | none => exact noGain_refl table
      | some r =>
        simp only
        obtain ⟨l1, mask, count, l2, e1, e2, hc, -⟩ := placeStep_table hp
        have h1 := ih r.1 r.2.1 r.2.2
        have h2 := noGain_decrement l1 l2 mask count hc
        rw [← e1, ← e2] at h2
        exact noGain_trans h2 h1

theorem simulateRequest_noGain (catalog : Catalog) (s : SimState) (pr : Nat × Nat) :
    List.Forall₂ (fun a b : Nat × Nat => a.1 = b.1 ∧ b.2 ≤ a.2) s.emptySlotsByFamily
      (simulateRequest catalog s pr).emptySlotsByFamily := by
  unfold simulateRequest
  cases hc : catalog pr.1 with
  | none => exact noGain_refl _
  | some temp =>
    simp only
    by_cases hm : temp.maxStack = 0
    · simp only [hm, if_true]
      exact noGain_refl _
    · simp only [hm, if_false]
      exact placeLoop_noGain _ _ _ _ _ _ _

theorem foldl_simulateRequest_noGain (catalog : Catalog) (items : List (Nat × Nat))
    (s : SimState) :
    List.Forall₂ (fun a b : Nat × Nat => a.1 = b.1 ∧ b.2 ≤ a.2) s.emptySlotsByFamily
      (items.foldl (simulateRequest catalog) s).emptySlotsByFamily := by
  induction items generalizing s with
  | nil => exact noGain_refl _
  | cons pr rest ih =>
    exact noGain_trans (simulateRequest_noGain catalog s pr) (ih (simulateRequest catalog s pr))

/-- The fill loop hands out no more than the free space it takes from the
partial stacks. -/
theorem fillPartialStacks_free (entry : Nat) (vec : List Nat) (remaining : Nat) (g : UMap) :
    UMap.get entry (fillPartialStacks entry vec remaining g).2.2 +
        freeTotal (fillPartialStacks entry vec remaining g).1
      ≤ UMap.get entry g + freeTotal vec := by
  induction vec generalizing remaining g with
  | nil => simp [fillPartialStacks]
  | cons f rest ih =>
    unfold fillPartialStacks
    by_cases h0 : remaining = 0
    · simp [h0]
    · simp only [h0, if_false]
      have h1 := ih (remaining - min f remaining) (UMap.addTo entry (min f remaining) g)
      have h2 := UMap.get_addTo_le entry entry (min f remaining) g
      have h3 : min f remaining ≤ f := Nat.min_le_left _ _
      simp only [if_true] at h2
      simp only [freeTotal, List.sum_cons] at h1 ⊢
      omega

theorem freeTotal_removeExhausted (vec : List Nat) :
    freeTotal (removeExhausted vec) = freeTotal vec := by
  induction vec with
  | nil => rfl
  | cons f rest ih =>
    simp only [freeTotal, removeExhausted] at ih ⊢
    by_cases h : f = 0
    · simp [List.filter_cons, h, ih]
    · simp [List.filter_cons, h, ih]

/-- The placement loop hands out at most `maxStack` per slot it takes, and every
slot it takes is one the item fits. -/
theorem placeLoop_capacity (entry maxStack bagFamily : Nat) (fuel remaining : Nat)
    (table : SlotTable) (g : UMap) :
    UMap.get entry (placeLoop entry maxStack bagFamily fuel remaining table g).2.2 +
        maxStack * compatibleSlots bagFamily
          (placeLoop entry maxStack bagFamily fuel remaining table g).2.1
      ≤ UMap.get entry g + maxStack * compatibleSlots bagFamily table := by
  induction fuel generalizing remaining table g with
  | zero => simp [placeLoop]
  | succ n ih =>
    unfold placeLoop
    by_cases h0 : remaining = 0
    · simp [h0]
    · simp only [h0, if_false]
      cases hp : placeStep entry maxStack bagFamily remaining table g with
      | none => simp
      | some r =>
        simp only
        obtain ⟨-, hr2, -⟩ := placeStep_some hp
        obtain ⟨l1, mask, count, l2, e1, e2, hc, hf⟩ := placeStep_table hp
        have h1 := ih r.1 r.2.1 r.2.2
        have h2 := UMap.get_addTo_le entry entry (min maxStack remaining) g
        have h3 : min maxStack remaining ≤ maxStack := Nat.min_le_left _ _
        have h4 := compatibleSlots_decrement bagFamily l1 l2 mask count hc hf
        rw [← e1, ← e2] at h4
        have h5 := Nat.mul_le_mul_left maxStack h4
        rw [Nat.mul_add, Nat.mul_one] at h5
        simp only [if_true] at h2
        rw [← hr2] at h2
        omega

theorem fillPartialStacks_find_ne {entry j : Nat} (h : j ≠ entry) (vec : List Nat)
    (remaining : Nat) (g : UMap) :
    UMap.find j (fillPartialStacks entry vec remaining g).2.2 = UMap.find j g := by
  induction vec generalizing remaining g with
  | nil => simp [fillPartialStacks]
  | cons f rest ih =>
    unfold fillPartialStacks
    by_cases h0 : remaining = 0
    · simp [h0]
    · simp only [h0, if_false]
      rw [ih, UMap.find_addTo_ne h]

theorem placeLoop_find_ne {entry j : Nat} (h : j ≠ entry) (maxStack bagFamily : Nat)
    (fuel remaining : Nat) (table : SlotTable) (g : UMap) :
    UMap.find j (placeLoop entry maxStack bagFamily fuel remaining table g).2.2
      = UMap.find j g := by
  induction fuel generalizing remaining table g with
  | zero => simp [placeLoop]
  | succ n ih =>
    unfold placeLoop
    by_cases h0 : remaining = 0
    · simp [h0]
    · simp only [h0, if_false]
      cases hp : placeStep entry maxStack bagFamily remaining table g with
      | none => simp
      | some r =>
        simp only
        obtain ⟨-, hr2, -⟩ := placeStep_some hp
        rw [ih, hr2, UMap.find_addTo_ne h]

/-- A request changes the result map only at its own item. -/
theorem simulateRequest_find_ne (catalog : Catalog) (s : SimState) (pr : Nat × Nat) {j : Nat}
    (h : j ≠ pr.1) :
    UMap.find j (simulateRequest catalog s pr).granted = UMap.find j s.granted := by
  unfold simulateRequest
  cases hc : catalog pr.1 with
  | none => rfl
  | some temp =>
    simp only
    by_cases hm : temp.maxStack = 0
    · simp [hm]
    · simp only [hm, if_false]
      rw [placeLoop_find_ne h, fillPartialStacks_find_ne h]

/-- A request changes the partial stacks only of its own item. -/
theorem simulateRequest_partials_ne (catalog : Catalog) (s : SimState) (pr : Nat × Nat) {j : Nat}
    (h : j ≠ pr.1) :
    (simulateRequest catalog s pr).partials j = s.partials j := by
  unfold simulateRequest
  cases hc : catalog pr.1 with
  | none => rfl
  | some temp =>
    simp only
    by_cases hm : temp.maxStack = 0
    · simp [hm]
    · simp [hm, h]

/-- A request for an item without a template, or with `maxStack == 0`, is
skipped: the state is left as it is. -/
theorem simulateRequest_skip (catalog : Catalog) (s : SimState) (pr : Nat × Nat)
    (h : ∀ temp, catalog pr.1 = some temp → temp.maxStack = 0) :
    simulateRequest catalog s pr = s := by
  unfold simulateRequest
  cases hc : catalog pr.1 with
  | none => rfl
  | some temp => simp [h temp hc]

theorem foldl_simulateRequest_find_notin (catalog : Catalog) (items : List (Nat × Nat))
    (s : SimState) (j : Nat) (hj : j ∉ items.map Prod.fst) :
    UMap.find j (items.foldl (simulateRequest catalog) s).granted = UMap.find j s.granted := by
  induction items generalizing s with
  | nil => rfl
  | cons pr rest ih =>
    simp only [List.map, List.mem_cons, not_or] at hj
    simp only [List.foldl]
    rw [ih (simulateRequest catalog s pr) hj.2, simulateRequest_find_ne catalog s pr hj.1]

/-- An item that has no usable template is never granted anything. -/
theorem foldl_simulateRequest_find_skip (catalog : Catalog) (items : List (Nat × Nat))
    (s : SimState) (j : Nat) (h : ∀ temp, catalog j = some temp → temp.maxStack = 0) :
    UMap.find j (items.foldl (simulateRequest catalog) s).granted = UMap.find j s.granted := by
  induction items generalizing s with
  | nil => rfl
  | cons pr rest ih =>
    simp only [List.foldl]
    rw [ih (simulateRequest catalog s pr)]
    by_cases hj : j = pr.1
    · rw [simulateRequest_skip catalog s pr (hj ▸ h)]
    · exact simulateRequest_find_ne catalog s pr hj

/-- One request keeps, for every item `i`, the sum of what `i` was granted, the
free space left in its partial stacks and the capacity of the empty slots it
fits from growing. -/
theorem simulateRequest_capacity (catalog : Catalog) (s : SimState) (pr : Nat × Nat)
    (i : Nat) (temp : ItemTemplate) (hi : catalog i = some temp) :
    UMap.get i (simulateRequest catalog s pr).granted +
        freeTotal ((simulateRequest catalog s pr).partials i) +
        temp.maxStack * compatibleSlots temp.bagFamily
          (simulateRequest catalog s pr).emptySlotsByFamily
      ≤ UMap.get i s.granted + freeTotal (s.partials i) +
        temp.maxStack * compatibleSlots temp.bagFamily s.emptySlotsByFamily := by
  by_cases hj : i = pr.1
  · subst hj
    unfold simulateRequest
    rw [hi]
    simp only
    by_cases hm : temp.maxStack = 0
    · simp [hm]
    · simp only [hm, if_false, if_true]
      have h1 := fillPartialStacks_free pr.1 (s.partials pr.1) pr.2 s.granted
      have h2 := placeLoop_capacity pr.1 temp.maxStack temp.bagFamily
        (fillPartialStacks pr.1 (s.partials pr.1) pr.2 s.granted).2.1
        (fillPartialStacks pr.1 (s.partials pr.1) pr.2 s.granted).2.1
        s.emptySlotsByFamily (fillPartialStacks pr.1 (s.partials pr.1) pr.2 s.granted).2.2
      rw [freeTotal_removeExhausted]
      omega
  · have h1 : UMap.get i (simulateRequest catalog s pr).granted = UMap.get i s.granted := by
      simp [UMap.get, simulateRequest_find_ne catalog s pr hj]
    have h2 := compatibleSlots_noGain temp.bagFamily (simulateRequest_noGain catalog s pr)
    have h3 := Nat.mul_le_mul_left temp.maxStack h2
    rw [h1, simulateRequest_partials_ne catalog s pr hj]
    omega

theorem foldl_simulateRequest_capacity (catalog : Catalog) (items : List (Nat × Nat))
    (s : SimState) (i : Nat) (temp : ItemTemplate) (hi : catalog i = some temp) :
    UMap.get i (items.foldl (simulateRequest catalog) s).granted +
        freeTotal ((items.foldl (simulateRequest catalog) s).partials i) +
        temp.maxStack * compatibleSlots temp.bagFamily
          (items.foldl (simulateRequest catalog) s).emptySlotsByFamily
      ≤ UMap.get i s.granted + freeTotal (s.partials i) +
        temp.maxStack * compatibleSlots temp.bagFamily s.emptySlotsByFamily := by
  induction items generalizing s with
  | nil => simp
  | cons pr rest ih =>
    simp only [List.foldl]
    exact le_trans (ih (simulateRequest catalog s pr)) (simulateRequest_capacity catalog s pr i temp hi)

/-- With pairwise distinct item ids a request is granted at most its amount. -/
theorem SimulateBatchAdd_get_le (catalog : Catalog) (partials : Nat → List Nat)
    (table : SlotTable) (items : List (Nat × Nat)) (hnd : (items.map Prod.fst).Nodup)
    (pr : Nat × Nat) (hpr : pr ∈ items) :
    UMap.get pr.1 (SimulateBatchAdd catalog partials table items) ≤ pr.2 := by
  have h := foldl_simulateRequest_get_le catalog items
    { partials := partials, emptySlotsByFamily := table, granted := [] } hnd pr hpr
  simpa [SimulateBatchAdd, simulateRun, UMap.get, UMap.find] using h

/-! ## Claims on `SimulateBatchAdd` -/

/-- C1: `SimulateBatchAdd` never grants more than was asked. The sum of all
granted amounts is at most the sum of all requested amounts; an item that is
not requested has no entry in the result; and when the item ids of the request
list are pairwise distinct, every request is granted at most its own amount. -/
theorem SimulateBatchAdd_grants_at_most_requested (catalog : Catalog)
    (partials : Nat → List Nat) (table : SlotTable) (items : List (Nat × Nat)) :
    UMap.total (SimulateBatchAdd catalog partials table items) ≤ requestedTotal items ∧
    (∀ j, j ∉ items.map Prod.fst →
      UMap.find j (SimulateBatchAdd catalog partials table items) = none) ∧
    ((items.map Prod.fst).Nodup → ∀ pr ∈ items,
      UMap.get pr.1 (SimulateBatchAdd catalog partials table items) ≤ pr.2) := by
  refine ⟨?_, ?_, ?_⟩
  · have h := foldl_simulateRequest_total_le catalog items
      { partials := partials, emptySlotsByFamily := table, granted := [] }
    simpa [SimulateBatchAdd, simulateRun, UMap.total] using h
  · intro j hj
    have h := foldl_simulateRequest_find_notin catalog items
      { partials := partials, emptySlotsByFamily := table, granted := [] } j hj
    simpa [SimulateBatchAdd, simulateRun, UMap.find] using h
  · intro hnd pr hpr
    have h := foldl_simulateRequest_get_le catalog items
      { partials := partials, emptySlotsByFamily := table, granted := [] } hnd pr hpr
    simpa [SimulateBatchAdd, simulateRun, UMap.get, UMap.find] using h

/-- C2: `SimulateBatchAdd` never over-allocates capacity. An item with a
template is granted at most the free capacity of its partial stacks plus
`maxStack` times the number of empty slots whose mask is 0 or shares a bit with
the item family; an item without a template is granted nothing; and the table
after the batch has the same masks in the same order with no count above its
snapshot value, the decrement being the wrapping `uint32` one (no count
underflows). -/
theorem SimulateBatchAdd_within_capacity (catalog : Catalog)
    (partials : Nat → List Nat) (table : SlotTable) (items : List (Nat × Nat)) :
    (∀ i temp, catalog i = some temp →
      UMap.get i (SimulateBatchAdd catalog partials table items)
        ≤ freeTotal (partials i) + temp.maxStack * compatibleSlots temp.bagFamily table) ∧
    (∀ i, catalog i = none →
      UMap.find i (SimulateBatchAdd catalog partials table items) = none) ∧
    List.Forall₂ (fun a b : Nat × Nat => a.1 = b.1 ∧ b.2 ≤ a.2) table
      (simulateRun catalog partials table items).emptySlotsByFamily := by
  refine ⟨?_, ?_, ?_⟩
  · intro i temp hi
    have h := foldl_simulateRequest_capacity catalog items
      { partials := partials, emptySlotsByFamily := table, granted := [] } i temp hi
    simp only [UMap.get, UMap.find, Option.getD_none, zero_add] at h
    simp only [SimulateBatchAdd, simulateRun, UMap.get]
    omega
  · intro i hi
    have h := foldl_simulateRequest_find_skip catalog items
      { partials := partials, emptySlotsByFamily := table, granted := [] } i
      (by intro temp ht; rw [hi] at ht; cases ht)
    simpa [SimulateBatchAdd, simulateRun, UMap.find] using h
  · exact foldl_simulateRequest_noGain catalog items
      { partials := partials, emptySlotsByFamily := table, granted := [] }

/-! ## The placement loop ends by its own condition -/

theorem placeStep_remaining_lt {entry maxStack bagFamily remaining : Nat} {table : SlotTable}
    {g : UMap} {r : Nat × SlotTable × UMap} (hm : maxStack ≠ 0) (h0 : remaining ≠ 0)
    (h : placeStep entry maxStack bagFamily remaining table g = some r) :
    r.1 < remaining := by
  obtain ⟨hr1, -, -⟩ := placeStep_some h
  rw [hr1]
  omega

/-- With `maxStack > 0` and at least `remaining` units of fuel the loop stops
because the request is met or because no slot is left, never for lack of
fuel. -/
theorem placeLoop_exit (entry maxStack bagFamily : Nat) (hm : maxStack ≠ 0)
    (fuel remaining : Nat) (hf : remaining ≤ fuel) (table : SlotTable) (g : UMap) :
    (placeLoop entry maxStack bagFamily fuel remaining table g).1 = 0 ∨
    placeStep entry maxStack bagFamily
      (placeLoop entry maxStack bagFamily fuel remaining table g).1
      (placeLoop entry maxStack bagFamily fuel remaining table g).2.1
      (placeLoop entry maxStack bagFamily fuel remaining table g).2.2 = none := by
  induction fuel generalizing remaining table g with
  | zero =>
    left
    simp only [placeLoop]
    omega
  | succ n ih =>
    unfold placeLoop
    by_cases h0 : remaining = 0
    · left
      simp [h0]
    · simp only [h0, if_false]
      cases hp : placeStep entry maxStack bagFamily remaining table g with
      | none =>
        right
        exact hp
      | some r =>
        simp only
        have hlt := placeStep_remaining_lt hm h0 hp
        exact ih r.1 (by omega) r.2.1 r.2.2

/-- More fuel than `remaining` changes nothing. -/
theorem placeLoop_fuel (entry maxStack bagFamily : Nat) (hm : maxStack ≠ 0)
    (fuel remaining : Nat) (hf : remaining ≤ fuel) (table : SlotTable) (g : UMap) :
    placeLoop entry maxStack bagFamily fuel remaining table g
      = placeLoop entry maxStack bagFamily remaining remaining table g := by
  induction fuel using Nat.strong_induction_on generalizing remaining table g with
  | _ fuel ih =>
    cases fuel with
    | zero =>
      have : remaining = 0 := by omega
      subst this
      rfl
    | succ n =>
      cases remaining with
      | zero => simp [placeLoop]
      | succ k =>
        unfold placeLoop
        simp only [Nat.succ_ne_zero, if_false]
        cases hp : placeStep entry maxStack bagFamily (k + 1) table g with
        | none => rfl
        | some r =>
          simp only
          have hlt := placeStep_remaining_lt hm (Nat.succ_ne_zero k) hp
          by_cases hk : k = n
          · subst hk
            rfl
          · rw [ih n (by omega) r.1 (by omega), ← ih k (by omega) r.1 (by omega)]

/-! ## Partial stacks first -/

theorem fillPartialStacks_remaining (entry : Nat) (vec : List Nat) (remaining : Nat) (g : UMap) :
    (fillPartialStacks entry vec remaining g).2.1 = remaining - freeTotal vec := by
  induction vec generalizing remaining g with
  | nil => simp [fillPartialStacks, freeTotal]
  | cons f rest ih =>
    unfold fillPartialStacks
    by_cases h0 : remaining = 0
    · simp [h0]
    · simp only [h0, if_false]
      rw [ih]
      simp only [freeTotal, List.sum_cons]
      omega

/-- If the fill loop leaves part of the request open, it has exhausted every
partial stack. -/
theorem fillPartialStacks_exhausted (entry : Nat) (vec : List Nat) (remaining : Nat) (g : UMap)
    (h : (fillPartialStacks entry vec remaining g).2.1 ≠ 0) :
    ∀ x ∈ (fillPartialStacks entry vec remaining g).1, x = 0 := by
  induction vec generalizing remaining g with
  | nil => simp [fillPartialStacks]
  | cons f rest ih =>
    unfold fillPartialStacks at h ⊢
    by_cases h0 : remaining = 0
    · simp [h0] at h
    · simp only [h0, if_false] at h ⊢
      intro x hx
      rcases List.mem_cons.mp hx with hx | hx
      · rw [fillPartialStacks_remaining] at h
        omega
      · exact ih _ _ h x hx

theorem removeExhausted_eq_nil {vec : List Nat} (h : ∀ x ∈ vec, x = 0) :
    removeExhausted vec = [] := by
  unfold removeExhausted
  rw [List.filter_eq_nil_iff]
  intro x hx
  simp [h x hx]

theorem placeLoop_zero_remaining (entry maxStack bagFamily fuel : Nat) (table : SlotTable)
    (g : UMap) : placeLoop entry maxStack bagFamily fuel 0 table g = (0, table, g) := by
  cases fuel <;> simp [placeLoop]

/-- C3: partial stacks are filled before any empty slot is used. For a request
processed from any state of the batch, if the empty-slot table changes (a slot
is consumed) then the requested amount exceeds the total free capacity of the
partial stacks of the item, and no partial stack of the item is left with free
space. At one partial stack with free space 5, one empty generic slot, request
8 and stack size 20: the fill loop grants 5 and leaves 3, the result is 8, and
exactly one slot is consumed. -/
theorem simulateRequest_partial_stacks_first (catalog : Catalog) (s : SimState)
    (pr : Nat × Nat) :
    ((simulateRequest catalog s pr).emptySlotsByFamily ≠ s.emptySlotsByFamily →
      freeTotal (s.partials pr.1) < pr.2 ∧
      (simulateRequest catalog s pr).partials pr.1 = []) ∧
    fillPartialStacks 7 [5] 8 [] = ([0], 3, [(7, 5)]) ∧
    SimulateBatchAdd exampleCatalog examplePartials [(0, 1)] [(7, 8)] = [(7, 8)] ∧
    (simulateRun exampleCatalog examplePartials [(0, 1)] [(7, 8)]).emptySlotsByFamily
      = [(0, 0)] ∧
    (simulateRun exampleCatalog examplePartials [(0, 1)] [(7, 8)]).partials 7 = [] := by
  refine ⟨?_, by decide, by decide, by decide, by decide⟩
  intro hne
  unfold simulateRequest at hne ⊢
  cases hc : catalog pr.1 with
  | none => simp [hc] at hne
  | some temp =>
    rw [hc] at hne
    simp only at hne ⊢
    by_cases hm : temp.maxStack = 0
    · simp [hm] at hne
    · simp only [hm, if_false, if_true] at hne ⊢
      have hrem : (fillPartialStacks pr.1 (s.partials pr.1) pr.2 s.granted).2.1 ≠ 0 := by
        intro h0
        rw [h0, placeLoop_zero_remaining] at hne
        exact hne rfl
      refine ⟨?_, removeExhausted_eq_nil (fillPartialStacks_exhausted _ _ _ _ hrem)⟩
      rw [fillPartialStacks_remaining] at hrem
      omega

/-- Applying C3 at the example: the slot is consumed, the request 8 exceeds
the free space 5, and no partial stack is left. -/
theorem simulateRequest_partial_stacks_first_witness :
    (simulateRequest exampleCatalog
        { partials := examplePartials, emptySlotsByFamily := [(0, 1)], granted := [] }
        (7, 8)).emptySlotsByFamily ≠ [(0, 1)] ∧
    freeTotal (examplePartials 7) < 8 ∧
    (simulateRequest exampleCatalog
        { partials := examplePartials, emptySlotsByFamily := [(0, 1)], granted := [] }
        (7, 8)).partials 7 = [] :=
  ⟨by decide,
    ((simulateRequest_partial_stacks_first exampleCatalog
      { partials := examplePartials, emptySlotsByFamily := [(0, 1)], granted := [] }
      (7, 8)).1 (by decide))⟩

/-! ## Specialty slots before unrestricted ones -/

theorem fitsSpecialty_false_iff {bagFamily mask : Nat} (hm : mask ≠ 0) :
    fitsSpecialty bagFamily mask = false ↔ bagFamily &&& mask = 0 := by
  simp [fitsSpecialty, hm]

/-- C4: specialty slots are preferred over unrestricted ones. Whenever an
iteration of the placement loop creates a stack, the stack has size
`min(maxStack, remaining)`, which is what the request is lowered by and what is
added to the result; exactly one entry of the table, one the item fits and that
had a slot left, is lowered by one, all other entries are as before; and the
entry for mask 0 is the one lowered only if every entry with a non-zero mask
that shares a bit with the item family has count 0. -/
theorem placeStep_prefers_specialty (entry maxStack bagFamily remaining : Nat)
    (table : SlotTable) (g : UMap) (r : Nat × SlotTable × UMap)
    (hrange : SlotTable.InRange table)
    (h : placeStep entry maxStack bagFamily remaining table g = some r) :
    r.1 = remaining - min maxStack remaining ∧
    r.2.2 = UMap.addTo entry (min maxStack remaining) g ∧
    ∃ l1 mask count l2, table = l1 ++ (mask, count + 1) :: l2 ∧
      r.2.1 = l1 ++ (mask, count) :: l2 ∧
      fitsSpecialty bagFamily mask = true ∧
      (mask = 0 → ∀ p ∈ table, p.1 ≠ 0 → bagFamily &&& p.1 ≠ 0 → p.2 = 0) := by
  obtain ⟨hr1, hr2, hs | ⟨hn, hg⟩⟩ := placeStep_some h
  · obtain ⟨l1, m, c, l2, e1, e2, hm, hc, hf, -⟩ := takeSpecialty_some hs
    refine ⟨hr1, hr2, l1, m, c - 1, l2, ?_, ?_, hf, fun h0 => absurd h0 hm⟩
    · rw [e1, Nat.sub_add_cancel (Nat.one_le_iff_ne_zero.mpr hc)]
    · have hlt : c < U32 := hrange (m, c) (by simp [e1])
      rw [e2, dec32_exact hc hlt]
  · obtain ⟨l1, c, l2, e1, e2, hc, -⟩ := takeGeneric_some hg
    refine ⟨hr1, hr2, l1, 0, c - 1, l2, ?_, ?_, fitsSpecialty_zero _, ?_⟩
    · rw [e1, Nat.sub_add_cancel (Nat.one_le_iff_ne_zero.mpr hc)]
    · have hlt : c < U32 := hrange (0, c) (by simp [e1])
      rw [e2, dec32_exact hc hlt]
    · intro _ p hp hp1 hfit
      rcases takeSpecialty_none hn p hp with h1 | h1 | h1
      · exact absurd h1 hp1
      · exact h1
      · exact absurd ((fitsSpecialty_false_iff hp1).mp h1) hfit

/-- Applying C4 at a table with an exhausted specialty bag: item 8 fits the
families 1 and 2, the bag of family 1 is full, so the stack goes to the bag of
family 2 and not to the unrestricted slot. -/
theorem placeStep_prefers_specialty_witness :
    placeStep 8 20 3 30 [(0, 4), (1, 0), (2, 2)] [] = some (10, [(0, 4), (1, 0), (2, 1)], [(8, 20)]) ∧
    ∃ l1 mask count l2, [(0, 4), (1, 0), (2, 2)] = l1 ++ (mask, count + 1) :: l2 ∧
      [(0, 4), (1, 0), (2, 1)] = l1 ++ (mask, count) :: l2 ∧
      fitsSpecialty 3 mask = true ∧
      (mask = 0 → ∀ p ∈ [(0, 4), (1, 0), (2, 2)], p.1 ≠ 0 → 3 &&& p.1 ≠ 0 → p.2 = 0) :=
  ⟨by decide,
    (placeStep_prefers_specialty 8 20 3 30 [(0, 4), (1, 0), (2, 2)] []
      (10, [(0, 4), (1, 0), (2, 1)], [(8, 20)])
      (by intro p hp; simp at hp; rcases hp with h | h | h <;> subst h <;> decide)
      (by decide)).2.2⟩

/-! ## Dependence on the enumeration order of the slot table -/

theorem specialtySlots_append (f : Nat) (l1 l2 : SlotTable) :
    specialtySlots f (l1 ++ l2) = specialtySlots f l1 + specialtySlots f l2 := by
  simp [specialtySlots]

theorem specialtySlots_cons (f : Nat) (p : Nat × Nat) (l : SlotTable) :
    specialtySlots f (p :: l) =
      (if p.1 ≠ 0 ∧ fitsSpecialty f p.1 = true then p.2 else 0) + specialtySlots f l := by
  unfold specialtySlots
  by_cases h : p.1 ≠ 0 ∧ fitsSpecialty f p.1 = true
  · simp [List.filter_cons, h]
  · have h' : (p.1 != 0 && fitsSpecialty f p.1) = false := by
      rw [not_and_or] at h
      rcases h with h | h
      · simp only [ne_eq, not_not] at h
        simp [h]
      · simp only [Bool.not_eq_true] at h
        simp [h]
    simp [List.filter_cons, h', h]

theorem genericSlots_append (l1 l2 : SlotTable) :
    genericSlots (l1 ++ l2) = genericSlots l1 + genericSlots l2 := by
  simp [genericSlots]

theorem genericSlots_cons (p : Nat × Nat) (l : SlotTable) :
    genericSlots (p :: l) = (if p.1 = 0 then p.2 else 0) + genericSlots l := by
  unfold genericSlots
  by_cases h : p.1 = 0
  · simp [List.filter_cons, h]
  · simp [List.filter_cons, h]

/-- The slots an item fits are the fitting specialty slots and the unrestricted
ones. -/
theorem compatibleSlots_split (f : Nat) (t : SlotTable) :
    compatibleSlots f t = specialtySlots f t + genericSlots t := by
  induction t with
  | nil => rfl
  | cons p l ih =>
    rw [compatibleSlots_cons, specialtySlots_cons, genericSlots_cons, ih]
    by_cases h0 : p.1 = 0
    · simp [h0, fitsSpecialty_zero]
      omega
    · by_cases hf : fitsSpecialty f p.1 = true
      · simp [h0, hf]
        omega
      · simp [h0, hf]

theorem takeSpecialty_none_iff (f : Nat) (t : SlotTable) :
    takeSpecialty f t = none ↔ specialtySlots f t = 0 := by
  induction t with
  | nil => simp [takeSpecialty, specialtySlots]
  | cons hd tl ih =>
    obtain ⟨mask, count⟩ := hd
    rw [specialtySlots_cons]
    unfold takeSpecialty
    by_cases h1 : mask = 0 ∨ count = 0
    · simp only [h1, if_true, Option.map_eq_none', ih]
      rcases h1 with h1 | h1
      · simp [h1]
      · simp [h1]
    · simp only [h1, if_false]
      simp only [not_or] at h1
      by_cases h2 : fitsSpecialty f mask = true
      · simp [h2, h1.1, h1.2]
      · simp only [Bool.not_eq_true] at h2
        simp [h2, ih]

theorem dec32_lt_U32 (c : Nat) : dec32 c < U32 := by
  unfold dec32
  exact Nat.mod_lt _ (by decide)

theorem inRange_decrement {l1 l2 : SlotTable} {mask count : Nat}
    (h : SlotTable.InRange (l1 ++ (mask, count) :: l2)) :
    SlotTable.InRange (l1 ++ (mask, dec32 count) :: l2) := by
  intro p hp
  simp only [List.mem_append, List.mem_cons] at hp
  rcases hp with hp | hp | hp
  · exact h p (by simp [hp])
  · subst hp
    exact dec32_lt_U32 count
  · exact h p (by simp [hp])

theorem keys_decrement (l1 l2 : SlotTable) (mask count count' : Nat) :
    (l1 ++ (mask, count') :: l2).map Prod.fst = (l1 ++ (mask, count) :: l2).map Prod.fst := by
  simp

theorem takeSpecialty_counts {f : Nat} {t t' : SlotTable} (hr : SlotTable.InRange t)
    (h : takeSpecialty f t = some t') :
    specialtySlots f t' + 1 = specialtySlots f t ∧ genericSlots t' = genericSlots t ∧
    SlotTable.InRange t' ∧ t'.map Prod.fst = t.map Prod.fst := by
  obtain ⟨l1, m, c, l2, e1, e2, hm, hc, hf, -⟩ := takeSpecialty_some h
  subst e1 e2
  have hlt : c < U32 := hr (m, c) (by simp)
  refine ⟨?_, ?_, inRange_decrement hr, keys_decrement _ _ _ _ _⟩
  · simp only [specialtySlots_append, specialtySlots_cons, hm, hf, ne_eq, not_false_eq_true,
      and_self, if_true, dec32_exact hc hlt]
    omega
  · simp only [genericSlots_append, genericSlots_cons, hm, if_false]

theorem takeGeneric_counts {t t' : SlotTable} (f : Nat) (hr : SlotTable.InRange t)
    (h : takeGeneric t = some t') :
    genericSlots t' + 1 = genericSlots t ∧ specialtySlots f t' = specialtySlots f t ∧
    SlotTable.InRange t' ∧ t'.map Prod.fst = t.map Prod.fst := by
  obtain ⟨l1, c, l2, e1, e2, hc, -⟩ := takeGeneric_some h
  subst e1 e2
  have hlt : c < U32 := hr (0, c) (by simp)
  refine ⟨?_, ?_, inRange_decrement hr, keys_decrement _ _ _ _ _⟩
  · simp only [genericSlots_append, genericSlots_cons, if_true, dec32_exact hc hlt]
    omega
  · simp only [specialtySlots_append, specialtySlots_cons, ne_eq, not_true_eq_false, false_and,
      if_false]

theorem genericSlots_eq_zero_of_no_key {t : SlotTable} (h : 0 ∉ t.map Prod.fst) :
    genericSlots t = 0 := by
  induction t with
  | nil => rfl
  | cons p l ih =>
    simp only [List.map, List.mem_cons, not_or] at h
    rw [genericSlots_cons, ih h.2]
    simp [Ne.symm h.1]

/-- In a table with one entry per mask the fallback fails exactly when there is
no unrestricted slot. -/
theorem takeGeneric_none_iff {t : SlotTable} (hnd : (t.map Prod.fst).Nodup) :
    takeGeneric t = none ↔ genericSlots t = 0 := by
  induction t with
  | nil => simp [takeGeneric, genericSlots]
  | cons hd tl ih =>
    obtain ⟨mask, count⟩ := hd
    simp only [List.map, List.nodup_cons] at hnd
    rw [genericSlots_cons]
    unfold takeGeneric
    by_cases h1 : mask = 0
    · subst h1
      rw [genericSlots_eq_zero_of_no_key hnd.1]
      by_cases h2 : count = 0
      · simp [h2]
      · simp [h2]
    · simp [h1, ih hnd.2]

/-- On two tables that agree for the item family, an iteration of the
placement loop breaks on both or places the same stack on both. -/
theorem placeStep_sameFor {f : Nat} {t u : SlotTable} (h : SlotTable.SameFor f t u)
    (entry maxStack remaining : Nat) (g : UMap) :
    (placeStep entry maxStack f remaining t g = none ∧
      placeStep entry maxStack f remaining u g = none) ∨
    ∃ r r', placeStep entry maxStack f remaining t g = some r ∧
      placeStep entry maxStack f remaining u g = some r' ∧
      r.1 = r'.1 ∧ r.2.2 = r'.2.2 ∧ SlotTable.SameFor f r.2.1 r'.2.1 := by
  obtain ⟨hS, hG, hrt, hru, hnt, hnu⟩ := h
  unfold placeStep
  cases hst : takeSpecialty f t with
  | some t' =>
    cases hsu : takeSpecialty f u with
    | none =>
      have h1 := (takeSpecialty_none_iff f u).mp hsu
      obtain ⟨h2, -, -, -⟩ := takeSpecialty_counts hrt hst
      omega
    | some u' =>
      right
      obtain ⟨a1, a2, a3, a4⟩ := takeSpecialty_counts hrt hst
      obtain ⟨b1, b2, b3, b4⟩ := takeSpecialty_counts hru hsu
      refine ⟨_, _, rfl, rfl, rfl, rfl, ?_, ?_, a3, b3, ?_, ?_⟩
      · simp only; omega
      · simp only; omega
      · simp only; rw [a4]; exact hnt
      · simp only; rw [b4]; exact hnu
  | none =>
    have h0 := (takeSpecialty_none_iff f t).mp hst
    cases hsu : takeSpecialty f u with
    | some u' =>
      obtain ⟨h2, -, -, -⟩ := takeSpecialty_counts hru hsu
      omega
    | none =>
      simp only
      cases hgt : takeGeneric t with
      | none =>
        left
        have h1 := (takeGeneric_none_iff hnt).mp hgt
        have h2 : takeGeneric u = none := (takeGeneric_none_iff hnu).mpr (by omega)
        simp [h2]
      | some t' =>
        cases hgu : takeGeneric u with
        | none =>
          have h1 := (takeGeneric_none_iff hnu).mp hgu
          obtain ⟨h2, -, -, -⟩ := takeGeneric_counts f hrt hgt
          omega
        | some u' =>
          right
          obtain ⟨a1, a2, a3, a4⟩ := takeGeneric_counts f hrt hgt
          obtain ⟨b1, b2, b3, b4⟩ := takeGeneric_counts f hru hgu
          refine ⟨_, _, rfl, rfl, rfl, rfl, ?_, ?_, a3, b3, ?_, ?_⟩
          · simp only; omega
          · simp only; omega
          · simp only; rw [a4]; exact hnt
          · simp only; rw [b4]; exact hnu

theorem placeLoop_sameFor {f : Nat} (entry maxStack fuel : Nat) (remaining : Nat)
    {t u : SlotTable} (h : SlotTable.SameFor f t u) (g : UMap) :
    (placeLoop entry maxStack f fuel remaining t g).1
        = (placeLoop entry maxStack f fuel remaining u g).1 ∧
    (placeLoop entry maxStack f fuel remaining t g).2.2
        = (placeLoop entry maxStack f fuel remaining u g).2.2 ∧
    SlotTable.SameFor f (placeLoop entry maxStack f fuel remaining t g).2.1
      (placeLoop entry maxStack f fuel remaining u g).2.1 := by
  induction fuel generalizing remaining t u g with
  | zero => exact ⟨rfl, rfl, h⟩
  | succ n ih =>
    unfold placeLoop
    by_cases h0 : remaining = 0
    · simp only [h0, if_true, true_and]
      exact h
    · simp only [h0, if_false]
      rcases placeStep_sameFor h entry maxStack remaining g with ⟨h1, h2⟩ | ⟨r, r', h1, h2, e1, e2, hs⟩
      · rw [h1, h2]
        exact ⟨rfl, rfl, h⟩
      · rw [h1, h2]
        simp only
        rw [← e1, ← e2]
        exact ih r.1 hs r.2.2

/-- Two simulator states that differ only in their slot tables, the tables
agreeing for the family `f`. -/
theorem simulateRequest_sameFor {f : Nat} (catalog : Catalog) (s s' : SimState)
    (pr : Nat × Nat) (hf : ∀ temp, catalog pr.1 = some temp → temp.bagFamily = f)
    (hp : s.partials = s'.partials) (hg : s.granted = s'.granted)
    (ht : SlotTable.SameFor f s.emptySlotsByFamily s'.emptySlotsByFamily) :
    (simulateRequest catalog s pr).partials = (simulateRequest catalog s' pr).partials ∧
    (simulateRequest catalog s pr).granted = (simulateRequest catalog s' pr).granted ∧
    SlotTable.SameFor f (simulateRequest catalog s pr).emptySlotsByFamily
      (simulateRequest catalog s' pr).emptySlotsByFamily := by
  unfold simulateRequest
  cases hc : catalog pr.1 with
  | none => exact ⟨hp, hg, ht⟩
  | some temp =>
    simp only
    by_cases hm : temp.maxStack = 0
    · simp only [hm, if_true]
      exact ⟨hp, hg, ht⟩
    · simp only [hm, if_false]
      have hfam := hf temp hc
      subst hfam
      rw [← hp, ← hg]
      obtain ⟨-, h2, h3⟩ := placeLoop_sameFor pr.1 temp.maxStack
        (fillPartialStacks pr.1 (s.partials pr.1) pr.2 s.granted).2.1
        (fillPartialStacks pr.1 (s.partials pr.1) pr.2 s.granted).2.1 ht
        (fillPartialStacks pr.1 (s.partials pr.1) pr.2 s.granted).2.2
      exact ⟨rfl, h2, h3⟩

theorem foldl_simulateRequest_sameFor {f : Nat} (catalog : Catalog) (items : List (Nat × Nat))
    (hf : ∀ pr ∈ items, ∀ temp, catalog pr.1 = some temp → temp.bagFamily = f)
    (s s' : SimState) (hp : s.partials = s'.partials) (hg : s.granted = s'.granted)
    (ht : SlotTable.SameFor f s.emptySlotsByFamily s'.emptySlotsByFamily) :
    (items.foldl (simulateRequest catalog) s).granted
      = (items.foldl (simulateRequest catalog) s').granted := by
  induction items generalizing s s' with
  | nil => exact hg
  | cons pr rest ih =>
    simp only [List.foldl]
    obtain ⟨h1, h2, h3⟩ := simulateRequest_sameFor catalog s s' pr
      (hf pr (List.mem_cons_self _ _)) hp hg ht
    exact ih (fun q hq => hf q (List.mem_cons_of_mem _ hq)) _ _ h1 h2 h3

theorem sameFor_of_perm (f : Nat) {t u : SlotTable} (hperm : t.Perm u)
    (hr : SlotTable.InRange t) (hnd : (t.map Prod.fst).Nodup) : SlotTable.SameFor f t u := by
  refine ⟨?_, ?_, hr, ?_, hnd, ?_⟩
  · exact ((hperm.filter _).map _).sum_eq
  · exact ((hperm.filter _).map _).sum_eq
  · intro p hp
    exact hr p (hperm.mem_iff.mpr hp)
  · exact (hperm.map Prod.fst).nodup_iff.mp hnd

/-- C5 at a concrete input: the two enumerations `[(1,1),(2,1)]` and
`[(2,1),(1,1)]` of one and the same table (one empty slot in a bag of family 1,
one in a bag of family 2) give different results for the requests
`[(8,1),(9,1)]`: item 8 fits both bags and takes the first one enumerated,
which in the first order is the only bag item 9 fits. -/
theorem SimulateBatchAdd_enumeration_order_matters :
    List.Perm [(1, 1), (2, 1)] [(2, 1), (1, 1)] ∧
    SimulateBatchAdd exampleCatalog noPartials [(1, 1), (2, 1)] [(8, 1), (9, 1)] = [(8, 1)] ∧
    SimulateBatchAdd exampleCatalog noPartials [(2, 1), (1, 1)] [(8, 1), (9, 1)]
      = [(8, 1), (9, 1)] ∧
    ¬ (∀ (t u : SlotTable), t.Perm u → (t.map Prod.fst).Nodup → SlotTable.InRange t →
        SimulateBatchAdd exampleCatalog noPartials t [(8, 1), (9, 1)]
          = SimulateBatchAdd exampleCatalog noPartials u [(8, 1), (9, 1)]) := by
  refine ⟨List.Perm.swap _ _ _, by decide, by decide, ?_⟩
  intro h
  have h1 := h [(1, 1), (2, 1)] [(2, 1), (1, 1)] (List.Perm.swap _ _ _) (by decide)
    (by intro p hp; simp at hp; rcases hp with h | h <;> subst h <;> decide)
  revert h1
  decide

/-- C5, amended: the result of `SimulateBatchAdd` is fixed by the partial
stacks, the slot table as enumerated and the ordered request list; and it is
the same for every enumeration order of a well-formed table (one entry per
mask, counts in range) when all requested items that have a template have the
same bag family mask, as is the case for a single request. -/
theorem SimulateBatchAdd_enumeration_order_one_family (catalog : Catalog)
    (partials : Nat → List Nat) (t u : SlotTable) (items : List (Nat × Nat)) (f : Nat)
    (hperm : t.Perm u) (hnd : (t.map Prod.fst).Nodup) (hr : SlotTable.InRange t)
    (hf : ∀ pr ∈ items, ∀ temp, catalog pr.1 = some temp → temp.bagFamily = f) :
    SimulateBatchAdd catalog partials t items = SimulateBatchAdd catalog partials u items := by
  unfold SimulateBatchAdd simulateRun
  exact foldl_simulateRequest_sameFor catalog items hf _ _ rfl rfl (sameFor_of_perm f hperm hr hnd)

/-- Witness of C1 at the example: items 7 and 8 are requested once each. -/
theorem SimulateBatchAdd_grants_at_most_requested_witness :
    ([(7, 8), (8, 45)].map Prod.fst).Nodup ∧
    UMap.get 8 (SimulateBatchAdd exampleCatalog examplePartials [(0, 1), (2, 1)]
      [(7, 8), (8, 45)]) ≤ 45 :=
  ⟨by decide,
    (SimulateBatchAdd_grants_at_most_requested exampleCatalog examplePartials [(0, 1), (2, 1)]
      [(7, 8), (8, 45)]).2.2 (by decide) (8, 45) (by simp)⟩

/-- Witness of C2 at the example: item 8 has no partial stack and fits the
unrestricted slot and the bag of family 2. -/
theorem SimulateBatchAdd_within_capacity_witness :
    exampleCatalog 8 = some ⟨8, 7, 5, 20, 3⟩ ∧
    UMap.get 8 (SimulateBatchAdd exampleCatalog examplePartials [(0, 1), (2, 1)]
      [(7, 8), (8, 45)])
      ≤ freeTotal (examplePartials 8) + 20 * compatibleSlots 3 [(0, 1), (2, 1)] :=
  ⟨by decide,
    (SimulateBatchAdd_within_capacity exampleCatalog examplePartials [(0, 1), (2, 1)]
      [(7, 8), (8, 45)]).1 8 ⟨8, 7, 5, 20, 3⟩ (by decide)⟩

/-- Witness of the amended C5: a single request of item 8 against two
enumerations of one table. -/
theorem SimulateBatchAdd_enumeration_order_one_family_witness :
    List.Perm [(1, 1), (2, 1), (0, 1)] [(0, 1), (2, 1), (1, 1)] ∧
    SimulateBatchAdd exampleCatalog noPartials [(1, 1), (2, 1), (0, 1)] [(8, 45)]
      = SimulateBatchAdd exampleCatalog noPartials [(0, 1), (2, 1), (1, 1)] [(8, 45)] :=
  ⟨by decide,
    SimulateBatchAdd_enumeration_order_one_family exampleCatalog noPartials
      [(1, 1), (2, 1), (0, 1)] [(0, 1), (2, 1), (1, 1)] [(8, 45)] 3 (by decide) (by decide)
      (by intro p hp; simp at hp; rcases hp with h | h | h <;> subst h <;> decide)
      (by
        intro pr hpr temp ht
        simp only [List.mem_singleton] at hpr
        subst hpr
        simp only [exampleCatalog] at ht
        simp at ht
        subst ht
        rfl)⟩

/-! ## Category summary cache -/

/-- Calls that leave category `c` alone do not change what is cached for it. -/
theorem runCacheOps_leaves (c : Nat) (ops : List CacheOp) (st : CacheState)
    (h : ∀ op ∈ ops, CacheOp.leaves c op) :
    GetCachedCategorySummary c (runCacheOps ops st) = GetCachedCategorySummary c st := by
  induction ops generalizing st with
  | nil => rfl
  | cons op rest ih =>
    simp only [runCacheOps, List.foldl] at ih ⊢
    rw [ih (CacheOp.apply st op) (fun o ho => h o (List.mem_cons_of_mem _ ho))]
    have hop := h op (List.mem_cons_self _ _)
    cases op with
    | invalidate subclass =>
      simp only [CacheOp.leaves] at hop
      simp [CacheOp.apply, InvalidateCategorySummary, GetCachedCategorySummary, hop.2,
        Ne.symm hop.1]
    | get subclass => rfl
    | store subclass summary =>
      simp only [CacheOp.leaves] at hop
      simp [CacheOp.apply, StoreCategorySummary, GetCachedCategorySummary, Ne.symm hop]

/-- C6: category summary cache lifecycle. After `StoreCategorySummary(c, s)`
and any sequence of lookups, of stores to other categories and of
invalidations of other non-zero categories, `GetCachedCategorySummary(c)`
returns exactly `s`; right after `InvalidateCategorySummary(c)` or
`InvalidateCategorySummary(0)` it is a miss. -/
theorem category_summary_cache_lifecycle (st : CacheState) (c : Nat) (s : Nat × Nat)
    (ops : List CacheOp) (h : ∀ op ∈ ops, CacheOp.leaves c op) :
    GetCachedCategorySummary c (runCacheOps ops (StoreCategorySummary c s st)) = some s ∧
    GetCachedCategorySummary c
      (InvalidateCategorySummary c (runCacheOps ops (StoreCategorySummary c s st))) = none ∧
    GetCachedCategorySummary c
      (InvalidateCategorySummary 0 (runCacheOps ops (StoreCategorySummary c s st))) = none := by
  refine ⟨?_, ?_, ?_⟩
  · rw [runCacheOps_leaves c ops _ h]
    simp [StoreCategorySummary, GetCachedCategorySummary]
  · by_cases hc : c = 0
    · simp [InvalidateCategorySummary, GetCachedCategorySummary, hc]
    · simp [InvalidateCategorySummary, GetCachedCategorySummary, hc]
  · simp [InvalidateCategorySummary, GetCachedCategorySummary]

/-- Witness of C6: category 5 is stored, then category 7 is stored and
invalidated and category 5 is read; category 5 still holds what was stored. -/
theorem category_summary_cache_lifecycle_witness :
    (∀ op ∈ [CacheOp.store 7 (2, 9), CacheOp.get 5, CacheOp.invalidate 7],
      CacheOp.leaves 5 op) ∧
    GetCachedCategorySummary 5
      (runCacheOps [CacheOp.store 7 (2, 9), CacheOp.get 5, CacheOp.invalidate 7]
        (StoreCategorySummary 5 (1, 30) emptyCache)) = some (1, 30) :=
  ⟨by intro op hop; simp at hop; rcases hop with h | h | h <;> subst h <;> simp [CacheOp.leaves],
    (category_summary_cache_lifecycle emptyCache 5 (1, 30)
      [CacheOp.store 7 (2, 9), CacheOp.get 5, CacheOp.invalidate 7]
      (by intro op hop; simp at hop; rcases hop with h | h | h <;> subst h <;>
        simp [CacheOp.leaves])).1⟩

/-! ## Ordered maps -/

theorem UMap.find_set (j k v : Nat) (m : UMap) :
    UMap.find j (UMap.set k v m) = if j = k then some v else UMap.find j m := by
  induction m with
  | nil =>
    simp only [UMap.set, UMap.find]
    split_ifs <;> first | rfl | omega
  | cons hd tl ih =>
    obtain ⟨k', v'⟩ := hd
    unfold UMap.set
    by_cases h1 : k < k'
    · simp only [h1, if_true, UMap.find]
      split_ifs <;> first | rfl | omega
    · by_cases h2 : k = k'
      · subst h2
        simp only [lt_irrefl, if_false, if_true, UMap.find]
        split_ifs <;> first | rfl | omega
      · simp only [h1, h2, if_false, UMap.find, ih]
        split_ifs <;> first | rfl | omega

theorem UMap.mem_set {p : Nat × Nat} {k v : Nat} {m : UMap} (h : p ∈ UMap.set k v m) :
    p = (k, v) ∨ p ∈ m := by
  induction m with
  | nil =>
    simp only [UMap.set, List.mem_singleton] at h
    exact Or.inl h
  | cons hd tl ih =>
    obtain ⟨k', v'⟩ := hd
    unfold UMap.set at h
    split_ifs at h with h1 h2
    · rcases List.mem_cons.mp h with h | h
      · exact Or.inl h
      · exact Or.inr h
    · rcases List.mem_cons.mp h with h | h
      · subst h2
        exact Or.inl h
      · exact Or.inr (List.mem_cons_of_mem _ h)
    · rcases List.mem_cons.mp h with h | h
      · exact Or.inr (h ▸ List.mem_cons_self _ _)
      · rcases ih h with h | h
        · exact Or.inl h
        · exact Or.inr (List.mem_cons_of_mem _ h)

theorem UMap.mem_addTo {p : Nat × Nat} {k v : Nat} {m : UMap} (h : p ∈ UMap.addTo k v m) :
    p.1 = k ∨ p ∈ m := by
  induction m with
  | nil =>
    simp only [UMap.addTo, List.mem_singleton] at h
    exact Or.inl (by rw [h])
  | cons hd tl ih =>
    obtain ⟨k', v'⟩ := hd
    unfold UMap.addTo at h
    split_ifs at h with h1 h2
    · rcases List.mem_cons.mp h with h | h
      · exact Or.inl (by rw [h])
      · exact Or.inr h
    · rcases List.mem_cons.mp h with h | h
      · exact Or.inl (by rw [h, h2])
      · exact Or.inr (List.mem_cons_of_mem _ h)
    · rcases List.mem_cons.mp h with h | h
      · exact Or.inr (h ▸ List.mem_cons_self _ _)
      · rcases ih h with h | h
        · exact Or.inl h
        · exact Or.inr (List.mem_cons_of_mem _ h)

theorem UMap.sorted_nil : UMap.Sorted [] := by
  simp [UMap.Sorted]

theorem UMap.sorted_cons {p : Nat × Nat} {m : UMap} :
    UMap.Sorted (p :: m) ↔ (∀ q ∈ m, p.1 < q.1) ∧ UMap.Sorted m := by
  simp [UMap.Sorted, List.pairwise_cons]

theorem UMap.set_sorted (k v : Nat) {m : UMap} (h : UMap.Sorted m) :
    UMap.Sorted (UMap.set k v m) := by
  induction m with
  | nil => simp [UMap.set, UMap.Sorted]
  | cons hd tl ih =>
    obtain ⟨k', v'⟩ := hd
    obtain ⟨h1, h2⟩ := UMap.sorted_cons.mp h
    unfold UMap.set
    split_ifs with c1 c2
    · refine UMap.sorted_cons.mpr ⟨?_, h⟩
      intro q hq
      rcases List.mem_cons.mp hq with hq | hq
      · rw [hq]; exact c1
      · exact lt_trans c1 (h1 q hq)
    · exact UMap.sorted_cons.mpr ⟨h1, h2⟩
    · refine UMap.sorted_cons.mpr ⟨?_, ih h2⟩
      intro q hq
      rcases UMap.mem_set hq with hq | hq
      · rw [hq]
        simp only
        omega
      · exact h1 q hq

theorem UMap.addTo_sorted (k v : Nat) {m : UMap} (h : UMap.Sorted m) :
    UMap.Sorted (UMap.addTo k v m) := by
  induction m with
  | nil => simp [UMap.addTo, UMap.Sorted]
  | cons hd tl ih =>
    obtain ⟨k', v'⟩ := hd
    obtain ⟨h1, h2⟩ := UMap.sorted_cons.mp h
    unfold UMap.addTo
    split_ifs with c1 c2
    · refine UMap.sorted_cons.mpr ⟨?_, h⟩
      intro q hq
      rcases List.mem_cons.mp hq with hq | hq
      · rw [hq]; exact c1
      · exact lt_trans c1 (h1 q hq)
    · exact UMap.sorted_cons.mpr ⟨h1, h2⟩
    · refine UMap.sorted_cons.mpr ⟨?_, ih h2⟩
      intro q hq
      rcases UMap.mem_addTo hq with hq | hq
      · rw [hq]
        simp only
        omega
      · exact h1 q hq

/-- Below the first key of a sorted map nothing is found. -/
theorem UMap.find_eq_none_of_lt {k : Nat} {m : UMap} (h : ∀ q ∈ m, k < q.1) :
    UMap.find k m = none := by
  cases m with
  | nil => rfl
  | cons hd tl =>
    have := h hd (List.mem_cons_self _ _)
    simp [UMap.find, this]

theorem UMap.find_of_mem {k v : Nat} {m : UMap} (hs : UMap.Sorted m) (h : (k, v) ∈ m) :
    UMap.find k m = some v := by
  induction m with
  | nil => simp at h
  | cons hd tl ih =>
    obtain ⟨k', v'⟩ := hd
    obtain ⟨h1, h2⟩ := UMap.sorted_cons.mp hs
    rcases List.mem_cons.mp h with h | h
    · simp only [Prod.mk.injEq] at h
      simp [UMap.find, h.1, h.2]
    · have hlt := h1 (k, v) h
      simp only at hlt
      have hne : k ≠ k' := by omega
      have hnlt : ¬ k < k' := by omega
      simp only [UMap.find, hnlt, hne, if_false]
      exact ih h2 h

theorem UMap.mem_of_find {k v : Nat} {m : UMap} (h : UMap.find k m = some v) : (k, v) ∈ m := by
  induction m with
  | nil => simp [UMap.find] at h
  | cons hd tl ih =>
    obtain ⟨k', v'⟩ := hd
    unfold UMap.find at h
    split_ifs at h with c1 c2
    · simp only [Option.some.injEq] at h
      subst c2 h
      exact List.mem_cons_self _ _
    · exact List.mem_cons_of_mem _ (ih h)

/-! ## Ledger store lemmas -/

theorem Store.amountOf_upsert (k entry subclass amount : Nat) (store : Store) :
    Store.amountOf k (Store.upsert entry subclass amount store)
      = if k = entry then some amount else Store.amountOf k store := by
  induction store with
  | nil =>
    simp only [Store.upsert, Store.amountOf]
    split_ifs <;> first | rfl | omega
  | cons row rest ih =>
    unfold Store.upsert
    by_cases h : row.item_entry = entry
    · simp only [h, if_true, Store.amountOf]
      split_ifs <;> first | rfl | omega
    · simp only [h, if_false, Store.amountOf, ih]
      split_ifs <;> first | rfl | omega

theorem Store.amountOf_delete (k entry : Nat) (store : Store) :
    Store.amountOf k (Store.delete entry store)
      = if k = entry then none else Store.amountOf k store := by
  induction store with
  | nil => simp [Store.delete, Store.amountOf]
  | cons row rest ih =>
    simp only [Store.delete] at ih ⊢
    by_cases h : row.item_entry = entry
    · simp only [List.filter_cons, h, bne_self_eq_false, Bool.false_eq_true, if_false, ih,
        Store.amountOf]
      split_ifs <;> first | rfl | omega
    · have hb : (row.item_entry != entry) = true := by simp [h]
      simp only [List.filter_cons, hb, if_true, Store.amountOf, ih]
      split_ifs <;> first | rfl | omega

theorem Store.amountOf_update (k entry amount : Nat) (store : Store) :
    Store.amountOf k (Store.update entry amount store)
      = if k = entry then (Store.amountOf k store).map (fun _ => amount)
        else Store.amountOf k store := by
  induction store with
  | nil => simp [Store.update, Store.amountOf]
  | cons row rest ih =>
    simp only [Store.update] at ih ⊢
    simp only [List.map, Store.amountOf, ih]
    by_cases h : row.item_entry = entry
    · simp only [h, if_true]
      split_ifs <;> first | rfl | omega
    · simp only [h, if_false]
      split_ifs <;> first | rfl | omega

theorem Store.amountOf_eq_none {k : Nat} {store : Store}
    (h : k ∉ store.map Row.item_entry) : Store.amountOf k store = none := by
  induction store with
  | nil => rfl
  | cons row rest ih =>
    simp only [List.map, List.mem_cons, not_or] at h
    simp only [Store.amountOf, Ne.symm h.1, if_false]
    exact ih h.2

theorem Store.mem_of_amountOf {k a : Nat} {store : Store} (h : Store.amountOf k store = some a) :
    ∃ row ∈ store, row.item_entry = k ∧ row.amount = a := by
  induction store with
  | nil => simp [Store.amountOf] at h
  | cons row rest ih =>
    unfold Store.amountOf at h
    split_ifs at h with c
    · simp only [Option.some.injEq] at h
      exact ⟨row, List.mem_cons_self _ _, c, h⟩
    · obtain ⟨r, hr, h1, h2⟩ := ih h
      exact ⟨r, List.mem_cons_of_mem _ hr, h1, h2⟩

theorem Store.amountOf_of_mem {row : Row} {store : Store} (hu : Store.UniqueKeys store)
    (h : row ∈ store) : Store.amountOf row.item_entry store = some row.amount := by
  induction store with
  | nil => simp at h
  | cons hd rest ih =>
    simp only [Store.UniqueKeys, List.map, List.nodup_cons] at hu
    rcases List.mem_cons.mp h with h | h
    · subst h
      simp [Store.amountOf]
    · have hne : hd.item_entry ≠ row.item_entry := by
        intro heq
        exact hu.1 (heq ▸ List.mem_map_of_mem Row.item_entry h)
      simp only [Store.amountOf, hne, if_false]
      exact ih hu.2 h

/-! ## Deposit merge and flush -/

theorem existingAmounts_fold_sorted (rows : List Row) {m : UMap} (h : UMap.Sorted m) :
    UMap.Sorted (rows.foldl (fun m row => UMap.set row.item_entry row.amount m) m) := by
  induction rows generalizing m with
  | nil => exact h
  | cons row rest ih => exact ih (UMap.set_sorted _ _ h)

theorem existingAmountsOf_sorted (rows : List Row) : UMap.Sorted (existingAmountsOf rows) :=
  existingAmounts_fold_sorted rows UMap.sorted_nil

theorem existingAmounts_fold_find (k : Nat) (rows : List Row) (m : UMap)
    (hu : Store.UniqueKeys rows) :
    UMap.find k (rows.foldl (fun m row => UMap.set row.item_entry row.amount m) m)
      = (match Store.amountOf k rows with
        | some a => some a
        | none => UMap.find k m) := by
  induction rows generalizing m with
  | nil => rfl
  | cons row rest ih =>
    simp only [Store.UniqueKeys, List.map, List.nodup_cons] at hu
    simp only [List.foldl]
    rw [ih _ hu.2, UMap.find_set]
    by_cases h : k = row.item_entry
    · subst h
      rw [Store.amountOf_eq_none hu.1]
      simp [Store.amountOf]
    · simp only [h, if_false, Store.amountOf, Ne.symm h]

/-- With one row per item, the map read from the rows holds for each item the
amount of its row. -/
theorem existingAmountsOf_find (k : Nat) (rows : List Row) (hu : Store.UniqueKeys rows) :
    UMap.find k (existingAmountsOf rows) = Store.amountOf k rows := by
  unfold existingAmountsOf
  rw [existingAmounts_fold_find k rows [] hu]
  cases Store.amountOf k rows <;> rfl

theorem existingAmounts_fold_mem {p : Nat × Nat} (rows : List Row) (m : UMap)
    (h : p ∈ rows.foldl (fun m row => UMap.set row.item_entry row.amount m) m) :
    p ∈ m ∨ ∃ row ∈ rows, row.item_entry = p.1 ∧ row.amount = p.2 := by
  induction rows generalizing m with
  | nil => exact Or.inl h
  | cons row rest ih =>
    simp only [List.foldl] at h
    rcases ih _ h with h | ⟨r, hr, h1, h2⟩
    · rcases UMap.mem_set h with h | h
      · right
        exact ⟨row, List.mem_cons_self _ _, by rw [h], by rw [h]⟩
      · exact Or.inl h
    · right
      exact ⟨r, List.mem_cons_of_mem _ hr, h1, h2⟩

theorem mergeAmounts_fold_sorted (existingAmounts : UMap) (added : UMap) {fin : UMap}
    (h : UMap.Sorted fin) :
    UMap.Sorted (added.foldl
      (fun fin kv => UMap.set kv.1 ((UMap.get kv.1 existingAmounts + kv.2) % U32) fin) fin) := by
  induction added generalizing fin with
  | nil => exact h
  | cons kv rest ih => exact ih (UMap.set_sorted _ _ h)

theorem mergeAmounts_sorted {existingAmounts : UMap} (added : UMap)
    (h : UMap.Sorted existingAmounts) : UMap.Sorted (mergeAmounts existingAmounts added) :=
  mergeAmounts_fold_sorted existingAmounts added h

theorem mergeAmounts_fold_find (k : Nat) (existingAmounts : UMap) (added : UMap) (fin : UMap)
    (hs : UMap.Sorted added) :
    UMap.find k (added.foldl
      (fun fin kv => UMap.set kv.1 ((UMap.get kv.1 existingAmounts + kv.2) % U32) fin) fin)
      = (match UMap.find k added with
        | some r => some ((UMap.get k existingAmounts + r) % U32)
        | none => UMap.find k fin) := by
  induction added generalizing fin with
  | nil => rfl
  | cons kv rest ih =>
    obtain ⟨k', r'⟩ := kv
    obtain ⟨h1, h2⟩ := UMap.sorted_cons.mp hs
    simp only [List.foldl]
    rw [ih _ h2, UMap.find_set]
    by_cases c1 : k < k'
    · have hnone : UMap.find k rest = none :=
        UMap.find_eq_none_of_lt (fun q hq => lt_trans c1 (h1 q hq))
      have hne : k ≠ k' := by omega
      simp [UMap.find, c1, hnone, hne]
    · by_cases c2 : k = k'
      · subst c2
        have hnone : UMap.find k rest = none := UMap.find_eq_none_of_lt h1
        simp [UMap.find, hnone]
      · simp only [UMap.find, c1, c2, if_false]

/-- The merged map: a touched item holds `existingAmounts[item] + removed` in
`uint32`, any other item what `existingAmounts` holds. -/
theorem mergeAmounts_find (k : Nat) (existingAmounts added : UMap) (hs : UMap.Sorted added) :
    UMap.find k (mergeAmounts existingAmounts added)
      = (match UMap.find k added with
        | some r => some ((UMap.get k existingAmounts + r) % U32)
        | none => UMap.find k existingAmounts) :=
  mergeAmounts_fold_find k existingAmounts added existingAmounts hs

theorem mergeAmounts_fold_mem {p : Nat × Nat} (existingAmounts : UMap) (added : UMap) (fin : UMap)
    (h : p ∈ added.foldl
      (fun fin kv => UMap.set kv.1 ((UMap.get kv.1 existingAmounts + kv.2) % U32) fin) fin) :
    p ∈ fin ∨ ∃ kv ∈ added, p = (kv.1, (UMap.get kv.1 existingAmounts + kv.2) % U32) := by
  induction added generalizing fin with
  | nil => exact Or.inl h
  | cons kv rest ih =>
    simp only [List.foldl] at h
    rcases ih _ h with h | ⟨q, hq, h1⟩
    · rcases UMap.mem_set h with h | h
      · exact Or.inr ⟨kv, List.mem_cons_self _ _, h⟩
      · exact Or.inl h
    · exact Or.inr ⟨q, List.mem_cons_of_mem _ hq, h1⟩

theorem runEffects_append (a b : List Effect) (store : Store) :
    runEffects (a ++ b) store = runEffects b (runEffects a store) := by
  simp [runEffects, List.foldl_append]

/-- An effect that is no statement on the ledger table. -/
theorem runEffects_of_no_ledger (effects : List Effect) (store : Store)
    (h : ∀ e ∈ effects, ∀ s, Effect.applyTo s e = s) : runEffects effects store = store := by
  induction effects generalizing store with
  | nil => rfl
  | cons e rest ih =>
    simp only [runEffects, List.foldl] at ih ⊢
    rw [h e (List.mem_cons_self _ _)]
    exact ih store (fun e' he' => h e' (List.mem_cons_of_mem _ he'))

/-- The ledger after `FlushReagentState`: an item of the final-amounts map has
exactly the amount of the map, any other item is as before. -/
theorem FlushReagentState_amountOf (k : Nat) (finalAmounts subclassByEntry : UMap) (store : Store)
    (hs : UMap.Sorted finalAmounts) :
    Store.amountOf k (runEffects (FlushReagentState finalAmounts subclassByEntry) store)
      = (match UMap.find k finalAmounts with
        | some v => some v
        | none => Store.amountOf k store) := by
  induction finalAmounts generalizing store with
  | nil => rfl
  | cons kv rest ih =>
    obtain ⟨k', v'⟩ := kv
    obtain ⟨h1, h2⟩ := UMap.sorted_cons.mp hs
    simp only [FlushReagentState, List.map, runEffects, List.foldl, Effect.applyTo] at ih ⊢
    rw [ih _ h2, Store.amountOf_upsert]
    by_cases c1 : k < k'
    · have hnone : UMap.find k rest = none :=
        UMap.find_eq_none_of_lt (fun q hq => lt_trans c1 (h1 q hq))
      have hne : k ≠ k' := by omega
      simp [UMap.find, c1, hnone, hne]
    · by_cases c2 : k = k'
      · subst c2
        have hnone : UMap.find k rest = none := UMap.find_eq_none_of_lt h1
        simp [UMap.find, hnone]
      · simp only [UMap.find, c1, c2, if_false]

theorem Store.mem_upsert {row : Row} {entry subclass amount : Nat} {store : Store}
    (h : row ∈ Store.upsert entry subclass amount store) :
    row ∈ store ∨ row = ⟨entry, subclass, amount⟩ := by
  induction store with
  | nil =>
    simp only [Store.upsert, List.mem_singleton] at h
    exact Or.inr h
  | cons hd rest ih =>
    unfold Store.upsert at h
    split_ifs at h with c
    · rcases List.mem_cons.mp h with h | h
      · exact Or.inr h
      · exact Or.inl (List.mem_cons_of_mem _ h)
    · rcases List.mem_cons.mp h with h | h
      · exact Or.inl (h ▸ List.mem_cons_self _ _)
      · rcases ih h with h | h
        · exact Or.inl (List.mem_cons_of_mem _ h)
        · exact Or.inr h

/-- A row of the ledger after `FlushReagentState` is a row from before or
carries an amount of the final-amounts map. -/
theorem FlushReagentState_mem {row : Row} (finalAmounts subclassByEntry : UMap) (store : Store)
    (h : row ∈ runEffects (FlushReagentState finalAmounts subclassByEntry) store) :
    row ∈ store ∨ ∃ kv ∈ finalAmounts, row.item_entry = kv.1 ∧ row.amount = kv.2 := by
  induction finalAmounts generalizing store with
  | nil => exact Or.inl h
  | cons kv rest ih =>
    simp only [FlushReagentState, List.map, runEffects, List.foldl, Effect.applyTo] at ih h
    rcases ih _ h with h | ⟨q, hq, h1⟩
    · rcases Store.mem_upsert h with h | h
      · exact Or.inl h
      · right
        exact ⟨kv, List.mem_cons_self _ _, by rw [h], by rw [h]⟩
    · exact Or.inr ⟨q, List.mem_cons_of_mem _ hq, h1⟩

/-! ## What `AccumulateInventory` returns is an ordered map -/

theorem accumulateFrom_sorted (K : HostEnums) (filterSubclass : Option Nat)
    (inventory : Inventory) (result : AccumulateResult) (h : UMap.Sorted result.addedCounts) :
    UMap.Sorted (accumulateFrom K filterSubclass inventory result).1.addedCounts := by
  induction inventory generalizing result with
  | nil => exact h
  | cons slot rest ih =>
    unfold accumulateFrom
    cases he : eligibleStack K filterSubclass slot with
    | none => exact ih result h
    | some t =>
      obtain ⟨entry, subclass, count⟩ := t
      exact ih _ (UMap.addTo_sorted _ _ h)

theorem AccumulateInventory_sorted (K : HostEnums) (inventory : Inventory)
    (filterSubclass : Option Nat) :
    UMap.Sorted (AccumulateInventory K inventory filterSubclass).1.addedCounts :=
  accumulateFrom_sorted K filterSubclass inventory _ UMap.sorted_nil

/-! ## The ledger after a deposit flow -/

theorem runEffects_audit_rows (f : Nat × Nat → Effect) (l : UMap) (store : Store)
    (h : ∀ kv s, Effect.applyTo s (f kv) = s) : runEffects (l.map f) store = store := by
  apply runEffects_of_no_ledger
  intro e he s
  obtain ⟨kv, -, rfl⟩ := List.mem_map.mp he
  exact h kv s

theorem runEffects_invalidations (l : List Nat) (store : Store) :
    runEffects (l.map Effect.invalidate) store = store := by
  apply runEffects_of_no_ledger
  intro e he s
  obtain ⟨x, -, rfl⟩ := List.mem_map.mp he
  rfl

theorem runEffects_depositedMessages (catalog : Catalog) (added : UMap) (store : Store) :
    runEffects (depositedMessages catalog added) store = store := by
  apply runEffects_of_no_ledger
  intro e he s
  simp only [depositedMessages, List.mem_map] at he
  obtain ⟨x, -, rfl⟩ := he
  rfl

/-- The ledger after `DepositAllReagents` is the ledger after its
`FlushReagentState` call. -/
theorem DepositAllReagents_store (K : HostEnums) (catalog : Catalog) (auditOn : Bool)
    (store : Store) (inventory : Inventory)
    (hne : (AccumulateInventory K inventory none).1.addedCounts ≠ []) :
    runEffects (DepositAllReagents K catalog auditOn store inventory).1 store
      = runEffects (FlushReagentState
          (mergeAmounts (existingAmountsOf store)
            (AccumulateInventory K inventory none).1.addedCounts)
          ((AccumulateInventory K inventory none).1.subclassByEntry.foldl
            (fun m kv => UMap.set kv.1 kv.2 m) (subclassByEntryOf store))) store := by
  unfold DepositAllReagents
  simp only [hne, if_false]
  rw [runEffects_append, runEffects_append, runEffects_append]
  have h1 : ∀ s, runEffects (if auditOn = true then
      (AccumulateInventory K inventory none).1.addedCounts.map (fun kv =>
        Effect.audit AuditAction.DEPOSIT kv.1
          (UMap.get kv.1 (AccumulateInventory K inventory none).1.subclassByEntry) kv.2)
      else []) s = s := by
    intro s
    split_ifs
    · exact runEffects_audit_rows _ _ _ (fun _ _ => rfl)
    · rfl
  rw [h1, runEffects_invalidations]
  simp only [runEffects, List.foldl, Effect.applyTo]
  exact runEffects_depositedMessages catalog _ _

/-- The ledger after `DepositAllReagentsForCategory` is the ledger after its
`FlushReagentState` call. -/
theorem DepositAllReagentsForCategory_store (K : HostEnums) (catalog : Catalog) (auditOn : Bool)
    (item_subclass : Nat) (store : Store) (inventory : Inventory)
    (hne : (AccumulateInventory K inventory (some item_subclass)).1.addedCounts ≠ []) :
    runEffects (DepositAllReagentsForCategory K catalog auditOn item_subclass store inventory).1
        store
      = runEffects (FlushReagentState
          (mergeAmounts (existingAmountsOf (Store.rowsOfCategory item_subclass store))
            (AccumulateInventory K inventory (some item_subclass)).1.addedCounts)
          ((mergeAmounts (existingAmountsOf (Store.rowsOfCategory item_subclass store))
            (AccumulateInventory K inventory (some item_subclass)).1.addedCounts).foldl
            (fun m kv => UMap.set kv.1 item_subclass m) [])) store := by
  unfold DepositAllReagentsForCategory
  simp only [hne, if_false]
  rw [runEffects_append, runEffects_append]
  have h1 : ∀ s, runEffects (if auditOn = true then
      (AccumulateInventory K inventory (some item_subclass)).1.addedCounts.map (fun kv =>
        Effect.audit AuditAction.DEPOSIT kv.1 item_subclass kv.2)
      else []) s = s := by
    intro s
    split_ifs
    · exact runEffects_audit_rows _ _ _ (fun _ _ => rfl)
    · rfl
  rw [h1]
  simp only [runEffects, List.foldl, Effect.applyTo]
  exact runEffects_depositedMessages catalog _ _

theorem UMap.find_nil (k : Nat) : UMap.find k [] = none := rfl

/-- `DepositAllReagents` at the ledger: an item that was removed from the
inventory ends with its stored amount (0 without a row) plus the removed
quantity, in `uint32`; every other item is as before. -/
theorem DepositAllReagents_amountOf (K : HostEnums) (catalog : Catalog) (auditOn : Bool)
    (store : Store) (inventory : Inventory) (hu : Store.UniqueKeys store) (k : Nat) :
    Store.amountOf k (runEffects (DepositAllReagents K catalog auditOn store inventory).1 store)
      = (match UMap.find k (AccumulateInventory K inventory none).1.addedCounts with
        | some r => some (((Store.amountOf k store).getD 0 + r) % U32)
        | none => Store.amountOf k store) := by
  by_cases hne : (AccumulateInventory K inventory none).1.addedCounts = []
  · unfold DepositAllReagents
    simp only [hne, if_true, UMap.find_nil]
    rfl
  · rw [DepositAllReagents_store K catalog auditOn store inventory hne,
      FlushReagentState_amountOf k _ _ store
        (mergeAmounts_sorted _ (existingAmountsOf_sorted store)),
      mergeAmounts_find k _ _ (AccumulateInventory_sorted K inventory none),
      UMap.get, existingAmountsOf_find k store hu]
    cases UMap.find k (AccumulateInventory K inventory none).1.addedCounts with
    | some r => rfl
    | none => cases Store.amountOf k store <;> rfl

theorem Store.rowsOfCategory_unique (c : Nat) {store : Store} (hu : Store.UniqueKeys store) :
    Store.UniqueKeys (Store.rowsOfCategory c store) := by
  unfold Store.UniqueKeys Store.rowsOfCategory
  exact List.Nodup.sublist ((List.filter_sublist _).map _) hu

theorem Store.amountOf_of_rowsOfCategory {c k a : Nat} {store : Store}
    (hu : Store.UniqueKeys store)
    (h : Store.amountOf k (Store.rowsOfCategory c store) = some a) :
    Store.amountOf k store = some a := by
  obtain ⟨row, hr, h1, h2⟩ := Store.mem_of_amountOf h
  have hmem : row ∈ store := (List.mem_filter.mp hr).1
  rw [← h1, ← h2]
  exact Store.amountOf_of_mem hu hmem

/-- `DepositAllReagentsForCategory` at the ledger: an item that was removed
from the inventory ends with the amount of its row among the rows of the
category (0 when it has no row there) plus the removed quantity, in `uint32`;
every other item is as before. -/
theorem DepositAllReagentsForCategory_amountOf (K : HostEnums) (catalog : Catalog)
    (auditOn : Bool) (item_subclass : Nat) (store : Store) (inventory : Inventory)
    (hu : Store.UniqueKeys store) (k : Nat) :
    Store.amountOf k
        (runEffects (DepositAllReagentsForCategory K catalog auditOn item_subclass store
          inventory).1 store)
      = (match UMap.find k
            (AccumulateInventory K inventory (some item_subclass)).1.addedCounts with
        | some r => some
            (((Store.amountOf k (Store.rowsOfCategory item_subclass store)).getD 0 + r) % U32)
        | none => Store.amountOf k store) := by
  by_cases hne : (AccumulateInventory K inventory (some item_subclass)).1.addedCounts = []
  · unfold DepositAllReagentsForCategory
    simp only [hne, if_true, UMap.find_nil]
    rfl
  · rw [DepositAllReagentsForCategory_store K catalog auditOn item_subclass store inventory hne,
      FlushReagentState_amountOf k _ _ store
        (mergeAmounts_sorted _ (existingAmountsOf_sorted _)),
      mergeAmounts_find k _ _ (AccumulateInventory_sorted K inventory (some item_subclass)),
      UMap.get, existingAmountsOf_find k _ (Store.rowsOfCategory_unique item_subclass hu)]
    cases UMap.find k (AccumulateInventory K inventory (some item_subclass)).1.addedCounts with
    | some r => rfl
    | none =>
      simp only
      cases h : Store.amountOf k (Store.rowsOfCategory item_subclass store) with
      | none => rfl
      | some a => exact (Store.amountOf_of_rowsOfCategory hu h).symm

/-! ## Claims on the deposit flows -/

/-- C7 at a failing input: the ledger holds 50 of item 100 in a row filed under
category 7, and the requester carries 30 of item 100, whose template puts it in
category 5. `DepositAllReagentsForCategory` for category 5 reads only the rows
of category 5, merges 0 + 30 and overwrites the row: 30 is stored, not 80.
`DepositAllReagents` on the same input stores 80, and the deposit of 30 into an
empty ledger stores 30. -/
theorem DepositAllReagentsForCategory_overwrites_other_category_row :
    (AccumulateInventory exampleEnums [some ⟨some itemA, 20⟩, some ⟨some itemA, 10⟩]
      (some 5)).1.addedCounts = [(100, 30)] ∧
    Store.amountOf 100 [⟨100, 7, 50⟩] = some 50 ∧
    runEffects (DepositAllReagentsForCategory exampleEnums itemACatalog false 5 [⟨100, 7, 50⟩]
      [some ⟨some itemA, 20⟩, some ⟨some itemA, 10⟩]).1 [⟨100, 7, 50⟩] = [⟨100, 5, 30⟩] ∧
    runEffects (DepositAllReagents exampleEnums itemACatalog false [⟨100, 7, 50⟩]
      [some ⟨some itemA, 20⟩, some ⟨some itemA, 10⟩]).1 [⟨100, 7, 50⟩] = [⟨100, 5, 80⟩] ∧
    runEffects (DepositAllReagents exampleEnums itemACatalog false []
      [some ⟨some itemA, 20⟩, some ⟨some itemA, 10⟩]).1 [] = [⟨100, 5, 30⟩] ∧
    runEffects (DepositAllReagentsForCategory exampleEnums itemACatalog false 5 []
      [some ⟨some itemA, 20⟩, some ⟨some itemA, 10⟩]).1 [] = [⟨100, 5, 30⟩] := by
  refine ⟨by decide, by decide, by decide, by decide, by decide, by decide⟩

/-- C8 at a concrete input: the row of item 100 holds 4294967290 and a stack of
20 is deposited; 4294967310 is far below `2^64`, yet the amount written is
14. -/
theorem DepositAllReagents_amount_wraps_at_32_bits :
    (AccumulateInventory exampleEnums [some ⟨some itemA, 20⟩] none).1.addedCounts
      = [(100, 20)] ∧
    UMap.get 100 (existingAmountsOf [⟨100, 5, 4294967290⟩]) = 4294967290 ∧
    4294967290 + 20 < 2 ^ 64 ∧
    (DepositAllReagents exampleEnums itemACatalog false [⟨100, 5, 4294967290⟩]
      [some ⟨some itemA, 20⟩]).1
      = [Effect.upsert 100 5 14, Effect.invalidate 5,
          Effect.message Message.followingWasDeposited,
          Effect.message (Message.deposited 20 100)] ∧
    Store.amountOf 100
      (runEffects (DepositAllReagents exampleEnums itemACatalog false [⟨100, 5, 4294967290⟩]
        [some ⟨some itemA, 20⟩]).1 [⟨100, 5, 4294967290⟩]) = some 14 := by
  refine ⟨by decide, by decide, by decide, by decide, by decide⟩

/-- C8, amended: ledger amounts are unsigned 32-bit in the deposit merge. For
every touched item with existing amount `e` (the amount of the row the flow
read, 0 without one) and removed quantity `r`, the amount written by the
deposit flow is `(e + r) mod 2^32`, which is exactly `e + r` when
`e + r < 2^32`. -/
theorem deposit_merge_amount_is_uint32 (K : HostEnums) (catalog : Catalog) (auditOn : Bool)
    (item_subclass : Nat) (store : Store) (inventory : Inventory)
    (hu : Store.UniqueKeys store) (k r : Nat) :
    (UMap.find k (AccumulateInventory K inventory none).1.addedCounts = some r →
      Store.amountOf k (runEffects (DepositAllReagents K catalog auditOn store inventory).1 store)
        = some (((Store.amountOf k store).getD 0 + r) % U32) ∧
      ((Store.amountOf k store).getD 0 + r < U32 →
        Store.amountOf k
          (runEffects (DepositAllReagents K catalog auditOn store inventory).1 store)
          = some ((Store.amountOf k store).getD 0 + r))) ∧
    (UMap.find k (AccumulateInventory K inventory (some item_subclass)).1.addedCounts = some r →
      Store.amountOf k
          (runEffects (DepositAllReagentsForCategory K catalog auditOn item_subclass store
            inventory).1 store)
        = some (((Store.amountOf k (Store.rowsOfCategory item_subclass store)).getD 0 + r)
            % U32) ∧
      ((Store.amountOf k (Store.rowsOfCategory item_subclass store)).getD 0 + r < U32 →
        Store.amountOf k
          (runEffects (DepositAllReagentsForCategory K catalog auditOn item_subclass store
            inventory).1 store)
          = some ((Store.amountOf k (Store.rowsOfCategory item_subclass store)).getD 0 + r))) := by
  constructor
  · intro hr
    have h := DepositAllReagents_amountOf K catalog auditOn store inventory hu k
    rw [hr] at h
    simp only at h
    refine ⟨h, fun hlt => ?_⟩
    rw [h, Nat.mod_eq_of_lt hlt]
  · intro hr
    have h := DepositAllReagentsForCategory_amountOf K catalog auditOn item_subclass store
      inventory hu k
    rw [hr] at h
    simp only at h
    refine ⟨h, fun hlt => ?_⟩
    rw [h, Nat.mod_eq_of_lt hlt]

/-- Witness of the amended C8: 30 of item 100 on top of a row holding 50. -/
theorem deposit_merge_amount_is_uint32_witness :
    Store.UniqueKeys [⟨100, 5, 50⟩] ∧
    UMap.find 100 (AccumulateInventory exampleEnums
      [some ⟨some itemA, 20⟩, some ⟨some itemA, 10⟩] none).1.addedCounts = some 30 ∧
    (Store.amountOf 100 [⟨100, 5, 50⟩]).getD 0 + 30 < U32 ∧
    Store.amountOf 100
      (runEffects (DepositAllReagents exampleEnums itemACatalog true [⟨100, 5, 50⟩]
        [some ⟨some itemA, 20⟩, some ⟨some itemA, 10⟩]).1 [⟨100, 5, 50⟩])
      = some ((Store.amountOf 100 [⟨100, 5, 50⟩]).getD 0 + 30) :=
  ⟨by unfold Store.UniqueKeys; decide, by decide, by decide,
    ((deposit_merge_amount_is_uint32 exampleEnums itemACatalog true 5 [⟨100, 5, 50⟩]
      [some ⟨some itemA, 20⟩, some ⟨some itemA, 10⟩] (by unfold Store.UniqueKeys; decide)
      100 30).1 (by decide)).2 (by decide)⟩

/-- C9 at concrete inputs: `FlushReagentState` with a final amount 0 for item
100 leaves the row of item 100 in the ledger with amount 0; and the deposit of
one unit on top of a row holding 4294967295, in a ledger whose rows are all
positive, leaves that row with amount 0. -/
theorem FlushReagentState_stores_zero_amount :
    FlushReagentState [(100, 0)] [(100, 5)] = [Effect.upsert 100 5 0] ∧
    runEffects (FlushReagentState [(100, 0)] [(100, 5)]) [⟨100, 5, 7⟩] = [⟨100, 5, 0⟩] ∧
    (∀ row ∈ ([⟨100, 5, 4294967295⟩, ⟨101, 5, 3⟩] : Store), 0 < row.amount) ∧
    runEffects (DepositAllReagents exampleEnums itemACatalog false
        [⟨100, 5, 4294967295⟩, ⟨101, 5, 3⟩] [some ⟨some itemA, 1⟩]).1
        [⟨100, 5, 4294967295⟩, ⟨101, 5, 3⟩]
      = [⟨100, 5, 0⟩, ⟨101, 5, 3⟩] := by
  refine ⟨by decide, by decide, by decide, by decide⟩

theorem mergeAmounts_values_positive {existingAmounts added : UMap} {rows : List Row}
    (hex : existingAmounts = existingAmountsOf rows)
    (hpos : ∀ row ∈ rows, 0 < row.amount)
    (hadd : ∀ kv ∈ added, 0 < kv.2 ∧ UMap.get kv.1 existingAmounts + kv.2 < U32) :
    ∀ p ∈ mergeAmounts existingAmounts added, 0 < p.2 := by
  intro p hp
  rcases mergeAmounts_fold_mem existingAmounts added existingAmounts hp with h | ⟨kv, hkv, h⟩
  · rw [hex] at h
    rcases existingAmounts_fold_mem rows [] h with h | ⟨row, hrow, -, h2⟩
    · simp at h
    · rw [← h2]
      exact hpos row hrow
  · obtain ⟨h1, h2⟩ := hadd kv hkv
    rw [h]
    simp only
    rw [Nat.mod_eq_of_lt h2]
    omega

theorem FlushReagentState_rows_positive {finalAmounts : UMap} (subclassByEntry : UMap)
    {store : Store} (hpos : ∀ row ∈ store, 0 < row.amount)
    (hfin : ∀ p ∈ finalAmounts, 0 < p.2) :
    ∀ row ∈ runEffects (FlushReagentState finalAmounts subclassByEntry) store,
      0 < row.amount := by
  intro row hrow
  rcases FlushReagentState_mem finalAmounts subclassByEntry store hrow with h | ⟨kv, hkv, -, h2⟩
  · exact hpos row h
  · rw [h2]
    exact hfin kv hkv

/-- C9, amended: `FlushReagentState` is an insert-or-update of every entry of
the final-amounts map with the amount as given and deletes nothing, so an entry
with amount 0 is stored as a row with amount 0. If every stored row has amount
greater than 0 before a deposit flow, every removed quantity is positive and no
merged amount reaches `2^32`, then every stored row has amount greater than 0
after it. -/
theorem deposit_keeps_rows_positive (K : HostEnums) (catalog : Catalog) (auditOn : Bool)
    (item_subclass : Nat) (store : Store) (inventory : Inventory)
    (hpos : ∀ row ∈ store, 0 < row.amount)
    (hall : ∀ kv ∈ (AccumulateInventory K inventory none).1.addedCounts,
      0 < kv.2 ∧ UMap.get kv.1 (existingAmountsOf store) + kv.2 < U32)
    (hcat : ∀ kv ∈ (AccumulateInventory K inventory (some item_subclass)).1.addedCounts,
      0 < kv.2 ∧
      UMap.get kv.1 (existingAmountsOf (Store.rowsOfCategory item_subclass store)) + kv.2 < U32) :
    (∀ (finalAmounts subclassByEntry : UMap), ∀ e ∈ FlushReagentState finalAmounts subclassByEntry,
      ∃ kv ∈ finalAmounts, ∃ subclass, e = Effect.upsert kv.1 subclass kv.2) ∧
    (∀ (finalAmounts subclassByEntry : UMap) (st : Store) (k : Nat), UMap.Sorted finalAmounts →
      UMap.find k finalAmounts = some 0 →
      Store.amountOf k (runEffects (FlushReagentState finalAmounts subclassByEntry) st) = some 0) ∧
    (∀ row ∈ runEffects (DepositAllReagents K catalog auditOn store inventory).1 store,
      0 < row.amount) ∧
    (∀ row ∈ runEffects
        (DepositAllReagentsForCategory K catalog auditOn item_subclass store inventory).1 store,
      0 < row.amount) := by
  refine ⟨?_, ?_, ?_, ?_⟩
  · intro finalAmounts subclassByEntry e he
    simp only [FlushReagentState, List.mem_map] at he
    obtain ⟨kv, hkv, rfl⟩ := he
    exact ⟨kv, hkv, _, rfl⟩
  · intro finalAmounts subclassByEntry st k hs hk
    rw [FlushReagentState_amountOf k finalAmounts subclassByEntry st hs, hk]
  · by_cases hne : (AccumulateInventory K inventory none).1.addedCounts = []
    · unfold DepositAllReagents
      simp only [hne, if_true]
      exact hpos
    · rw [DepositAllReagents_store K catalog auditOn store inventory hne]
      exact FlushReagentState_rows_positive _ hpos
        (mergeAmounts_values_positive rfl hpos hall)
  · by_cases hne : (AccumulateInventory K inventory (some item_subclass)).1.addedCounts = []
    · unfold DepositAllReagentsForCategory
      simp only [hne, if_true]
      exact hpos
    · rw [DepositAllReagentsForCategory_store K catalog auditOn item_subclass store inventory hne]
      exact FlushReagentState_rows_positive _ hpos
        (mergeAmounts_values_positive rfl
          (fun row hrow => hpos row (List.mem_filter.mp hrow).1) hcat)

/-- Witness of the amended C9: 30 of item 100 on top of a row holding 50. -/
theorem deposit_keeps_rows_positive_witness :
    (∀ row ∈ ([⟨100, 5, 50⟩] : Store), 0 < row.amount) ∧
    (∀ row ∈ runEffects (DepositAllReagents exampleEnums itemACatalog true [⟨100, 5, 50⟩]
        [some ⟨some itemA, 20⟩, some ⟨some itemA, 10⟩]).1 [⟨100, 5, 50⟩], 0 < row.amount) :=
  ⟨by decide,
    (deposit_keeps_rows_positive exampleEnums itemACatalog true 5 [⟨100, 5, 50⟩]
      [some ⟨some itemA, 20⟩, some ⟨some itemA, 10⟩] (by decide) (by decide) (by decide)).2.2.1⟩

/-! ## Withdraw: ledger statements -/

theorem Store.mem_delete {row : Row} {entry : Nat} {store : Store}
    (h : row ∈ Store.delete entry store) : row ∈ store :=
  (List.mem_filter.mp h).1

theorem Store.update_rows_positive {entry amount : Nat} {store : Store}
    (ha : 0 < amount) (hpos : ∀ row ∈ store, 0 < row.amount) :
    ∀ row ∈ Store.update entry amount store, 0 < row.amount := by
  intro row hrow
  simp only [Store.update, List.mem_map] at hrow
  obtain ⟨r, hr, rfl⟩ := hrow
  split_ifs
  · exact ha
  · exact hpos r hr

/-- Effects that store no amount 0 keep every row positive. -/
theorem runEffects_rows_positive (effects : List Effect) (store : Store)
    (he : ∀ e ∈ effects, Effect.WritesPositive e) (hpos : ∀ row ∈ store, 0 < row.amount) :
    ∀ row ∈ runEffects effects store, 0 < row.amount := by
  induction effects generalizing store with
  | nil => exact hpos
  | cons e rest ih =>
    simp only [runEffects, List.foldl] at ih ⊢
    apply ih _ (fun e' he' => he e' (List.mem_cons_of_mem _ he'))
    have h1 := he e (List.mem_cons_self _ _)
    cases e with
    | upsert entry subclass amount =>
      intro row hrow
      rcases Store.mem_upsert hrow with h | h
      · exact hpos row h
      · rw [h]
        exact h1
    | delete entry =>
      intro row hrow
      exact hpos row (Store.mem_delete hrow)
    | update entry amount => exact Store.update_rows_positive h1 hpos
    | audit _ _ _ _ => exact hpos
    | invalidate _ => exact hpos
    | ensureAuditCleanup => exact hpos
    | storeNewItem _ _ => exact hpos
    | message _ => exact hpos

/-- Effects that create no row leave an item without a row without one. -/
theorem runEffects_amountOf_none (k : Nat) (effects : List Effect) (store : Store)
    (he : ∀ e ∈ effects, Effect.NoInsert e) (h : Store.amountOf k store = none) :
    Store.amountOf k (runEffects effects store) = none := by
  induction effects generalizing store with
  | nil => exact h
  | cons e rest ih =>
    simp only [runEffects, List.foldl] at ih ⊢
    apply ih _ (fun e' he' => he e' (List.mem_cons_of_mem _ he'))
    have h1 := he e (List.mem_cons_self _ _)
    cases e with
    | upsert entry subclass amount => exact absurd h1 (by simp [Effect.NoInsert])
    | delete entry =>
      simp only [Effect.applyTo, Store.amountOf_delete, h]
      split_ifs <;> rfl
    | update entry amount =>
      simp only [Effect.applyTo, Store.amountOf_update, h]
      split_ifs <;> rfl
    | audit _ _ _ _ => exact h
    | invalidate _ => exact h
    | ensureAuditCleanup => exact h
    | storeNewItem _ _ => exact h
    | message _ => exact h

/-- Once a `DELETE` for item `k` is among effects that create no row, the item
has no row in the end. -/
theorem runEffects_delete_mem (k : Nat) (effects : List Effect) (store : Store)
    (he : ∀ e ∈ effects, Effect.NoInsert e) (h : Effect.delete k ∈ effects) :
    Store.amountOf k (runEffects effects store) = none := by
  induction effects generalizing store with
  | nil => simp at h
  | cons e rest ih =>
    have hrest : ∀ e' ∈ rest, Effect.NoInsert e' := fun e' he' => he e' (List.mem_cons_of_mem _ he')
    rcases List.mem_cons.mp h with h | h
    · subst h
      simp only [runEffects, List.foldl, Effect.applyTo]
      exact runEffects_amountOf_none k rest _ hrest (by simp [Store.amountOf_delete])
    · simp only [runEffects, List.foldl] at ih ⊢
      exact ih _ hrest h

theorem deliveredOf_append (entry : Nat) (a b : List Effect) :
    deliveredOf entry (a ++ b) = deliveredOf entry a + deliveredOf entry b := by
  induction a with
  | nil => simp [deliveredOf]
  | cons e rest ih =>
    cases e <;> simp [deliveredOf, ih]
    omega

/-- Effects that hand over no item of `entry` deliver nothing of it. -/
theorem deliveredOf_eq_zero (entry : Nat) (effects : List Effect)
    (h : ∀ e ∈ effects, ∀ c, e ≠ Effect.storeNewItem entry c) : deliveredOf entry effects = 0 := by
  induction effects with
  | nil => rfl
  | cons e rest ih =>
    have hrest := ih (fun e' he' => h e' (List.mem_cons_of_mem _ he'))
    cases e with
    | storeNewItem e' count =>
      have hne : e' ≠ entry := by
        intro heq
        exact h _ (List.mem_cons_self _ _) count (by rw [heq])
      simp [deliveredOf, hne, hrest]
    | upsert _ _ _ => simpa [deliveredOf] using hrest
    | delete _ => simpa [deliveredOf] using hrest
    | update _ _ => simpa [deliveredOf] using hrest
    | audit _ _ _ _ => simpa [deliveredOf] using hrest
    | invalidate _ => simpa [deliveredOf] using hrest
    | ensureAuditCleanup => simpa [deliveredOf] using hrest
    | message _ => simpa [deliveredOf] using hrest

theorem sub32_exact {a b : Nat} (hb : b ≤ a) (ha : a < U32) : sub32 a b = a - b := by
  unfold sub32
  unfold U32 at ha ⊢
  have h1 : b % 4294967296 = b := Nat.mod_eq_of_lt (by omega)
  rw [h1]
  omega

/-- The give loop emits only hand-overs of its own item and chat lines. -/
theorem giveLoop_effects {Inv : Type} (host : Host Inv) (entry stackSize : Nat)
    (fuel remainingToGive remainingBank : Nat) (inv : Inv) (any : Bool) :
    ∀ e ∈ (giveLoop host entry stackSize fuel remainingToGive remainingBank inv any).effects,
      (∃ c, e = Effect.storeNewItem entry c) ∨ ∃ m, e = Effect.message m := by
  induction fuel generalizing remainingToGive remainingBank inv any with
  | zero => simp [giveLoop]
  | succ n ih =>
    unfold giveLoop
    by_cases h0 : remainingToGive = 0
    · simp [h0]
    · simp only [h0, if_false]
      by_cases hc : host.canStoreNewItem inv entry (min stackSize remainingToGive) = true
      · simp only [hc, if_true]
        intro e he
        rcases List.mem_cons.mp he with he | he
        · exact Or.inl ⟨_, he⟩
        · rcases List.mem_cons.mp he with he | he
          · exact Or.inr ⟨_, he⟩
          · exact ih _ _ _ _ e he
      · simp only [hc, Bool.false_eq_true, if_false]
        intro e he
        simp only [List.mem_singleton] at he
        exact Or.inr ⟨_, he⟩

/-- What the give loop hands over is what it takes off `remainingBank`. -/
theorem giveLoop_delivered {Inv : Type} (host : Host Inv) (entry stackSize : Nat)
    (fuel remainingToGive remainingBank : Nat) (inv : Inv) (any : Bool)
    (h1 : remainingToGive ≤ remainingBank) (h2 : remainingBank < U32) :
    (giveLoop host entry stackSize fuel remainingToGive remainingBank inv any).remainingBank
      + deliveredOf entry
          (giveLoop host entry stackSize fuel remainingToGive remainingBank inv any).effects
      = remainingBank := by
  induction fuel generalizing remainingToGive remainingBank inv any with
  | zero => simp [giveLoop, deliveredOf]
  | succ n ih =>
    unfold giveLoop
    by_cases h0 : remainingToGive = 0
    · simp [h0, deliveredOf]
    · simp only [h0, if_false]
      by_cases hc : host.canStoreNewItem inv entry (min stackSize remainingToGive) = true
      · simp only [hc, if_true, deliveredOf]
        have hle : min stackSize remainingToGive ≤ remainingBank :=
          le_trans (Nat.min_le_right _ _) h1
        have hsub := sub32_exact hle h2
        have h3 := ih (remainingToGive - min stackSize remainingToGive)
          (sub32 remainingBank (min stackSize remainingToGive))
          (host.storeNewItem inv entry (min stackSize remainingToGive)) true
          (by rw [hsub]; omega) (by rw [hsub]; omega)
        rw [hsub] at h3 ⊢
        omega
      · simp [hc, deliveredOf]

theorem ledgerWrite_good (entry amount remainingBank : Nat) :
    ∀ e ∈ ledgerWrite entry amount remainingBank,
      Effect.WritesPositive e ∧ Effect.NoInsert e ∧ ∀ k c, e ≠ Effect.storeNewItem k c := by
  intro e he
  unfold ledgerWrite at he
  split_ifs at he with h1 h2
  · simp only [List.mem_singleton] at he
    subst he
    simp [Effect.WritesPositive, Effect.NoInsert]
  · simp only [List.mem_singleton] at he
    subst he
    simp only [Effect.WritesPositive, Effect.NoInsert, ne_eq, not_false_eq_true, implies_true,
      and_true, reduceCtorEq]
    omega
  · simp at he

theorem withdrawAudit_good (auditOn : Bool) (item_subclass entry allowed : Nat) :
    ∀ e ∈ withdrawAudit auditOn item_subclass entry allowed,
      Effect.WritesPositive e ∧ Effect.NoInsert e ∧ ∀ k c, e ≠ Effect.storeNewItem k c := by
  intro e he
  unfold withdrawAudit at he
  split_ifs at he
  · simp only [List.mem_singleton] at he
    subst he
    simp [Effect.WritesPositive, Effect.NoInsert]
  · simp at he

theorem giveLoop_good {Inv : Type} (host : Host Inv) (entry stackSize : Nat)
    (fuel remainingToGive remainingBank : Nat) (inv : Inv) (any : Bool) :
    ∀ e ∈ (giveLoop host entry stackSize fuel remainingToGive remainingBank inv any).effects,
      Effect.WritesPositive e ∧ Effect.NoInsert e ∧
      ∀ k c, k ≠ entry → e ≠ Effect.storeNewItem k c := by
  intro e he
  rcases giveLoop_effects host entry stackSize fuel remainingToGive remainingBank inv any e he
    with ⟨c, rfl⟩ | ⟨m, rfl⟩
  · refine ⟨trivial, trivial, ?_⟩
    intro k c' hk heq
    simp only [Effect.storeNewItem.injEq] at heq
    exact hk heq.1.symm
  · exact ⟨trivial, trivial, by intro k c _; simp⟩

/-- The effects of one row of the first loop store no amount 0, create no row
and hand over items of that row only. -/
theorem withdrawRow_good {Inv : Type} (host : Host Inv) (catalog : Catalog) (auditOn : Bool)
    (item_subclass : Nat) (sim : UMap) (inv : Inv) (any : Bool) (pr : Nat × Nat) :
    ∀ e ∈ (withdrawRow host catalog auditOn item_subclass sim inv any pr).effects,
      Effect.WritesPositive e ∧ Effect.NoInsert e ∧
      ∀ k c, k ≠ pr.1 → e ≠ Effect.storeNewItem k c := by
  intro e he
  unfold withdrawRow at he
  by_cases h0 : UMap.get pr.1 sim = 0
  · simp [h0] at he
  · simp only [h0, if_false] at he
    cases hc : catalog pr.1 with
    | none => simp [hc] at he
    | some temp =>
      simp only [hc, List.mem_append] at he
      rcases he with (he | he) | he
      · exact giveLoop_good host _ _ _ _ _ _ _ e he
      · obtain ⟨h1, h2, h3⟩ := ledgerWrite_good _ _ _ e he
        exact ⟨h1, h2, fun k c _ => h3 k c⟩
      · obtain ⟨h1, h2, h3⟩ := withdrawAudit_good _ _ _ _ e he
        exact ⟨h1, h2, fun k c _ => h3 k c⟩

theorem withdrawRows_good {Inv : Type} (host : Host Inv) (catalog : Catalog) (auditOn : Bool)
    (item_subclass : Nat) (sim : UMap) (items : List (Nat × Nat)) (inv : Inv) (any : Bool) :
    ∀ e ∈ (withdrawRows host catalog auditOn item_subclass sim items inv any).effects,
      Effect.WritesPositive e ∧ Effect.NoInsert e ∧
      ∀ k c, k ∉ items.map Prod.fst → e ≠ Effect.storeNewItem k c := by
  induction items generalizing inv any with
  | nil => simp [withdrawRows]
  | cons pr rest ih =>
    intro e he
    simp only [withdrawRows, List.mem_append] at he
    rcases he with he | he
    · obtain ⟨h1, h2, h3⟩ := withdrawRow_good host catalog auditOn item_subclass sim inv any pr e he
      refine ⟨h1, h2, fun k c hk => h3 k c ?_⟩
      intro heq
      exact hk (by simp [heq])
    · obtain ⟨h1, h2, h3⟩ := ih _ _ e he
      refine ⟨h1, h2, fun k c hk => h3 k c ?_⟩
      intro hmem
      exact hk (by simp only [List.map, List.mem_cons]; exact Or.inr hmem)

theorem batchRow_good (auditOn : Bool) (item_subclass : Nat) (sim : UMap) (pr : Nat × Nat) :
    ∀ e ∈ batchRow auditOn item_subclass sim pr,
      Effect.WritesPositive e ∧ Effect.NoInsert e ∧ ∀ k c, e ≠ Effect.storeNewItem k c := by
  intro e he
  unfold batchRow at he
  by_cases h0 : UMap.get pr.1 sim = 0
  · simp [h0] at he
  · simp only [h0, if_false, List.mem_append] at he
    rcases he with he | he
    · exact ledgerWrite_good _ _ _ e he
    · exact withdrawAudit_good _ _ _ _ e he

/-- What follows the first loop in `WithdrawAllInCategory` hands over
nothing, stores no amount 0 and creates no row. -/
theorem withdraw_tail_good (auditOn : Bool) (item_subclass : Nat) (sim : UMap)
    (items : List (Nat × Nat)) :
    ∀ e ∈ (items.map (batchRow auditOn item_subclass sim)).flatten
        ++ (if auditOn then [Effect.ensureAuditCleanup] else [])
        ++ [Effect.invalidate item_subclass],
      Effect.WritesPositive e ∧ Effect.NoInsert e ∧ ∀ k c, e ≠ Effect.storeNewItem k c := by
  intro e he
  simp only [List.mem_append, List.mem_flatten, List.mem_map, List.mem_singleton] at he
  rcases he with (⟨l, ⟨pr, -, rfl⟩, hl⟩ | he) | he
  · exact batchRow_good auditOn item_subclass sim pr e hl
  · split_ifs at he
    · simp only [List.mem_singleton] at he
      subst he
      simp [Effect.WritesPositive, Effect.NoInsert]
    · simp at he
  · subst he
    simp [Effect.WritesPositive, Effect.NoInsert]

/-- In the first loop, with one row per item, what is handed over of an item
is what its own row hands over, and the effects of that row are among the
effects of the loop. -/
theorem withdrawRows_row {Inv : Type} (host : Host Inv) (catalog : Catalog) (auditOn : Bool)
    (item_subclass : Nat) (sim : UMap) (items : List (Nat × Nat)) (inv : Inv) (any : Bool)
    (hnd : (items.map Prod.fst).Nodup) (pr : Nat × Nat) (hpr : pr ∈ items) :
    ∃ inv' any',
      deliveredOf pr.1 (withdrawRows host catalog auditOn item_subclass sim items inv any).effects
        = deliveredOf pr.1
            (withdrawRow host catalog auditOn item_subclass sim inv' any' pr).effects ∧
      ∀ e ∈ (withdrawRow host catalog auditOn item_subclass sim inv' any' pr).effects,
        e ∈ (withdrawRows host catalog auditOn item_subclass sim items inv any).effects := by
  induction items generalizing inv any with
  | nil => simp at hpr
  | cons hd rest ih =>
    simp only [List.map, List.nodup_cons] at hnd
    simp only [withdrawRows, deliveredOf_append]
    rcases List.mem_cons.mp hpr with h | h
    · subst h
      refine ⟨inv, any, ?_, fun e he => List.mem_append_left _ he⟩
      have hz : deliveredOf pr.1 (withdrawRows host catalog auditOn item_subclass sim rest
          (withdrawRow host catalog auditOn item_subclass sim inv any pr).inventory
          (withdrawRow host catalog auditOn item_subclass sim inv any pr).any).effects = 0 := by
        apply deliveredOf_eq_zero
        intro e he c
        exact (withdrawRows_good host catalog auditOn item_subclass sim rest _ _ e he).2.2
          pr.1 c hnd.1
      omega
    · obtain ⟨inv', any', h1, h2⟩ := ih
        (withdrawRow host catalog auditOn item_subclass sim inv any hd).inventory
        (withdrawRow host catalog auditOn item_subclass sim inv any hd).any hnd.2 h
      refine ⟨inv', any', ?_, fun e he => List.mem_append_right _ (h2 e he)⟩
      have hne : pr.1 ≠ hd.1 := by
        intro heq
        exact hnd.1 (heq ▸ List.mem_map_of_mem Prod.fst h)
      have hz : deliveredOf pr.1
          (withdrawRow host catalog auditOn item_subclass sim inv any hd).effects = 0 := by
        apply deliveredOf_eq_zero
        intro e he c
        exact (withdrawRow_good host catalog auditOn item_subclass sim inv any hd e he).2.2
          pr.1 c hne
      omega

/-- One row of the first loop, when the simulator allowed no more than the
stored amount: a row drained in full gets its `DELETE`, a row drained in part
gets the `UPDATE` to what is left. -/
theorem withdrawRow_ledger {Inv : Type} (host : Host Inv) (catalog : Catalog) (auditOn : Bool)
    (item_subclass : Nat) (sim : UMap) (inv : Inv) (any : Bool) (pr : Nat × Nat)
    (hle : UMap.get pr.1 sim ≤ pr.2) (hlt : pr.2 < U32) :
    (0 < pr.2 → deliveredOf pr.1
        (withdrawRow host catalog auditOn item_subclass sim inv any pr).effects = pr.2 →
      Effect.delete pr.1 ∈
        (withdrawRow host catalog auditOn item_subclass sim inv any pr).effects) ∧
    (0 < deliveredOf pr.1 (withdrawRow host catalog auditOn item_subclass sim inv any pr).effects →
      deliveredOf pr.1 (withdrawRow host catalog auditOn item_subclass sim inv any pr).effects
        < pr.2 →
      Effect.update pr.1 (pr.2 - deliveredOf pr.1
          (withdrawRow host catalog auditOn item_subclass sim inv any pr).effects) ∈
        (withdrawRow host catalog auditOn item_subclass sim inv any pr).effects) := by
  unfold withdrawRow
  by_cases h0 : UMap.get pr.1 sim = 0
  · simp only [h0, if_true, deliveredOf]
    constructor
    · intro hp hd
      omega
    · intro hp
      omega
  · simp only [h0, if_false]
    cases hc : catalog pr.1 with
    | none =>
      simp only [deliveredOf]
      constructor
      · intro hp hd
        omega
      · intro hp
        omega
    | some temp =>
      simp only [deliveredOf_append]
      have hg := giveLoop_delivered host pr.1 temp.maxStack (UMap.get pr.1 sim)
        (UMap.get pr.1 sim) pr.2 inv any hle hlt
      have hz1 : deliveredOf pr.1 (ledgerWrite pr.1 pr.2
          (giveLoop host pr.1 temp.maxStack (UMap.get pr.1 sim) (UMap.get pr.1 sim) pr.2 inv
            any).remainingBank) = 0 :=
        deliveredOf_eq_zero _ _ (fun e he c => (ledgerWrite_good _ _ _ e he).2.2 pr.1 c)
      have hz2 : deliveredOf pr.1
          (withdrawAudit auditOn item_subclass pr.1 (UMap.get pr.1 sim)) = 0 :=
        deliveredOf_eq_zero _ _ (fun e he c => (withdrawAudit_good _ _ _ _ e he).2.2 pr.1 c)
      rw [hz1, hz2]
      simp only [add_zero]
      constructor
      · intro hp hd
        have hrb : (giveLoop host pr.1 temp.maxStack (UMap.get pr.1 sim) (UMap.get pr.1 sim)
            pr.2 inv any).remainingBank = 0 := by omega
        rw [hrb]
        simp [ledgerWrite]
      · intro hp hd
        have hrb : (giveLoop host pr.1 temp.maxStack (UMap.get pr.1 sim) (UMap.get pr.1 sim)
            pr.2 inv any).remainingBank = pr.2 - deliveredOf pr.1 (giveLoop host pr.1
              temp.maxStack (UMap.get pr.1 sim) (UMap.get pr.1 sim) pr.2 inv any).effects := by
          omega
        have hne0 : pr.2 - deliveredOf pr.1 (giveLoop host pr.1
              temp.maxStack (UMap.get pr.1 sim) (UMap.get pr.1 sim) pr.2 inv any).effects ≠ 0 := by
          omega
        have hnea : pr.2 - deliveredOf pr.1 (giveLoop host pr.1
              temp.maxStack (UMap.get pr.1 sim) (UMap.get pr.1 sim) pr.2 inv any).effects
            ≠ pr.2 := by
          omega
        rw [hrb]
        simp [ledgerWrite, hne0, hnea]

/-- Every statement `WithdrawItem` issues on the ledger is a `DELETE` or an
`UPDATE` to a positive amount. -/
theorem WithdrawItem_good {Inv : Type} (host : Host Inv) (catalog : Catalog) (store : Store)
    (inv : Inv) (entry : Nat) :
    ∀ e ∈ (WithdrawItem host catalog store inv entry).1,
      Effect.WritesPositive e ∧ Effect.NoInsert e := by
  intro e he
  unfold WithdrawItem at he
  cases ha : Store.amountOf entry store with
  | none =>
    simp only [ha, List.mem_singleton] at he
    subst he
    exact ⟨trivial, trivial⟩
  | some a =>
    simp only [ha] at he
    cases hc : catalog entry with
    | none =>
      simp only [hc, List.mem_singleton] at he
      subst he
      exact ⟨trivial, trivial⟩
    | some temp =>
      simp only [hc] at he
      split_ifs at he with h1 h2 h3
      · simp only [List.mem_cons, List.mem_singleton, List.not_mem_nil, or_false] at he
        rcases he with he | he | he | he <;> subst he <;> exact ⟨trivial, trivial⟩
      · simp only [List.mem_cons, List.mem_singleton, List.not_mem_nil, or_false] at he
        rcases he with he | he <;> subst he <;> exact ⟨trivial, trivial⟩
      · simp only [List.mem_cons, List.mem_singleton, List.not_mem_nil, or_false] at he
        rcases he with he | he | he | he
        · subst he
          refine ⟨?_, trivial⟩
          simp only [Effect.WritesPositive]
          omega
        · subst he; exact ⟨trivial, trivial⟩
        · subst he; exact ⟨trivial, trivial⟩
        · subst he; exact ⟨trivial, trivial⟩
      · simp only [List.mem_cons, List.mem_singleton, List.not_mem_nil, or_false] at he
        rcases he with he | he <;> subst he <;> exact ⟨trivial, trivial⟩

/-- `WithdrawItem` at the ledger: if all of the stored amount was handed over
the row is gone, if a part was handed over the row holds the rest. -/
theorem WithdrawItem_ledger {Inv : Type} (host : Host Inv) (catalog : Catalog) (store : Store)
    (inv : Inv) (entry a : Nat) (ha : Store.amountOf entry store = some a) (hpos : 0 < a) :
    (deliveredOf entry (WithdrawItem host catalog store inv entry).1 = a →
      Store.amountOf entry (runEffects (WithdrawItem host catalog store inv entry).1 store)
        = none) ∧
    (0 < deliveredOf entry (WithdrawItem host catalog store inv entry).1 →
      deliveredOf entry (WithdrawItem host catalog store inv entry).1 < a →
      Store.amountOf entry (runEffects (WithdrawItem host catalog store inv entry).1 store)
        = some (a - deliveredOf entry (WithdrawItem host catalog store inv entry).1)) := by
  unfold WithdrawItem
  simp only [ha]
  cases hc : catalog entry with
  | none =>
    simp only [deliveredOf]
    constructor
    · intro h; omega
    · intro h; omega
  | some temp =>
    simp only
    split_ifs with h1 h2 h3
    · simp only [deliveredOf, if_true, add_zero, runEffects, List.foldl, Effect.applyTo,
        Store.amountOf_delete]
      constructor
      · intro _; trivial
      · intro _ h; omega
    · simp only [deliveredOf]
      constructor
      · intro h; omega
      · intro h; omega
    · simp only [deliveredOf, if_true, add_zero, runEffects, List.foldl, Effect.applyTo,
        Store.amountOf_update, ha, Option.map_some']
      constructor
      · intro h; omega
      · intro _ _; trivial
    · simp only [deliveredOf]
      constructor
      · intro h; omega
      · intro h; omega

/-- The effects of `WithdrawAllInCategory` are those of the first loop
followed by effects that hand over nothing, store no amount 0 and create no
row. -/
theorem WithdrawAllInCategory_shape {Inv : Type} (host : Host Inv) (catalog : Catalog)
    (auditOn : Bool) (item_subclass : Nat) (store : Store) (inv : Inv)
    (hne : Store.rowsOfCategory item_subclass store ≠ []) :
    ∃ tail, (WithdrawAllInCategory host catalog auditOn item_subclass store inv).1
        = (withdrawRows host catalog auditOn item_subclass
            (SimulateBatchAdd catalog (host.partials inv) (host.emptySlotsByFamily inv)
              ((Store.rowsOfCategory item_subclass store).map
                (fun row => (row.item_entry, row.amount))))
            ((Store.rowsOfCategory item_subclass store).map
              (fun row => (row.item_entry, row.amount))) inv false).effects ++ tail ∧
      ∀ e ∈ tail, Effect.WritesPositive e ∧ Effect.NoInsert e ∧
        ∀ k c, e ≠ Effect.storeNewItem k c := by
  unfold WithdrawAllInCategory
  simp only [hne, if_false]
  by_cases hany : (withdrawRows host catalog auditOn item_subclass
      (SimulateBatchAdd catalog (host.partials inv) (host.emptySlotsByFamily inv)
        ((Store.rowsOfCategory item_subclass store).map
          (fun row => (row.item_entry, row.amount))))
      ((Store.rowsOfCategory item_subclass store).map
        (fun row => (row.item_entry, row.amount))) inv false).any = false
  · rw [if_pos hany]
    refine ⟨[Effect.message Message.noReagentsWithdrawn], rfl, ?_⟩
    intro e he
    simp only [List.mem_singleton] at he
    subst he
    simp [Effect.WritesPositive, Effect.NoInsert]
  · rw [if_neg hany]
    refine ⟨(((Store.rowsOfCategory item_subclass store).map
        (fun row => (row.item_entry, row.amount))).map (batchRow auditOn item_subclass
          (SimulateBatchAdd catalog (host.partials inv) (host.emptySlotsByFamily inv)
            ((Store.rowsOfCategory item_subclass store).map
              (fun row => (row.item_entry, row.amount)))))).flatten
        ++ (if auditOn then [Effect.ensureAuditCleanup] else [])
        ++ [Effect.invalidate item_subclass], ?_, ?_⟩
    · simp only [List.append_assoc]
    · exact withdraw_tail_good auditOn item_subclass _ _

theorem WithdrawAllInCategory_good {Inv : Type} (host : Host Inv) (catalog : Catalog)
    (auditOn : Bool) (item_subclass : Nat) (store : Store) (inv : Inv) :
    ∀ e ∈ (WithdrawAllInCategory host catalog auditOn item_subclass store inv).1,
      Effect.WritesPositive e ∧ Effect.NoInsert e := by
  by_cases hne : Store.rowsOfCategory item_subclass store = []
  · unfold WithdrawAllInCategory
    simp only [hne, if_true, List.mem_singleton]
    intro e he
    subst he
    exact ⟨trivial, trivial⟩
  · obtain ⟨tail, heq, htail⟩ :=
      WithdrawAllInCategory_shape host catalog auditOn item_subclass store inv hne
    rw [heq]
    intro e he
    rcases List.mem_append.mp he with he | he
    · obtain ⟨h1, h2, -⟩ := withdrawRows_good host catalog auditOn item_subclass _ _ _ _ e he
      exact ⟨h1, h2⟩
    · obtain ⟨h1, h2, -⟩ := htail e he
      exact ⟨h1, h2⟩

theorem rowsOfCategory_items_nodup (c : Nat) {store : Store} (hu : Store.UniqueKeys store) :
    (((Store.rowsOfCategory c store).map (fun row => (row.item_entry, row.amount))).map
      Prod.fst).Nodup := by
  have h := Store.rowsOfCategory_unique c hu
  unfold Store.UniqueKeys at h
  simpa [List.map_map, Function.comp_def] using h

/-- `WithdrawAllInCategory` for one row of the category: a row drained in full
is deleted for good, a row drained in part gets an `UPDATE` to what is left. -/
theorem WithdrawAllInCategory_row {Inv : Type} (host : Host Inv) (catalog : Catalog)
    (auditOn : Bool) (item_subclass : Nat) (store : Store) (inv : Inv)
    (hu : Store.UniqueKeys store) (hr : Store.InRange store)
    (hpos : ∀ row ∈ store, 0 < row.amount)
    (row : Row) (hrow : row ∈ Store.rowsOfCategory item_subclass store) :
    (deliveredOf row.item_entry
        (WithdrawAllInCategory host catalog auditOn item_subclass store inv).1 = row.amount →
      Store.amountOf row.item_entry
        (runEffects (WithdrawAllInCategory host catalog auditOn item_subclass store inv).1 store)
        = none) ∧
    (0 < deliveredOf row.item_entry
        (WithdrawAllInCategory host catalog auditOn item_subclass store inv).1 →
      deliveredOf row.item_entry
        (WithdrawAllInCategory host catalog auditOn item_subclass store inv).1 < row.amount →
      Effect.update row.item_entry (row.amount - deliveredOf row.item_entry
          (WithdrawAllInCategory host catalog auditOn item_subclass store inv).1)
        ∈ (WithdrawAllInCategory host catalog auditOn item_subclass store inv).1) := by
  have hne : Store.rowsOfCategory item_subclass store ≠ [] := List.ne_nil_of_mem hrow
  have hgood := WithdrawAllInCategory_good host catalog auditOn item_subclass store inv
  obtain ⟨tail, heq, htail⟩ :=
    WithdrawAllInCategory_shape host catalog auditOn item_subclass store inv hne
  have hmem : row ∈ store := (List.mem_filter.mp hrow).1
  have hnd := rowsOfCategory_items_nodup item_subclass hu
  have hpr : (row.item_entry, row.amount) ∈ (Store.rowsOfCategory item_subclass store).map
      (fun row => (row.item_entry, row.amount)) := List.mem_map_of_mem _ hrow
  have hle := SimulateBatchAdd_get_le catalog (host.partials inv) (host.emptySlotsByFamily inv)
    _ hnd _ hpr
  obtain ⟨inv', any', hd, hsub⟩ := withdrawRows_row host catalog auditOn item_subclass
    (SimulateBatchAdd catalog (host.partials inv) (host.emptySlotsByFamily inv)
      ((Store.rowsOfCategory item_subclass store).map (fun row => (row.item_entry, row.amount))))
    _ inv false hnd _ hpr
  have hz : deliveredOf row.item_entry tail = 0 :=
    deliveredOf_eq_zero _ _ (fun e he c => (htail e he).2.2 row.item_entry c)
  obtain ⟨hfull, hpart⟩ := withdrawRow_ledger host catalog auditOn item_subclass
    (SimulateBatchAdd catalog (host.partials inv) (host.emptySlotsByFamily inv)
      ((Store.rowsOfCategory item_subclass store).map (fun row => (row.item_entry, row.amount))))
    inv' any' (row.item_entry, row.amount) hle (hr row hmem)
  have hdel : deliveredOf row.item_entry
      (WithdrawAllInCategory host catalog auditOn item_subclass store inv).1
      = deliveredOf row.item_entry (withdrawRow host catalog auditOn item_subclass
          (SimulateBatchAdd catalog (host.partials inv) (host.emptySlotsByFamily inv)
            ((Store.rowsOfCategory item_subclass store).map
              (fun row => (row.item_entry, row.amount))))
          inv' any' (row.item_entry, row.amount)).effects := by
    rw [heq, deliveredOf_append, hz, add_zero]
    exact hd
  constructor
  · intro hfullD
    apply runEffects_delete_mem _ _ _ (fun e he => (hgood e he).2)
    rw [heq]
    apply List.mem_append_left
    apply hsub
    exact hfull (hpos row hmem) (by rw [← hdel]; exact hfullD)
  · intro h0 hlt
    rw [hdel] at h0 hlt ⊢
    rw [heq]
    apply List.mem_append_left
    apply hsub
    exact hpart h0 hlt

/-! ## Totality of the give loop and order of the result map -/

/-- More fuel than `remainingToGive` changes nothing when `stackSize > 0`. -/
theorem giveLoop_fuel {Inv : Type} (host : Host Inv) (entry stackSize : Nat) (hs : stackSize ≠ 0)
    (fuel remainingToGive : Nat) (hf : remainingToGive ≤ fuel) (remainingBank : Nat) (inv : Inv)
    (any : Bool) :
    giveLoop host entry stackSize fuel remainingToGive remainingBank inv any
      = giveLoop host entry stackSize remainingToGive remainingToGive remainingBank inv any := by
  induction fuel using Nat.strong_induction_on generalizing remainingToGive remainingBank inv any
    with
  | _ fuel ih =>
    cases fuel with
    | zero =>
      have : remainingToGive = 0 := by omega
      subst this
      rfl
    | succ n =>
      cases remainingToGive with
      | zero => simp [giveLoop]
      | succ k =>
        unfold giveLoop
        simp only [Nat.succ_ne_zero, if_false]
        by_cases hc : host.canStoreNewItem inv entry (min stackSize (k + 1)) = true
        · simp only [hc, if_true]
          by_cases hk : k = n
          · subst hk
            rfl
          · have h1 : k + 1 - min stackSize (k + 1) ≤ k := by omega
            rw [ih n (by omega) _ (by omega), ← ih k (by omega) _ h1]
        · simp [hc]

theorem fillPartialStacks_sorted (entry : Nat) (vec : List Nat) (remaining : Nat) {g : UMap}
    (h : UMap.Sorted g) : UMap.Sorted (fillPartialStacks entry vec remaining g).2.2 := by
  induction vec generalizing remaining g with
  | nil => exact h
  | cons f rest ih =>
    unfold fillPartialStacks
    by_cases h0 : remaining = 0
    · simp only [h0, if_true]
      exact h
    · simp only [h0, if_false]
      exact ih _ (UMap.addTo_sorted _ _ h)

theorem placeLoop_sorted (entry maxStack bagFamily fuel remaining : Nat) (table : SlotTable)
    {g : UMap} (h : UMap.Sorted g) :
    UMap.Sorted (placeLoop entry maxStack bagFamily fuel remaining table g).2.2 := by
  induction fuel generalizing remaining table g with
  | zero => exact h
  | succ n ih =>
    unfold placeLoop
    by_cases h0 : remaining = 0
    · simp only [h0, if_true]
      exact h
    · simp only [h0, if_false]
      cases hp : placeStep entry maxStack bagFamily remaining table g with
      | none => exact h
      | some r =>
        simp only
        obtain ⟨-, hr2, -⟩ := placeStep_some hp
        apply ih
        rw [hr2]
        exact UMap.addTo_sorted _ _ h

theorem simulateRequest_sorted (catalog : Catalog) (s : SimState) (pr : Nat × Nat)
    (h : UMap.Sorted s.granted) : UMap.Sorted (simulateRequest catalog s pr).granted := by
  unfold simulateRequest
  cases hc : catalog pr.1 with
  | none => exact h
  | some temp =>
    simp only
    by_cases hm : temp.maxStack = 0
    · simp only [hm, if_true]
      exact h
    · simp only [hm, if_false]
      exact placeLoop_sorted _ _ _ _ _ _ (fillPartialStacks_sorted _ _ _ h)

/-- The map `SimulateBatchAdd` returns has strictly increasing keys: every
item has at most one entry. -/
theorem SimulateBatchAdd_sorted (catalog : Catalog) (partials : Nat → List Nat)
    (table : SlotTable) (items : List (Nat × Nat)) :
    UMap.Sorted (SimulateBatchAdd catalog partials table items) := by
  unfold SimulateBatchAdd simulateRun
  generalize hs : ({ partials := partials, emptySlotsByFamily := table, granted := [] } : SimState)
    = s
  have h0 : UMap.Sorted s.granted := by
    rw [← hs]
    exact UMap.sorted_nil
  clear hs
  induction items generalizing s with
  | nil => exact h0
  | cons pr rest ih => exact ih _ (simulateRequest_sorted catalog s pr h0)

/-- Whatever is granted is granted to an item with a template and a non-zero
stack size, so the give loop of `WithdrawAllInCategory` runs with
`stackSize > 0`. -/
theorem SimulateBatchAdd_granted_has_template (catalog : Catalog) (partials : Nat → List Nat)
    (table : SlotTable) (items : List (Nat × Nat)) (k : Nat)
    (h : UMap.get k (SimulateBatchAdd catalog partials table items) ≠ 0) :
    ∃ temp, catalog k = some temp ∧ temp.maxStack ≠ 0 := by
  by_contra hcon
  apply h
  have hskip : ∀ temp, catalog k = some temp → temp.maxStack = 0 := by
    intro temp ht
    by_contra hm
    exact hcon ⟨temp, ht, hm⟩
  have := foldl_simulateRequest_find_skip catalog items
    { partials := partials, emptySlotsByFamily := table, granted := [] } k hskip
  simp [SimulateBatchAdd, simulateRun, UMap.get, this, UMap.find]

/-! ## The row of one item through a list of effects -/

/-- What an effect leaves for item `k` depends only on what the ledger held
for `k`. -/
theorem Effect.applyTo_amountOf_congr (k : Nat) (e : Effect) {st st' : Store}
    (h : Store.amountOf k st = Store.amountOf k st') :
    Store.amountOf k (Effect.applyTo st e) = Store.amountOf k (Effect.applyTo st' e) := by
  cases e with
  | upsert entry subclass amount =>
    simp only [Effect.applyTo, Store.amountOf_upsert, h]
  | delete entry => simp only [Effect.applyTo, Store.amountOf_delete, h]
  | update entry amount => simp only [Effect.applyTo, Store.amountOf_update, h]
  | audit _ _ _ _ => exact h
  | invalidate _ => exact h
  | ensureAuditCleanup => exact h
  | storeNewItem _ _ => exact h
  | message _ => exact h

theorem runEffects_amountOf_congr (k : Nat) (effects : List Effect) {st st' : Store}
    (h : Store.amountOf k st = Store.amountOf k st') :
    Store.amountOf k (runEffects effects st) = Store.amountOf k (runEffects effects st') := by
  induction effects generalizing st st' with
  | nil => exact h
  | cons e rest ih =>
    simp only [runEffects, List.foldl] at ih ⊢
    exact ih (Effect.applyTo_amountOf_congr k e h)

/-- An effect that does not address the row of `k` leaves it as it is. -/
theorem Effect.applyTo_amountOf_other (k : Nat) (e : Effect) (st : Store)
    (h : e.entryOf ≠ some k) : Store.amountOf k (Effect.applyTo st e) = Store.amountOf k st := by
  cases e with
  | upsert entry subclass amount =>
    have hne : k ≠ entry := by
      intro heq
      exact h (by simp [Effect.entryOf, heq])
    simp [Effect.applyTo, Store.amountOf_upsert, hne]
  | delete entry =>
    have hne : k ≠ entry := by
      intro heq
      exact h (by simp [Effect.entryOf, heq])
    simp [Effect.applyTo, Store.amountOf_delete, hne]
  | update entry amount =>
    have hne : k ≠ entry := by
      intro heq
      exact h (by simp [Effect.entryOf, heq])
    simp [Effect.applyTo, Store.amountOf_update, hne]
  | audit _ _ _ _ => rfl
  | invalidate _ => rfl
  | ensureAuditCleanup => rfl
  | storeNewItem _ _ => rfl
  | message _ => rfl

/-- The row of item `k` after a list of effects is its row after the
statements that address it. -/
theorem runEffects_statementsOn (k : Nat) (effects : List Effect) (st : Store) :
    Store.amountOf k (runEffects effects st)
      = Store.amountOf k (runEffects (statementsOn k effects) st) := by
  induction effects generalizing st with
  | nil => rfl
  | cons e rest ih =>
    by_cases h : e.entryOf = some k
    · have hf : statementsOn k (e :: rest) = e :: statementsOn k rest := by
        simp [statementsOn, List.filter_cons, h]
      rw [hf]
      simp only [runEffects, List.foldl] at ih ⊢
      exact ih _
    · have hf : statementsOn k (e :: rest) = statementsOn k rest := by
        simp [statementsOn, List.filter_cons, h]
      rw [hf]
      simp only [runEffects, List.foldl] at ih ⊢
      rw [ih]
      exact runEffects_amountOf_congr k _ (Effect.applyTo_amountOf_other k e st h)

theorem statementsOn_append (k : Nat) (a b : List Effect) :
    statementsOn k (a ++ b) = statementsOn k a ++ statementsOn k b := by
  simp [statementsOn]

theorem statementsOn_eq_nil (k : Nat) (effects : List Effect)
    (h : ∀ e ∈ effects, e.entryOf ≠ some k) : statementsOn k effects = [] := by
  unfold statementsOn
  rw [List.filter_eq_nil_iff]
  intro e he
  simp [h e he]

theorem statementsOn_eq_self (k : Nat) (effects : List Effect)
    (h : ∀ e ∈ effects, e.entryOf = some k) : statementsOn k effects = effects := by
  unfold statementsOn
  rw [List.filter_eq_self]
  intro e he
  simp [h e he]

theorem ledgerWrite_entryOf (entry amount remainingBank : Nat) :
    ∀ e ∈ ledgerWrite entry amount remainingBank, e.entryOf = some entry := by
  intro e he
  unfold ledgerWrite at he
  split_ifs at he
  · simp only [List.mem_singleton] at he
    subst he
    rfl
  · simp only [List.mem_singleton] at he
    subst he
    rfl
  · simp at he

theorem withdrawAudit_entryOf (auditOn : Bool) (item_subclass entry allowed : Nat) :
    ∀ e ∈ withdrawAudit auditOn item_subclass entry allowed, e.entryOf = none := by
  intro e he
  unfold withdrawAudit at he
  split_ifs at he
  · simp only [List.mem_singleton] at he
    subst he
    rfl
  · simp at he

theorem giveLoop_entryOf {Inv : Type} (host : Host Inv) (entry stackSize : Nat)
    (fuel remainingToGive remainingBank : Nat) (inv : Inv) (any : Bool) :
    ∀ e ∈ (giveLoop host entry stackSize fuel remainingToGive remainingBank inv any).effects,
      e.entryOf = none := by
  intro e he
  rcases giveLoop_effects host entry stackSize fuel remainingToGive remainingBank inv any e he
    with ⟨c, rfl⟩ | ⟨m, rfl⟩ <;> rfl

/-- The give loop hands over no more than it was asked to. -/
theorem giveLoop_delivered_le {Inv : Type} (host : Host Inv) (entry stackSize : Nat)
    (fuel remainingToGive remainingBank : Nat) (inv : Inv) (any : Bool) :
    deliveredOf entry
        (giveLoop host entry stackSize fuel remainingToGive remainingBank inv any).effects
      ≤ remainingToGive := by
  induction fuel generalizing remainingToGive remainingBank inv any with
  | zero => simp [giveLoop, deliveredOf]
  | succ n ih =>
    unfold giveLoop
    by_cases h0 : remainingToGive = 0
    · simp [h0, deliveredOf]
    · simp only [h0, if_false]
      by_cases hc : host.canStoreNewItem inv entry (min stackSize remainingToGive) = true
      · simp only [hc, if_true, deliveredOf]
        have h3 := ih (remainingToGive - min stackSize remainingToGive)
          (sub32 remainingBank (min stackSize remainingToGive))
          (host.storeNewItem inv entry (min stackSize remainingToGive)) true
        omega
      · simp [hc, deliveredOf]

/-- The flag `any` after the give loop: set, or as before with nothing handed
over. -/
theorem giveLoop_any {Inv : Type} (host : Host Inv) (entry stackSize : Nat)
    (fuel remainingToGive remainingBank : Nat) (inv : Inv) (any : Bool) :
    (giveLoop host entry stackSize fuel remainingToGive remainingBank inv any).any = true ∨
    ((giveLoop host entry stackSize fuel remainingToGive remainingBank inv any).any = any ∧
      deliveredOf entry
        (giveLoop host entry stackSize fuel remainingToGive remainingBank inv any).effects = 0) := by
  induction fuel generalizing remainingToGive remainingBank inv any with
  | zero => right; simp [giveLoop, deliveredOf]
  | succ n ih =>
    unfold giveLoop
    by_cases h0 : remainingToGive = 0
    · right; simp [h0, deliveredOf]
    · simp only [h0, if_false]
      by_cases hc : host.canStoreNewItem inv entry (min stackSize remainingToGive) = true
      · simp only [hc, if_true]
        left
        rcases ih (remainingToGive - min stackSize remainingToGive)
          (sub32 remainingBank (min stackSize remainingToGive))
          (host.storeNewItem inv entry (min stackSize remainingToGive)) true with h | ⟨h, -⟩
        · exact h
        · exact h
      · right
        simp [hc, deliveredOf]

/-- The statements one row of the first loop issues on the row of item `k`:
none for another item; for its own item the `ledgerWrite` of what is left,
which together with what was handed over is the stored amount. -/
theorem withdrawRow_statementsOn {Inv : Type} (host : Host Inv) (catalog : Catalog)
    (auditOn : Bool) (item_subclass : Nat) (sim : UMap) (inv : Inv) (any : Bool)
    (pr : Nat × Nat) (k : Nat) :
    (k ≠ pr.1 → statementsOn k
      (withdrawRow host catalog auditOn item_subclass sim inv any pr).effects = []) ∧
    (UMap.get pr.1 sim ≤ pr.2 → pr.2 < U32 →
      ∃ remainingBank,
        remainingBank + deliveredOf pr.1
          (withdrawRow host catalog auditOn item_subclass sim inv any pr).effects = pr.2 ∧
        deliveredOf pr.1 (withdrawRow host catalog auditOn item_subclass sim inv any pr).effects
          ≤ UMap.get pr.1 sim ∧
        statementsOn pr.1 (withdrawRow host catalog auditOn item_subclass sim inv any pr).effects
          = (if UMap.get pr.1 sim = 0 ∨ catalog pr.1 = none then []
             else ledgerWrite pr.1 pr.2 remainingBank)) := by
  unfold withdrawRow
  by_cases h0 : UMap.get pr.1 sim = 0
  · simp only [h0, if_true, true_or]
    exact ⟨fun _ => rfl, fun _ _ => ⟨pr.2, by simp [deliveredOf], by simp [deliveredOf], rfl⟩⟩
  · simp only [h0, if_false, false_or]
    cases hc : catalog pr.1 with
    | none =>
      simp only [if_true]
      exact ⟨fun _ => rfl, fun _ _ => ⟨pr.2, by simp [deliveredOf], by simp [deliveredOf], rfl⟩⟩
    | some temp =>
      simp only [reduceCtorEq, if_false]
      have hg := giveLoop_entryOf host pr.1 temp.maxStack (UMap.get pr.1 sim)
        (UMap.get pr.1 sim) pr.2 inv any
      have hl := ledgerWrite_entryOf pr.1 pr.2 (giveLoop host pr.1 temp.maxStack
        (UMap.get pr.1 sim) (UMap.get pr.1 sim) pr.2 inv any).remainingBank
      have ha := withdrawAudit_entryOf auditOn item_subclass pr.1 (UMap.get pr.1 sim)
      constructor
      · intro hk
        apply statementsOn_eq_nil
        intro e he
        simp only [List.mem_append] at he
        rcases he with (he | he) | he
        · rw [hg e he]; simp
        · rw [hl e he]
          simp only [ne_eq, Option.some.injEq]
          exact fun h => hk h.symm
        · rw [ha e he]; simp
      · intro hle hlt
        have hz1 : deliveredOf pr.1 (ledgerWrite pr.1 pr.2
            (giveLoop host pr.1 temp.maxStack (UMap.get pr.1 sim) (UMap.get pr.1 sim) pr.2 inv
              any).remainingBank) = 0 :=
          deliveredOf_eq_zero _ _ (fun e he c => (ledgerWrite_good _ _ _ e he).2.2 pr.1 c)
        have hz2 : deliveredOf pr.1
            (withdrawAudit auditOn item_subclass pr.1 (UMap.get pr.1 sim)) = 0 :=
          deliveredOf_eq_zero _ _ (fun e he c => (withdrawAudit_good _ _ _ _ e he).2.2 pr.1 c)
        refine ⟨(giveLoop host pr.1 temp.maxStack (UMap.get pr.1 sim) (UMap.get pr.1 sim) pr.2
          inv any).remainingBank, ?_, ?_, ?_⟩
        · have hd := giveLoop_delivered host pr.1 temp.maxStack (UMap.get pr.1 sim)
            (UMap.get pr.1 sim) pr.2 inv any hle hlt
          rw [deliveredOf_append, deliveredOf_append, hz1, hz2]
          simpa using hd
        · have hd := giveLoop_delivered_le host pr.1 temp.maxStack (UMap.get pr.1 sim)
            (UMap.get pr.1 sim) pr.2 inv any
          rw [deliveredOf_append, deliveredOf_append, hz1, hz2]
          simpa using hd
        · rw [statementsOn_append, statementsOn_append,
            statementsOn_eq_nil pr.1 _ (fun e he => by rw [hg e he]; simp),
            statementsOn_eq_nil pr.1 (withdrawAudit _ _ _ _) (fun e he => by rw [ha e he]; simp),
            statementsOn_eq_self pr.1 _ hl]
          simp

theorem withdrawRow_any {Inv : Type} (host : Host Inv) (catalog : Catalog) (auditOn : Bool)
    (item_subclass : Nat) (sim : UMap) (inv : Inv) (any : Bool) (pr : Nat × Nat) :
    (withdrawRow host catalog auditOn item_subclass sim inv any pr).any = true ∨
    ((withdrawRow host catalog auditOn item_subclass sim inv any pr).any = any ∧
      ∀ k, deliveredOf k
        (withdrawRow host catalog auditOn item_subclass sim inv any pr).effects = 0) := by
  have hother : ∀ k, k ≠ pr.1 → deliveredOf k
      (withdrawRow host catalog auditOn item_subclass sim inv any pr).effects = 0 := by
    intro k hk
    apply deliveredOf_eq_zero
    intro e he c
    exact (withdrawRow_good host catalog auditOn item_subclass sim inv any pr e he).2.2 k c hk
  have hown : (withdrawRow host catalog auditOn item_subclass sim inv any pr).any = true ∨
      ((withdrawRow host catalog auditOn item_subclass sim inv any pr).any = any ∧
        deliveredOf pr.1
          (withdrawRow host catalog auditOn item_subclass sim inv any pr).effects = 0) := by
    unfold withdrawRow
    by_cases h0 : UMap.get pr.1 sim = 0
    · right; simp [h0, deliveredOf]
    · simp only [h0, if_false]
      cases hc : catalog pr.1 with
      | none => right; simp [deliveredOf]
      | some temp =>
        simp only
        rcases giveLoop_any host pr.1 temp.maxStack (UMap.get pr.1 sim) (UMap.get pr.1 sim)
          pr.2 inv any with h | ⟨h1, h2⟩
        · exact Or.inl h
        · right
          refine ⟨h1, ?_⟩
          have hz1 : deliveredOf pr.1 (ledgerWrite pr.1 pr.2
              (giveLoop host pr.1 temp.maxStack (UMap.get pr.1 sim) (UMap.get pr.1 sim) pr.2 inv
                any).remainingBank) = 0 :=
            deliveredOf_eq_zero _ _ (fun e he c => (ledgerWrite_good _ _ _ e he).2.2 pr.1 c)
          have hz2 : deliveredOf pr.1
              (withdrawAudit auditOn item_subclass pr.1 (UMap.get pr.1 sim)) = 0 :=
            deliveredOf_eq_zero _ _ (fun e he c => (withdrawAudit_good _ _ _ _ e he).2.2 pr.1 c)
          rw [deliveredOf_append, deliveredOf_append, hz1, hz2, h2]
  rcases hown with h | ⟨h1, h2⟩
  · exact Or.inl h
  · right
    refine ⟨h1, fun k => ?_⟩
    by_cases hk : k = pr.1
    · rw [hk]; exact h2
    · exact hother k hk

/-- The flag `any` after the first loop: set, or as before with nothing handed
over at all. -/
theorem withdrawRows_any {Inv : Type} (host : Host Inv) (catalog : Catalog) (auditOn : Bool)
    (item_subclass : Nat) (sim : UMap) (items : List (Nat × Nat)) (inv : Inv) (any : Bool) :
    (withdrawRows host catalog auditOn item_subclass sim items inv any).any = true ∨
    ((withdrawRows host catalog auditOn item_subclass sim items inv any).any = any ∧
      ∀ k, deliveredOf k
        (withdrawRows host catalog auditOn item_subclass sim items inv any).effects = 0) := by
  induction items generalizing inv any with
  | nil => right; simp [withdrawRows, deliveredOf]
  | cons pr rest ih =>
    simp only [withdrawRows]
    rcases ih (withdrawRow host catalog auditOn item_subclass sim inv any pr).inventory
      (withdrawRow host catalog auditOn item_subclass sim inv any pr).any with h | ⟨h1, h2⟩
    · exact Or.inl h
    · rcases withdrawRow_any host catalog auditOn item_subclass sim inv any pr with h | ⟨h3, h4⟩
      · left
        rw [h1, h]
      · right
        refine ⟨by rw [h1, h3], fun k => ?_⟩
        rw [deliveredOf_append, h2 k, h4 k]

theorem withdrawRows_statementsOn_notin {Inv : Type} (host : Host Inv) (catalog : Catalog)
    (auditOn : Bool) (item_subclass : Nat) (sim : UMap) (items : List (Nat × Nat)) (inv : Inv)
    (any : Bool) (k : Nat) (hk : k ∉ items.map Prod.fst) :
    statementsOn k (withdrawRows host catalog auditOn item_subclass sim items inv any).effects
      = [] := by
  induction items generalizing inv any with
  | nil => rfl
  | cons pr rest ih =>
    simp only [List.map, List.mem_cons, not_or] at hk
    simp only [withdrawRows, statementsOn_append]
    rw [(withdrawRow_statementsOn host catalog auditOn item_subclass sim inv any pr k).1 hk.1,
      ih _ _ hk.2]
    rfl

/-- The statements the first loop issues on the row of an item, with one row
per item: the `ledgerWrite` of what is left of it, which together with what was
handed over is the stored amount. -/
theorem withdrawRows_statementsOn {Inv : Type} (host : Host Inv) (catalog : Catalog)
    (auditOn : Bool) (item_subclass : Nat) (sim : UMap) (items : List (Nat × Nat)) (inv : Inv)
    (any : Bool) (hnd : (items.map Prod.fst).Nodup) (pr : Nat × Nat) (hpr : pr ∈ items)
    (hle : UMap.get pr.1 sim ≤ pr.2) (hlt : pr.2 < U32) :
    ∃ remainingBank,
      remainingBank + deliveredOf pr.1
        (withdrawRows host catalog auditOn item_subclass sim items inv any).effects = pr.2 ∧
      deliveredOf pr.1 (withdrawRows host catalog auditOn item_subclass sim items inv any).effects
        ≤ UMap.get pr.1 sim ∧
      statementsOn pr.1
          (withdrawRows host catalog auditOn item_subclass sim items inv any).effects
        = (if UMap.get pr.1 sim = 0 ∨ catalog pr.1 = none then []
           else ledgerWrite pr.1 pr.2 remainingBank) := by
  induction items generalizing inv any with
  | nil => simp at hpr
  | cons hd rest ih =>
    simp only [List.map, List.nodup_cons] at hnd
    simp only [withdrawRows, deliveredOf_append, statementsOn_append]
    rcases List.mem_cons.mp hpr with h | h
    · subst h
      obtain ⟨rb, h1, h2, h3⟩ :=
        (withdrawRow_statementsOn host catalog auditOn item_subclass sim inv any pr pr.1).2
          hle hlt
      have hz : deliveredOf pr.1 (withdrawRows host catalog auditOn item_subclass sim rest
          (withdrawRow host catalog auditOn item_subclass sim inv any pr).inventory
          (withdrawRow host catalog auditOn item_subclass sim inv any pr).any).effects = 0 := by
        apply deliveredOf_eq_zero
        intro e he c
        exact (withdrawRows_good host catalog auditOn item_subclass sim rest _ _ e he).2.2
          pr.1 c hnd.1
      refine ⟨rb, by omega, by omega, ?_⟩
      rw [h3, withdrawRows_statementsOn_notin host catalog auditOn item_subclass sim rest _ _
        pr.1 hnd.1, List.append_nil]
    · have hne : pr.1 ≠ hd.1 := by
        intro heq
        exact hnd.1 (heq ▸ List.mem_map_of_mem Prod.fst h)
      obtain ⟨rb, h1, h2, h3⟩ := ih
        (withdrawRow host catalog auditOn item_subclass sim inv any hd).inventory
        (withdrawRow host catalog auditOn item_subclass sim inv any hd).any hnd.2 h
      have hz : deliveredOf pr.1
          (withdrawRow host catalog auditOn item_subclass sim inv any hd).effects = 0 := by
        apply deliveredOf_eq_zero
        intro e he c
        exact (withdrawRow_good host catalog auditOn item_subclass sim inv any hd e he).2.2
          pr.1 c hne
      refine ⟨rb, by omega, by omega, ?_⟩
      rw [(withdrawRow_statementsOn host catalog auditOn item_subclass sim inv any hd pr.1).1 hne,
        h3, List.nil_append]

theorem batchRow_statementsOn (auditOn : Bool) (item_subclass : Nat) (sim : UMap)
    (pr : Nat × Nat) (k : Nat) :
    statementsOn k (batchRow auditOn item_subclass sim pr)
      = (if k = pr.1 ∧ UMap.get pr.1 sim ≠ 0 then
          ledgerWrite pr.1 pr.2
            (if pr.2 > UMap.get pr.1 sim then pr.2 - UMap.get pr.1 sim else 0)
         else []) := by
  unfold batchRow
  by_cases h0 : UMap.get pr.1 sim = 0
  · simp [h0, statementsOn]
  · simp only [h0, if_false, ne_eq, not_false_eq_true, and_true, statementsOn_append]
    have ha := withdrawAudit_entryOf auditOn item_subclass pr.1 (UMap.get pr.1 sim)
    rw [statementsOn_eq_nil k (withdrawAudit _ _ _ _) (fun e he => by rw [ha e he]; simp),
      List.append_nil]
    by_cases hk : k = pr.1
    · subst hk
      simp only [if_true]
      exact statementsOn_eq_self _ _ (ledgerWrite_entryOf _ _ _)
    · simp only [hk, if_false]
      apply statementsOn_eq_nil
      intro e he
      rw [ledgerWrite_entryOf _ _ _ e he]
      simp only [ne_eq, Option.some.injEq]
      exact fun h => hk h.symm

/-- The statements the final transaction issues on the row of an item, with
one row per item: none when nothing was allowed, else the `ledgerWrite` of the
stored amount less the allowed amount. -/
theorem batch_statementsOn (auditOn : Bool) (item_subclass : Nat) (sim : UMap)
    (items : List (Nat × Nat)) (hnd : (items.map Prod.fst).Nodup) (pr : Nat × Nat)
    (hpr : pr ∈ items) :
    statementsOn pr.1 (items.map (batchRow auditOn item_subclass sim)).flatten
      = (if UMap.get pr.1 sim ≠ 0 then
          ledgerWrite pr.1 pr.2
            (if pr.2 > UMap.get pr.1 sim then pr.2 - UMap.get pr.1 sim else 0)
         else []) := by
  induction items with
  | nil => simp at hpr
  | cons hd rest ih =>
    simp only [List.map, List.nodup_cons] at hnd
    simp only [List.map, List.flatten, statementsOn_append]
    rcases List.mem_cons.mp hpr with h | h
    · subst h
      have hrest : statementsOn pr.1 (rest.map (batchRow auditOn item_subclass sim)).flatten
          = [] := by
        apply statementsOn_eq_nil
        intro e he
        simp only [List.mem_flatten, List.mem_map] at he
        obtain ⟨l, ⟨q, hq, rfl⟩, hl⟩ := he
        have hne : pr.1 ≠ q.1 := by
          intro heq
          exact hnd.1 (heq ▸ List.mem_map_of_mem Prod.fst hq)
        have hs := batchRow_statementsOn auditOn item_subclass sim q pr.1
        simp only [hne, false_and, if_false] at hs
        intro hcon
        have hmem : e ∈ statementsOn pr.1 (batchRow auditOn item_subclass sim q) := by
          simp only [statementsOn, List.mem_filter]
          exact ⟨hl, by simp [hcon]⟩
        rw [hs] at hmem
        simp at hmem
      rw [hrest, List.append_nil, batchRow_statementsOn]
      simp
    · have hne : pr.1 ≠ hd.1 := by
        intro heq
        exact hnd.1 (heq ▸ List.mem_map_of_mem Prod.fst h)
      rw [batchRow_statementsOn, ih hnd.2 h]
      simp [hne]

theorem ledgerWrite_amountOf (k amount remainingBank : Nat) (st : Store) :
    Store.amountOf k (runEffects (ledgerWrite k amount remainingBank) st)
      = (if remainingBank = 0 then none
         else if remainingBank ≠ amount then (Store.amountOf k st).map (fun _ => remainingBank)
         else Store.amountOf k st) := by
  unfold ledgerWrite
  by_cases h0 : remainingBank = 0
  · simp [h0, runEffects, Effect.applyTo, Store.amountOf_delete]
  · by_cases h1 : remainingBank = amount
    · subst h1
      simp [h0, runEffects]
    · simp [h0, h1, runEffects, Effect.applyTo, Store.amountOf_update]

/-- `WithdrawAllInCategory` at the ledger, for a ledger with one row per item
and positive `uint32` amounts. When no stack was handed over at all, the row of
every item of the category is as before. Otherwise the final transaction
decides: the row of an item that was allowed nothing is as before, the row of
an item that was allowed less than its stored amount holds the stored amount
less the allowed amount, and the row of an item that was allowed its stored
amount is gone. -/
theorem WithdrawAllInCategory_amountOf {Inv : Type} (host : Host Inv) (catalog : Catalog)
    (auditOn : Bool) (item_subclass : Nat) (store : Store) (inv : Inv)
    (hu : Store.UniqueKeys store) (hr : Store.InRange store)
    (hpos : ∀ row ∈ store, 0 < row.amount)
    (row : Row) (hrow : row ∈ Store.rowsOfCategory item_subclass store) :
    Store.amountOf row.item_entry
        (runEffects (WithdrawAllInCategory host catalog auditOn item_subclass store inv).1 store)
      = (if (withdrawRows host catalog auditOn item_subclass
              (SimulateBatchAdd catalog (host.partials inv) (host.emptySlotsByFamily inv)
                ((Store.rowsOfCategory item_subclass store).map
                  (fun row => (row.item_entry, row.amount))))
              ((Store.rowsOfCategory item_subclass store).map
                (fun row => (row.item_entry, row.amount))) inv false).any = false
         then some row.amount
         else if UMap.get row.item_entry
              (SimulateBatchAdd catalog (host.partials inv) (host.emptySlotsByFamily inv)
                ((Store.rowsOfCategory item_subclass store).map
                  (fun row => (row.item_entry, row.amount)))) = 0
         then some row.amount
         else if UMap.get row.item_entry
              (SimulateBatchAdd catalog (host.partials inv) (host.emptySlotsByFamily inv)
                ((Store.rowsOfCategory item_subclass store).map
                  (fun row => (row.item_entry, row.amount)))) < row.amount
         then some (row.amount - UMap.get row.item_entry
              (SimulateBatchAdd catalog (host.partials inv) (host.emptySlotsByFamily inv)
                ((Store.rowsOfCategory item_subclass store).map
                  (fun row => (row.item_entry, row.amount)))))
         else none) := by
  have hne : Store.rowsOfCategory item_subclass store ≠ [] := List.ne_nil_of_mem hrow
  have hmem : row ∈ store := (List.mem_filter.mp hrow).1
  have hamount := Store.amountOf_of_mem hu hmem
  have hnd := rowsOfCategory_items_nodup item_subclass hu
  have hpr : (row.item_entry, row.amount) ∈ (Store.rowsOfCategory item_subclass store).map
      (fun row => (row.item_entry, row.amount)) := List.mem_map_of_mem _ hrow
  have hle := SimulateBatchAdd_get_le catalog (host.partials inv) (host.emptySlotsByFamily inv)
    _ hnd _ hpr
  have hapos := hpos row hmem
  generalize hsim : SimulateBatchAdd catalog (host.partials inv) (host.emptySlotsByFamily inv)
    ((Store.rowsOfCategory item_subclass store).map (fun row => (row.item_entry, row.amount)))
    = sim at hle ⊢
  generalize hitems : (Store.rowsOfCategory item_subclass store).map
    (fun row => (row.item_entry, row.amount)) = items at hnd hpr hsim ⊢
  obtain ⟨rb, h1, h2, h3⟩ := withdrawRows_statementsOn host catalog auditOn item_subclass sim
    items inv false hnd _ hpr hle (hr row hmem)
  simp only at h1 h2 h3 hle
  have hB := batch_statementsOn auditOn item_subclass sim items hnd _ hpr
  simp only at hB
  have hEff : (WithdrawAllInCategory host catalog auditOn item_subclass store inv).1
      = (withdrawRows host catalog auditOn item_subclass sim items inv false).effects
        ++ (if (withdrawRows host catalog auditOn item_subclass sim items inv false).any = false
            then [Effect.message Message.noReagentsWithdrawn]
            else (items.map (batchRow auditOn item_subclass sim)).flatten
              ++ (if auditOn then [Effect.ensureAuditCleanup] else [])
              ++ [Effect.invalidate item_subclass]) := by
    unfold WithdrawAllInCategory
    simp only [hne, if_false, hitems, hsim]
    split_ifs <;> simp only [List.append_assoc]
  rw [runEffects_statementsOn, hEff, statementsOn_append, runEffects_append]
  by_cases hany : (withdrawRows host catalog auditOn item_subclass sim items inv false).any = false
  · rw [if_pos hany, if_pos hany]
    have hd0 : deliveredOf row.item_entry
        (withdrawRows host catalog auditOn item_subclass sim items inv false).effects = 0 := by
      rcases withdrawRows_any host catalog auditOn item_subclass sim items inv false with h | h
      · rw [hany] at h
        cases h
      · exact h.2 _
    have hrb : rb = row.amount := by omega
    have hS1 : statementsOn row.item_entry
        (withdrawRows host catalog auditOn item_subclass sim items inv false).effects = [] := by
      rw [h3, hrb]
      split_ifs
      · rfl
      · have hne0 : row.amount ≠ 0 := by omega
        simp [ledgerWrite, hne0]
    rw [hS1]
    simp only [statementsOn, List.filter_cons, Effect.entryOf, List.filter_nil]
    simpa [runEffects] using hamount
  · rw [if_neg hany, if_neg hany]
    have htail : statementsOn row.item_entry
        ((items.map (batchRow auditOn item_subclass sim)).flatten
          ++ (if auditOn then [Effect.ensureAuditCleanup] else [])
          ++ [Effect.invalidate item_subclass])
        = statementsOn row.item_entry (items.map (batchRow auditOn item_subclass sim)).flatten := by
      rw [statementsOn_append, statementsOn_append]
      have e1 : statementsOn row.item_entry
          (if auditOn then [Effect.ensureAuditCleanup] else []) = [] := by
        split_ifs <;> rfl
      have e2 : statementsOn row.item_entry [Effect.invalidate item_subclass] = [] := rfl
      rw [e1, e2, List.append_nil, List.append_nil]
    rw [htail, hB]
    by_cases h0 : UMap.get row.item_entry sim = 0
    · simp only [h0, ne_eq, not_true_eq_false, if_false, if_true, true_or] at h3 ⊢
      rw [h3]
      simpa [runEffects] using hamount
    · simp only [h0, ne_eq, not_false_eq_true, if_true, if_false]
      rw [ledgerWrite_amountOf]
      by_cases hlt : UMap.get row.item_entry sim < row.amount
      · have hgt : row.amount > UMap.get row.item_entry sim := hlt
        have hne0 : row.amount - UMap.get row.item_entry sim ≠ 0 := by omega
        have hnea : row.amount - UMap.get row.item_entry sim ≠ row.amount := by omega
        simp only [hgt, hlt, if_true, hne0, hnea, ne_eq, not_false_eq_true, if_false]
        have hsome : ∃ x, Store.amountOf row.item_entry (runEffects (statementsOn row.item_entry
            (withdrawRows host catalog auditOn item_subclass sim items inv false).effects) store)
            = some x := by
          rw [h3]
          split_ifs
          · exact ⟨row.amount, by simpa [runEffects] using hamount⟩
          · rw [ledgerWrite_amountOf, hamount]
            have hrb0 : rb ≠ 0 := by omega
            simp only [hrb0, if_false]
            split_ifs
            · exact ⟨_, rfl⟩
            · exact ⟨_, rfl⟩
        obtain ⟨x, hx⟩ := hsome
        rw [hx]
        rfl
      · have hngt : ¬ row.amount > UMap.get row.item_entry sim := hlt
        simp [hngt, hlt]

/-- `WithdrawAllInCategory` for a row drained in part, when what the simulator
allowed for the item was handed over in full: the row is left at the stored
amount less what was handed over. -/
theorem WithdrawAllInCategory_row_matched {Inv : Type} (host : Host Inv) (catalog : Catalog)
    (auditOn : Bool) (item_subclass : Nat) (store : Store) (inv : Inv)
    (hu : Store.UniqueKeys store) (hr : Store.InRange store)
    (hpos : ∀ row ∈ store, 0 < row.amount)
    (row : Row) (hrow : row ∈ Store.rowsOfCategory item_subclass store)
    (h0 : 0 < deliveredOf row.item_entry
      (WithdrawAllInCategory host catalog auditOn item_subclass store inv).1)
    (hlt : deliveredOf row.item_entry
      (WithdrawAllInCategory host catalog auditOn item_subclass store inv).1 < row.amount)
    (hall : deliveredOf row.item_entry
        (WithdrawAllInCategory host catalog auditOn item_subclass store inv).1
      = UMap.get row.item_entry
          (SimulateBatchAdd catalog (host.partials inv) (host.emptySlotsByFamily inv)
            ((Store.rowsOfCategory item_subclass store).map
              (fun row => (row.item_entry, row.amount))))) :
    Store.amountOf row.item_entry
        (runEffects (WithdrawAllInCategory host catalog auditOn item_subclass store inv).1 store)
      = some (row.amount - deliveredOf row.item_entry
          (WithdrawAllInCategory host catalog auditOn item_subclass store inv).1) := by
  have hne : Store.rowsOfCategory item_subclass store ≠ [] := List.ne_nil_of_mem hrow
  obtain ⟨tail, heq, htail⟩ :=
    WithdrawAllInCategory_shape host catalog auditOn item_subclass store inv hne
  have hz : deliveredOf row.item_entry tail = 0 :=
    deliveredOf_eq_zero _ _ (fun e he c => (htail e he).2.2 row.item_entry c)
  have hany : ¬ (withdrawRows host catalog auditOn item_subclass
      (SimulateBatchAdd catalog (host.partials inv) (host.emptySlotsByFamily inv)
        ((Store.rowsOfCategory item_subclass store).map
          (fun row => (row.item_entry, row.amount))))
      ((Store.rowsOfCategory item_subclass store).map
        (fun row => (row.item_entry, row.amount))) inv false).any = false := by
    rcases withdrawRows_any host catalog auditOn item_subclass
      (SimulateBatchAdd catalog (host.partials inv) (host.emptySlotsByFamily inv)
        ((Store.rowsOfCategory item_subclass store).map
          (fun row => (row.item_entry, row.amount))))
      ((Store.rowsOfCategory item_subclass store).map
        (fun row => (row.item_entry, row.amount))) inv false with h | h
    · rw [h]
      simp
    · have hd := h.2 row.item_entry
      rw [heq, deliveredOf_append, hz, hd] at h0
      omega
  rw [WithdrawAllInCategory_amountOf host catalog auditOn item_subclass store inv hu hr hpos
    row hrow, if_neg hany, ← hall]
  have hne0 : deliveredOf row.item_entry
      (WithdrawAllInCategory host catalog auditOn item_subclass store inv).1 ≠ 0 := by omega
  rw [if_neg hne0, if_pos hlt]

/-! ## Claim on the withdraw flows -/

/-- Zero rows on withdrawal, where the flows keep them out, for a ledger with
one row per item and positive `uint32` amounts. In `WithdrawItem` and in
`WithdrawAllInCategory`, whenever the amount handed over for an item equals its
stored amount, the row is deleted and the ledger has no row for the item
afterwards. A row drained in part: `WithdrawItem` leaves the row at what is
left; the first loop of `WithdrawAllInCategory` issues that `UPDATE`, and the
row ends at that amount when what the simulator allowed for the item was handed
over in full (what the final transaction leaves otherwise is
`WithdrawAllInCategory_amountOf`). No `UPDATE` of either flow carries amount 0,
and no row of the ledger has amount 0 afterwards. -/
theorem withdraw_zero_row_invariant {Inv : Type} (host : Host Inv) (catalog : Catalog)
    (auditOn : Bool) (item_subclass : Nat) (store : Store) (inv : Inv)
    (hu : Store.UniqueKeys store) (hr : Store.InRange store)
    (hpos : ∀ row ∈ store, 0 < row.amount) :
    (∀ entry a, Store.amountOf entry store = some a →
      (deliveredOf entry (WithdrawItem host catalog store inv entry).1 = a →
        Store.amountOf entry (runEffects (WithdrawItem host catalog store inv entry).1 store)
          = none) ∧
      (0 < deliveredOf entry (WithdrawItem host catalog store inv entry).1 →
        deliveredOf entry (WithdrawItem host catalog store inv entry).1 < a →
        Store.amountOf entry (runEffects (WithdrawItem host catalog store inv entry).1 store)
          = some (a - deliveredOf entry (WithdrawItem host catalog store inv entry).1))) ∧
    (∀ entry,
      (∀ k v, Effect.update k v ∈ (WithdrawItem host catalog store inv entry).1 → 0 < v) ∧
      ∀ row ∈ runEffects (WithdrawItem host catalog store inv entry).1 store, 0 < row.amount) ∧
    (∀ row ∈ Store.rowsOfCategory item_subclass store,
      (deliveredOf row.item_entry
          (WithdrawAllInCategory host catalog auditOn item_subclass store inv).1 = row.amount →
        Store.amountOf row.item_entry
          (runEffects (WithdrawAllInCategory host catalog auditOn item_subclass store inv).1
            store) = none) ∧
      (0 < deliveredOf row.item_entry
          (WithdrawAllInCategory host catalog auditOn item_subclass store inv).1 →
        deliveredOf row.item_entry
          (WithdrawAllInCategory host catalog auditOn item_subclass store inv).1 < row.amount →
        Effect.update row.item_entry (row.amount - deliveredOf row.item_entry
            (WithdrawAllInCategory host catalog auditOn item_subclass store inv).1)
          ∈ (WithdrawAllInCategory host catalog auditOn item_subclass store inv).1 ∧
        (deliveredOf row.item_entry
            (WithdrawAllInCategory host catalog auditOn item_subclass store inv).1
          = UMap.get row.item_entry
              (SimulateBatchAdd catalog (host.partials inv) (host.emptySlotsByFamily inv)
                ((Store.rowsOfCategory item_subclass store).map
                  (fun row => (row.item_entry, row.amount)))) →
          Store.amountOf row.item_entry
            (runEffects (WithdrawAllInCategory host catalog auditOn item_subclass store inv).1
              store)
            = some (row.amount - deliveredOf row.item_entry
                (WithdrawAllInCategory host catalog auditOn item_subclass store inv).1)))) ∧
    (∀ k v, Effect.update k v
        ∈ (WithdrawAllInCategory host catalog auditOn item_subclass store inv).1 → 0 < v) ∧
    (∀ row ∈ runEffects (WithdrawAllInCategory host catalog auditOn item_subclass store inv).1
        store, 0 < row.amount) := by
  refine ⟨?_, ?_, ?_, ?_, ?_⟩
  · intro entry a ha
    obtain ⟨row, hrow, -, h2⟩ := Store.mem_of_amountOf ha
    exact WithdrawItem_ledger host catalog store inv entry a ha (h2 ▸ hpos row hrow)
  · intro entry
    constructor
    · intro k v hmem
      exact (WithdrawItem_good host catalog store inv entry _ hmem).1
    · exact runEffects_rows_positive _ _
        (fun e he => (WithdrawItem_good host catalog store inv entry e he).1) hpos
  · intro row hrow
    obtain ⟨hfull, hpart⟩ := WithdrawAllInCategory_row host catalog auditOn item_subclass store
      inv hu hr hpos row hrow
    refine ⟨hfull, fun h0 hlt => ⟨hpart h0 hlt, fun hall => ?_⟩⟩
    exact WithdrawAllInCategory_row_matched host catalog auditOn item_subclass store inv hu hr
      hpos row hrow h0 hlt hall
  · intro k v hmem
    exact (WithdrawAllInCategory_good host catalog auditOn item_subclass store inv _ hmem).1
  · exact runEffects_rows_positive _ _
      (fun e he => (WithdrawAllInCategory_good host catalog auditOn item_subclass store inv
        e he).1) hpos

/-- Example: the balance 45 of item 100 is withdrawn into three free
slots (20 + 20 + 5) and the row is gone; into two free slots 40 is handed over
and the row is updated to 5. -/
theorem withdraw_zero_row_invariant_witness :
    Store.UniqueKeys [⟨100, 5, 45⟩] ∧ Store.InRange [⟨100, 5, 45⟩] ∧
    (∀ row ∈ ([⟨100, 5, 45⟩] : Store), 0 < row.amount) ∧
    deliveredOf 100 (WithdrawAllInCategory slotsHost itemACatalog false 5 [⟨100, 5, 45⟩] 3).1
      = 45 ∧
    Store.amountOf 100
      (runEffects (WithdrawAllInCategory slotsHost itemACatalog false 5 [⟨100, 5, 45⟩] 3).1
        [⟨100, 5, 45⟩]) = none ∧
    deliveredOf 100 (WithdrawAllInCategory slotsHost itemACatalog false 5 [⟨100, 5, 45⟩] 2).1
      = 40 ∧
    Effect.update 100 5
      ∈ (WithdrawAllInCategory slotsHost itemACatalog false 5 [⟨100, 5, 45⟩] 2).1 ∧
    Store.amountOf 100
      (runEffects (WithdrawAllInCategory slotsHost itemACatalog false 5 [⟨100, 5, 45⟩] 2).1
        [⟨100, 5, 45⟩]) = some 5 :=
  ⟨by unfold Store.UniqueKeys; decide, by unfold Store.InRange; decide, by decide, by decide,
    ((withdraw_zero_row_invariant slotsHost itemACatalog false 5 [⟨100, 5, 45⟩] 3
      (by unfold Store.UniqueKeys; decide) (by unfold Store.InRange; decide) (by decide)).2.2.1
      ⟨100, 5, 45⟩ (by decide)).1 (by decide),
    by decide, by decide, by decide⟩

/-! ## A slot is consumed exactly when the table changes -/

/-- If the placement loop leaves the slot table as it was, it has created no
stack: the request and the result map are as before. -/
theorem placeLoop_table_unchanged (entry maxStack bagFamily fuel remaining : Nat)
    (table : SlotTable) (g : UMap)
    (h : (placeLoop entry maxStack bagFamily fuel remaining table g).2.1 = table) :
    placeLoop entry maxStack bagFamily fuel remaining table g = (remaining, table, g) := by
  cases fuel with
  | zero => rfl
  | succ n =>
    unfold placeLoop at h ⊢
    by_cases h0 : remaining = 0
    · simp [h0]
    · simp only [h0, if_false] at h ⊢
      cases hp : placeStep entry maxStack bagFamily remaining table g with
      | none => rfl
      | some r =>
        rw [hp] at h
        simp only at h
        exfalso
        obtain ⟨l1, mask, count, l2, e1, e2, hc, hf⟩ := placeStep_table hp
        have h1 := compatibleSlots_decrement bagFamily l1 l2 mask count hc hf
        rw [← e1, ← e2] at h1
        have h2 := compatibleSlots_noGain bagFamily
          (placeLoop_noGain entry maxStack bagFamily n r.1 r.2.1 r.2.2)
        rw [h] at h2
        omega

/-! ## Claims on the withdraw flows: conservation and audit -/

/-- C11 at a failing input: the ledger holds 45 of item 100, the scan shows
three empty slots, so the simulator allows 45, and the host accepts one stack
and refuses the next. 20 are handed over and the first loop issues the `UPDATE`
to 25; the final transaction, which computes from the allowed 45, then issues
the `DELETE`: the ledger has no row for item 100 and the 25 that were not
handed over are gone. With two empty slots shown (40 allowed) the row ends at
5, not 25. -/
theorem WithdrawAllInCategory_loses_refused_remainder :
    UMap.get 100 (SimulateBatchAdd itemACatalog (limitedHost.partials (3, 1))
      (limitedHost.emptySlotsByFamily (3, 1)) [(100, 45)]) = 45 ∧
    (WithdrawAllInCategory limitedHost itemACatalog false 5 [⟨100, 5, 45⟩] (3, 1)).1
      = [Effect.storeNewItem 100 20, Effect.message (Message.withdrew 20 100),
          Effect.message (Message.equipError 100), Effect.update 100 25, Effect.delete 100,
          Effect.invalidate 5] ∧
    deliveredOf 100
      (WithdrawAllInCategory limitedHost itemACatalog false 5 [⟨100, 5, 45⟩] (3, 1)).1 = 20 ∧
    Store.amountOf 100
      (runEffects (WithdrawAllInCategory limitedHost itemACatalog false 5 [⟨100, 5, 45⟩]
        (3, 1)).1 [⟨100, 5, 45⟩]) = none ∧
    deliveredOf 100
      (WithdrawAllInCategory limitedHost itemACatalog false 5 [⟨100, 5, 45⟩] (2, 1)).1 = 20 ∧
    Store.amountOf 100
      (runEffects (WithdrawAllInCategory limitedHost itemACatalog false 5 [⟨100, 5, 45⟩]
        (2, 1)).1 [⟨100, 5, 45⟩]) = some 5 := by
  refine ⟨by decide, by decide, by decide, by decide, by decide, by decide⟩

/-- C12 at a failing input: with auditing enabled, 45 of item 100 stored and
three free slots, `WithdrawAllInCategory` hands over 45 and inserts two audit
records for item 100, one in the first loop and one in the final transaction,
both `WITHDRAW` with delta 45. When the host refuses every stack nothing is
handed over and the first loop still inserts its record. With auditing disabled
there is none. -/
theorem WithdrawAllInCategory_audits_twice :
    UMap.get 100 (SimulateBatchAdd itemACatalog (slotsHost.partials 3)
      (slotsHost.emptySlotsByFamily 3) [(100, 45)]) = 45 ∧
    (WithdrawAllInCategory slotsHost itemACatalog true 5 [⟨100, 5, 45⟩] 3).1
      = [Effect.storeNewItem 100 20, Effect.message (Message.withdrew 20 100),
          Effect.storeNewItem 100 20, Effect.message (Message.withdrew 20 100),
          Effect.storeNewItem 100 5, Effect.message (Message.withdrew 5 100),
          Effect.delete 100, Effect.audit AuditAction.WITHDRAW 100 5 45,
          Effect.delete 100, Effect.audit AuditAction.WITHDRAW 100 5 45,
          Effect.ensureAuditCleanup, Effect.invalidate 5] ∧
    auditRecords (WithdrawAllInCategory slotsHost itemACatalog true 5 [⟨100, 5, 45⟩] 3).1
      = [Effect.audit AuditAction.WITHDRAW 100 5 45,
          Effect.audit AuditAction.WITHDRAW 100 5 45] ∧
    deliveredOf 100
      (WithdrawAllInCategory limitedHost itemACatalog true 5 [⟨100, 5, 45⟩] (3, 0)).1 = 0 ∧
    auditRecords
      (WithdrawAllInCategory limitedHost itemACatalog true 5 [⟨100, 5, 45⟩] (3, 0)).1
      = [Effect.audit AuditAction.WITHDRAW 100 5 45] ∧
    auditRecords (WithdrawAllInCategory slotsHost itemACatalog false 5 [⟨100, 5, 45⟩] 3).1
      = [] := by
  refine ⟨by decide, by decide, by decide, by decide, by decide, by decide⟩

/-- `WithdrawItem` inserts nothing into the audit table, whatever it is given:
it never reads the audit switch. -/
theorem WithdrawItem_no_audit {Inv : Type} (host : Host Inv) (catalog : Catalog) (store : Store)
    (inv : Inv) (entry : Nat) :
    auditRecords (WithdrawItem host catalog store inv entry).1 = [] := by
  unfold WithdrawItem auditRecords
  cases Store.amountOf entry store with
  | none => rfl
  | some a =>
    simp only
    cases catalog entry with
    | none => rfl
    | some temp =>
      simp only
      split_ifs <;> rfl

/-- C13 at a failing input: 15 of item 100 are stored, the stack size is 20 and
the host accepts. `WithdrawItem` hands over 15 and deletes the row, and no
record is inserted into the audit table; the flow has no audit statement on any
path. -/
theorem WithdrawItem_appends_no_audit_record :
    (WithdrawItem slotsHost itemACatalog [⟨100, 5, 15⟩] 3 100).1
      = [Effect.delete 100, Effect.storeNewItem 100 15,
          Effect.message (Message.withdrew 15 100), Effect.invalidate 5] ∧
    deliveredOf 100 (WithdrawItem slotsHost itemACatalog [⟨100, 5, 15⟩] 3 100).1 = 15 ∧
    auditRecords (WithdrawItem slotsHost itemACatalog [⟨100, 5, 15⟩] 3 100).1 = [] ∧
    auditRecords (WithdrawItem slotsHost itemACatalog [⟨100, 5, 45⟩] 3 100).1 = [] ∧
    (∀ (store : Store) (inv entry : Nat),
      auditRecords (WithdrawItem slotsHost itemACatalog store inv entry).1 = []) := by
  refine ⟨by decide, by decide, by decide, by decide, ?_⟩
  intro store inv entry
  unfold WithdrawItem auditRecords
  cases Store.amountOf entry store with
  | none => rfl
  | some a =>
    simp only
    cases itemACatalog entry with
    | none => rfl
    | some temp =>
      simp only
      split_ifs <;> rfl

/-- C15: single-item withdraw caps at one stack. For stored amount `a` and
stack size `s`, what `WithdrawItem` asks the host to store is `min(a, s)`. If
the host accepts, exactly `min(a, s)` is handed over in one stack, the row is
deleted when `a <= s` and set to `a - s` otherwise, and no other row changes.
If the host refuses, nothing is handed over, the inventory is as before and the
ledger is unchanged. -/
theorem WithdrawItem_caps_at_one_stack {Inv : Type} (host : Host Inv) (catalog : Catalog)
    (store : Store) (inv : Inv) (entry a : Nat) (temp : ItemTemplate)
    (ha : Store.amountOf entry store = some a) (ht : catalog entry = some temp) :
    (host.canStoreNewItem inv entry (min a temp.maxStack) = true →
      (WithdrawItem host catalog store inv entry).1.filter
          (fun e => match e with
            | Effect.storeNewItem _ _ => true
            | _ => false)
        = [Effect.storeNewItem entry (min a temp.maxStack)] ∧
      deliveredOf entry (WithdrawItem host catalog store inv entry).1 = min a temp.maxStack ∧
      (WithdrawItem host catalog store inv entry).2
        = host.storeNewItem inv entry (min a temp.maxStack) ∧
      Store.amountOf entry (runEffects (WithdrawItem host catalog store inv entry).1 store)
        = (if a ≤ temp.maxStack then none else some (a - temp.maxStack)) ∧
      ∀ k, k ≠ entry →
        Store.amountOf k (runEffects (WithdrawItem host catalog store inv entry).1 store)
          = Store.amountOf k store) ∧
    (host.canStoreNewItem inv entry (min a temp.maxStack) = false →
      (∀ k, deliveredOf k (WithdrawItem host catalog store inv entry).1 = 0) ∧
      (WithdrawItem host catalog store inv entry).2 = inv ∧
      runEffects (WithdrawItem host catalog store inv entry).1 store = store) := by
  unfold WithdrawItem
  simp only [ha, ht]
  by_cases hle : a ≤ temp.maxStack
  · have hmin : min a temp.maxStack = a := Nat.min_eq_left hle
    rw [hmin]
    simp only [hle, if_true]
    constructor
    · intro hc
      simp only [hc, if_true]
      refine ⟨by trivial, by simp [deliveredOf], by trivial, ?_, ?_⟩
      · simp [runEffects, Effect.applyTo, Store.amountOf_delete]
      · intro k hk
        simp [runEffects, Effect.applyTo, Store.amountOf_delete, hk]
    · intro hc
      simp only [hc, Bool.false_eq_true, if_false]
      exact ⟨fun k => by simp [deliveredOf], by trivial, by trivial⟩
  · have hmin : min a temp.maxStack = temp.maxStack := Nat.min_eq_right (by omega)
    rw [hmin]
    simp only [hle, if_false]
    constructor
    · intro hc
      simp only [hc, if_true]
      refine ⟨by trivial, by simp [deliveredOf], by trivial, ?_, ?_⟩
      · simp [runEffects, Effect.applyTo, Store.amountOf_update, ha]
      · intro k hk
        simp [runEffects, Effect.applyTo, Store.amountOf_update, hk]
    · intro hc
      simp only [hc, Bool.false_eq_true, if_false]
      exact ⟨fun k => by simp [deliveredOf], by trivial, by trivial⟩

/-- Witness of C15: 45 stored with stack size 20 and a free slot: 20 are handed
over and the row is set to 25. -/
theorem WithdrawItem_caps_at_one_stack_witness :
    Store.amountOf 100 [⟨100, 5, 45⟩] = some 45 ∧ itemACatalog 100 = some itemA ∧
    slotsHost.canStoreNewItem 3 100 (min 45 itemA.maxStack) = true ∧
    deliveredOf 100 (WithdrawItem slotsHost itemACatalog [⟨100, 5, 45⟩] 3 100).1
      = min 45 itemA.maxStack ∧
    Store.amountOf 100
      (runEffects (WithdrawItem slotsHost itemACatalog [⟨100, 5, 45⟩] 3 100).1 [⟨100, 5, 45⟩])
      = (if 45 ≤ itemA.maxStack then none else some (45 - itemA.maxStack)) :=
  ⟨by decide, by decide, by decide,
    ((WithdrawItem_caps_at_one_stack slotsHost itemACatalog [⟨100, 5, 45⟩] 3 100 45 itemA
      (by decide) (by decide)).1 (by decide)).2.1,
    ((WithdrawItem_caps_at_one_stack slotsHost itemACatalog [⟨100, 5, 45⟩] 3 100 45 itemA
      (by decide) (by decide)).1 (by decide)).2.2.2.1⟩

/-! ## Withdraw with no capacity -/

theorem compatibleSlots_eq_zero (f : Nat) {table : SlotTable} (h : ∀ p ∈ table, p.2 = 0) :
    compatibleSlots f table = 0 := by
  induction table with
  | nil => rfl
  | cons p l ih =>
    rw [compatibleSlots_cons, ih (fun q hq => h q (List.mem_cons_of_mem _ hq)),
      h p (List.mem_cons_self _ _)]
    simp

/-- Without an empty slot and without a partial stack of item `k` the simulator
grants nothing of `k`. -/
theorem SimulateBatchAdd_no_capacity (catalog : Catalog) (partials : Nat → List Nat)
    (table : SlotTable) (items : List (Nat × Nat)) (k : Nat)
    (hslots : ∀ p ∈ table, p.2 = 0) (hk : partials k = []) :
    UMap.get k (SimulateBatchAdd catalog partials table items) = 0 := by
  cases hc : catalog k with
  | none =>
    have h := foldl_simulateRequest_find_skip catalog items
      { partials := partials, emptySlotsByFamily := table, granted := [] } k
      (by intro temp ht; rw [hc] at ht; cases ht)
    simp [SimulateBatchAdd, simulateRun, UMap.get, h, UMap.find]
  | some temp =>
    have h := foldl_simulateRequest_capacity catalog items
      { partials := partials, emptySlotsByFamily := table, granted := [] } k temp hc
    simp only [UMap.get, UMap.find, Option.getD_none, zero_add, hk, freeTotal, List.sum_nil,
      compatibleSlots_eq_zero temp.bagFamily hslots, Nat.mul_zero, add_zero] at h
    simp only [SimulateBatchAdd, simulateRun, UMap.get]
    omega

/-- When nothing is allowed for any row, the first loop of
`WithdrawAllInCategory` does nothing. -/
theorem withdrawRows_nothing_allowed {Inv : Type} (host : Host Inv) (catalog : Catalog)
    (auditOn : Bool) (item_subclass : Nat) (sim : UMap) (items : List (Nat × Nat)) (inv : Inv)
    (any : Bool) (h : ∀ pr ∈ items, UMap.get pr.1 sim = 0) :
    (withdrawRows host catalog auditOn item_subclass sim items inv any).effects = [] ∧
    (withdrawRows host catalog auditOn item_subclass sim items inv any).inventory = inv ∧
    (withdrawRows host catalog auditOn item_subclass sim items inv any).any = any := by
  induction items generalizing inv any with
  | nil => exact ⟨rfl, rfl, rfl⟩
  | cons pr rest ih =>
    have h0 := h pr (List.mem_cons_self _ _)
    have hrow : withdrawRow host catalog auditOn item_subclass sim inv any pr
        = ⟨[], pr.2, inv, any⟩ := by
      unfold withdrawRow
      simp [h0]
    obtain ⟨h1, h2, h3⟩ := ih inv any (fun q hq => h q (List.mem_cons_of_mem _ hq))
    simp only [withdrawRows, hrow, h1, h2, h3, List.append_nil, and_self]

/-- C16: withdraw with no capacity changes nothing. For every category that
holds stored rows, whatever their amounts, if the requester's snapshot has no
empty slot and no partial stack of any stored item, `WithdrawAllInCategory`
grants 0 for every item, its only effect is the single "No reagents withdrawn"
message (no `DELETE` or `UPDATE`, no audit insert, no cache invalidation,
nothing handed over), the inventory is as before and the ledger is unchanged. -/
theorem WithdrawAllInCategory_no_capacity {Inv : Type} (host : Host Inv) (catalog : Catalog)
    (auditOn : Bool) (item_subclass : Nat) (store : Store) (inv : Inv)
    (hrows : Store.rowsOfCategory item_subclass store ≠ [])
    (hslots : ∀ p ∈ host.emptySlotsByFamily inv, p.2 = 0)
    (hpartials : ∀ row ∈ Store.rowsOfCategory item_subclass store,
      host.partials inv row.item_entry = []) :
    (∀ row ∈ Store.rowsOfCategory item_subclass store,
      UMap.get row.item_entry
        (SimulateBatchAdd catalog (host.partials inv) (host.emptySlotsByFamily inv)
          ((Store.rowsOfCategory item_subclass store).map
            (fun row => (row.item_entry, row.amount)))) = 0) ∧
    (WithdrawAllInCategory host catalog auditOn item_subclass store inv).1
      = [Effect.message Message.noReagentsWithdrawn] ∧
    (WithdrawAllInCategory host catalog auditOn item_subclass store inv).2 = inv ∧
    runEffects (WithdrawAllInCategory host catalog auditOn item_subclass store inv).1 store
      = store := by
  have hsim : ∀ row ∈ Store.rowsOfCategory item_subclass store,
      UMap.get row.item_entry
        (SimulateBatchAdd catalog (host.partials inv) (host.emptySlotsByFamily inv)
          ((Store.rowsOfCategory item_subclass store).map
            (fun row => (row.item_entry, row.amount)))) = 0 :=
    fun row hrow => SimulateBatchAdd_no_capacity catalog _ _ _ _ hslots (hpartials row hrow)
  have hitems : ∀ pr ∈ (Store.rowsOfCategory item_subclass store).map
      (fun row => (row.item_entry, row.amount)),
      UMap.get pr.1
        (SimulateBatchAdd catalog (host.partials inv) (host.emptySlotsByFamily inv)
          ((Store.rowsOfCategory item_subclass store).map
            (fun row => (row.item_entry, row.amount)))) = 0 := by
    intro pr hpr
    obtain ⟨row, hrow, rfl⟩ := List.mem_map.mp hpr
    exact hsim row hrow
  obtain ⟨h1, h2, h3⟩ := withdrawRows_nothing_allowed host catalog auditOn item_subclass
    _ _ inv false hitems
  have heff : WithdrawAllInCategory host catalog auditOn item_subclass store inv
      = ([Effect.message Message.noReagentsWithdrawn], inv) := by
    unfold WithdrawAllInCategory
    simp only [hrows, if_false, h1, h2, h3, if_true, List.nil_append]
  refine ⟨hsim, ?_, ?_, ?_⟩
  · rw [heff]
  · rw [heff]
  · rw [heff]
    rfl

/-- Witness of C16: the balance 45 of item 100 and a requester with zero free
capacity. -/
theorem WithdrawAllInCategory_no_capacity_witness :
    Store.rowsOfCategory 5 [⟨100, 5, 45⟩] ≠ [] ∧
    (∀ p ∈ slotsHost.emptySlotsByFamily 0, p.2 = 0) ∧
    (∀ row ∈ Store.rowsOfCategory 5 [⟨100, 5, 45⟩], slotsHost.partials 0 row.item_entry = []) ∧
    (WithdrawAllInCategory slotsHost itemACatalog true 5 [⟨100, 5, 45⟩] 0).1
      = [Effect.message Message.noReagentsWithdrawn] ∧
    runEffects (WithdrawAllInCategory slotsHost itemACatalog true 5 [⟨100, 5, 45⟩] 0).1
      [⟨100, 5, 45⟩] = [⟨100, 5, 45⟩] :=
  ⟨by decide, by decide, by decide,
    (WithdrawAllInCategory_no_capacity slotsHost itemACatalog true 5 [⟨100, 5, 45⟩] 0
      (by decide) (by decide) (by decide)).2.1,
    (WithdrawAllInCategory_no_capacity slotsHost itemACatalog true 5 [⟨100, 5, 45⟩] 0
      (by decide) (by decide) (by decide)).2.2.2⟩

/-! ## Retention sweep -/

/-- C17: retention sweep. Whenever `EnsureAuditCleanup` sweeps at time `T` with
retention window `W`, the audit rows left are exactly the rows with
`ts >= T - W`, in their order: the rows with `ts < T - W` are deleted, every
other row stays, and `g_reagentBankLastCleanup` is `T`. With `W = 604800` and
`T = 1700000000` the rows older than 1699395200 go. -/
theorem EnsureAuditCleanup_sweep (cfg : AuditConfig) (now : Int) (st : AuditState)
    (h : sweeps cfg now st) :
    (∀ r, r ∈ (EnsureAuditCleanup cfg now st).log ↔
      r ∈ st.log ∧ ¬ r.ts < now - (cfg.g_reagentBankAuditRetentionSeconds : Int)) ∧
    (EnsureAuditCleanup cfg now st).log
      = st.log.filter
          (fun r => decide (¬ r.ts < now - (cfg.g_reagentBankAuditRetentionSeconds : Int))) ∧
    (EnsureAuditCleanup cfg now st).g_reagentBankLastCleanup = now ∧
    EnsureAuditCleanup defaultAuditConfig 1700000000
        { log := [⟨1699395199, AuditAction.DEPOSIT, 100, 5, 30⟩,
                  ⟨1699395200, AuditAction.WITHDRAW, 100, 5, 20⟩,
                  ⟨1699999999, AuditAction.DEPOSIT, 101, 5, 7⟩]
          g_reagentBankLastCleanup := 1699990000 }
      = { log := [⟨1699395200, AuditAction.WITHDRAW, 100, 5, 20⟩,
                  ⟨1699999999, AuditAction.DEPOSIT, 101, 5, 7⟩]
          g_reagentBankLastCleanup := 1700000000 } := by
  obtain ⟨h1, h2⟩ := h
  have hrun : EnsureAuditCleanup cfg now st
      = { log := st.log.filter
            (fun r => decide (¬ r.ts < now - (cfg.g_reagentBankAuditRetentionSeconds : Int)))
          g_reagentBankLastCleanup := now } := by
    unfold EnsureAuditCleanup
    rw [if_neg (by simp [h1]), if_neg h2]
  refine ⟨?_, ?_, ?_, by decide⟩
  · intro r
    rw [hrun]
    simp [List.mem_filter]
  · rw [hrun]
  · rw [hrun]

/-- Witness of C17: the sweep of the example is one, as the last sweep was
10000 seconds before. -/
theorem EnsureAuditCleanup_sweep_witness :
    sweeps defaultAuditConfig 1700000000
      { log := [⟨1699395199, AuditAction.DEPOSIT, 100, 5, 30⟩],
        g_reagentBankLastCleanup := 1699990000 } ∧
    (EnsureAuditCleanup defaultAuditConfig 1700000000
      { log := [⟨1699395199, AuditAction.DEPOSIT, 100, 5, 30⟩],
        g_reagentBankLastCleanup := 1699990000 }).g_reagentBankLastCleanup = 1700000000 :=
  ⟨by unfold sweeps; decide,
    (EnsureAuditCleanup_sweep defaultAuditConfig 1700000000
      { log := [⟨1699395199, AuditAction.DEPOSIT, 100, 5, 30⟩],
        g_reagentBankLastCleanup := 1699990000 } (by unfold sweeps; decide)).2.2.1⟩

/-- C18 at a concrete input: auditing is on, `g_reagentBankLastCleanup` still
has its initial value 0, the game time is 1700000000 and the configured interval
is 2000000000 seconds. `now - lastCleanup` is below the interval, yet the guard
on `g_reagentBankLastCleanup` being non-zero lets the call sweep: a row is
deleted and `g_reagentBankLastCleanup` becomes `now`. -/
theorem EnsureAuditCleanup_first_call_sweeps :
    ((1700000000 : Int) - 0 < (2000000000 : Nat)) ∧
    EnsureAuditCleanup
        { g_reagentBankAudit := true, g_reagentBankAuditRetentionSeconds := 604800,
          g_reagentBankAuditCleanupIntervalSeconds := 2000000000 }
        1700000000
        { log := [⟨1600000000, AuditAction.DEPOSIT, 100, 5, 30⟩,
                  ⟨1699999999, AuditAction.DEPOSIT, 101, 5, 7⟩]
          g_reagentBankLastCleanup := 0 }
      = { log := [⟨1699999999, AuditAction.DEPOSIT, 101, 5, 7⟩]
          g_reagentBankLastCleanup := 1700000000 } := by
  refine ⟨by decide, by decide⟩

/-- C18, amended: sweep debounce. `EnsureAuditCleanup` issues its `DELETE` and
sets `g_reagentBankLastCleanup` to `now` if and only if auditing is enabled and
either `g_reagentBankLastCleanup` is 0 (its initial value) or
`now - g_reagentBankLastCleanup >= cleanupInterval`; otherwise it leaves the
audit table and `g_reagentBankLastCleanup` as they are. -/
theorem EnsureAuditCleanup_debounce (cfg : AuditConfig) (now : Int) (st : AuditState) :
    ((cfg.g_reagentBankAudit = true ∧
        (st.g_reagentBankLastCleanup = 0 ∨
          (cfg.g_reagentBankAuditCleanupIntervalSeconds : Int)
            ≤ now - st.g_reagentBankLastCleanup)) →
      EnsureAuditCleanup cfg now st
        = { log := st.log.filter
              (fun r => decide (¬ r.ts < now - (cfg.g_reagentBankAuditRetentionSeconds : Int)))
            g_reagentBankLastCleanup := now }) ∧
    (¬ (cfg.g_reagentBankAudit = true ∧
        (st.g_reagentBankLastCleanup = 0 ∨
          (cfg.g_reagentBankAuditCleanupIntervalSeconds : Int)
            ≤ now - st.g_reagentBankLastCleanup)) →
      EnsureAuditCleanup cfg now st = st) := by
  unfold EnsureAuditCleanup
  constructor
  · rintro ⟨h1, h2⟩
    rw [if_neg (by simp [h1]), if_neg]
    intro ⟨h3, h4⟩
    rcases h2 with h2 | h2
    · exact h3 h2
    · omega
  · intro h
    by_cases h1 : cfg.g_reagentBankAudit = false
    · rw [if_pos h1]
    · rw [if_neg h1, if_pos]
      simp only [Bool.not_eq_false] at h1
      simp only [h1, true_and, not_or, not_le] at h
      exact h

/-- Witness of the amended C18: one hour after the last sweep the call sweeps,
one second earlier it does nothing. -/
theorem EnsureAuditCleanup_debounce_witness :
    (defaultAuditConfig.g_reagentBankAudit = true ∧
      ((1699996400 : Int) = 0 ∨
        (defaultAuditConfig.g_reagentBankAuditCleanupIntervalSeconds : Int)
          ≤ 1700000000 - 1699996400)) ∧
    EnsureAuditCleanup defaultAuditConfig 1700000000
        { log := [⟨1690000000, AuditAction.DEPOSIT, 100, 5, 30⟩],
          g_reagentBankLastCleanup := 1699996400 }
      = { log := [], g_reagentBankLastCleanup := 1700000000 } ∧
    EnsureAuditCleanup defaultAuditConfig 1699999999
        { log := [⟨1690000000, AuditAction.DEPOSIT, 100, 5, 30⟩],
          g_reagentBankLastCleanup := 1699996400 }
      = { log := [⟨1690000000, AuditAction.DEPOSIT, 100, 5, 30⟩],
          g_reagentBankLastCleanup := 1699996400 } :=
  ⟨by decide,
    (EnsureAuditCleanup_debounce defaultAuditConfig 1700000000
      { log := [⟨1690000000, AuditAction.DEPOSIT, 100, 5, 30⟩],
        g_reagentBankLastCleanup := 1699996400 }).1 (by decide),
    (EnsureAuditCleanup_debounce defaultAuditConfig 1699999999
      { log := [⟨1690000000, AuditAction.DEPOSIT, 100, 5, 30⟩],
        g_reagentBankLastCleanup := 1699996400 }).2 (by decide)⟩

/-! ## Stale requester -/

/-- The ledger of the state after a sequence of effects is the ledger after the
statements among them. -/
theorem runWorld_ledger (cfg : AuditConfig) (now : Int) (effects : List Effect) (w : World) :
    (runWorld cfg now effects w).ledger = runEffects effects w.ledger := by
  induction effects generalizing w with
  | nil => rfl
  | cons e rest ih =>
    simp only [runWorld, runEffects, List.foldl] at ih ⊢
    rw [ih]
    cases e <;> rfl

/-- C19: stale-requester abort. In the callback of `DepositAllReagents`, of
`DepositAllReagentsForCategory`, of `WithdrawAllInCategory` and of
`WithdrawItem`, if the requester is not found or has no session when the query
result arrives, the callback has no effect at all: the requester's inventory is
as it was, and the ledger, the audit table with its sweep time and the category
summary cache are unchanged. -/
theorem stale_requester_abort {Inv : Type} (K : HostEnums) (host : Host Inv) (catalog : Catalog)
    (auditOn : Bool) (item_subclass entry : Nat) (found session : Bool) (store : Store)
    (inventory : Inventory) (inv : Inv) (cfg : AuditConfig) (now : Int) (w : World)
    (h : found = false ∨ session = false) :
    DepositAllReagentsCallback K catalog auditOn found session store inventory
      = ([], inventory) ∧
    DepositAllReagentsForCategoryCallback K catalog auditOn item_subclass found session store
      inventory = ([], inventory) ∧
    WithdrawAllInCategoryCallback host catalog auditOn item_subclass found session store inv
      = ([], inv) ∧
    WithdrawItemCallback host catalog found session store inv entry = ([], inv) ∧
    runWorld cfg now
      (DepositAllReagentsCallback K catalog auditOn found session store inventory).1 w = w ∧
    runWorld cfg now
      (DepositAllReagentsForCategoryCallback K catalog auditOn item_subclass found session store
        inventory).1 w = w ∧
    runWorld cfg now
      (WithdrawAllInCategoryCallback host catalog auditOn item_subclass found session store
        inv).1 w = w ∧
    runWorld cfg now (WithdrawItemCallback host catalog found session store inv entry).1 w
      = w := by
  have h1 : DepositAllReagentsCallback K catalog auditOn found session store inventory
      = ([], inventory) := by
    unfold DepositAllReagentsCallback
    rw [if_pos h]
  have h2 : DepositAllReagentsForCategoryCallback K catalog auditOn item_subclass found session
      store inventory = ([], inventory) := by
    unfold DepositAllReagentsForCategoryCallback
    rw [if_pos h]
  have h3 : WithdrawAllInCategoryCallback host catalog auditOn item_subclass found session store
      inv = ([], inv) := by
    unfold WithdrawAllInCategoryCallback
    rw [if_pos h]
  have h4 : WithdrawItemCallback host catalog found session store inv entry = ([], inv) := by
    unfold WithdrawItemCallback
    rw [if_pos h]
  refine ⟨h1, h2, h3, h4, ?_, ?_, ?_, ?_⟩
  · rw [h1]; rfl
  · rw [h2]; rfl
  · rw [h3]; rfl
  · rw [h4]; rfl

/-- Witness of C19: the requester holds 30 of item 100, the ledger 45, and the
requester is gone when the result of the deposit query arrives; a requester
who is present has the 30 moved to the ledger. -/
theorem stale_requester_abort_witness :
    (false = false ∨ true = false) ∧
    DepositAllReagentsCallback exampleEnums itemACatalog true false true [⟨100, 5, 45⟩]
      [some ⟨some itemA, 20⟩, some ⟨some itemA, 10⟩]
      = ([], [some ⟨some itemA, 20⟩, some ⟨some itemA, 10⟩]) ∧
    runEffects (DepositAllReagentsCallback exampleEnums itemACatalog true true true
      [⟨100, 5, 45⟩] [some ⟨some itemA, 20⟩, some ⟨some itemA, 10⟩]).1 [⟨100, 5, 45⟩]
      = [⟨100, 5, 75⟩] :=
  ⟨by decide,
    (stale_requester_abort exampleEnums slotsHost itemACatalog true 5 100 false true
      [⟨100, 5, 45⟩] [some ⟨some itemA, 20⟩, some ⟨some itemA, 10⟩] 3 defaultAuditConfig
      1700000000 { ledger := [⟨100, 5, 45⟩], audit := emptyAudit, cache := emptyCache }
      (by decide)).1,
    by decide⟩

/-! ## Invalidation after a single-item withdraw -/

/-- What `WithdrawItem` invalidates when it hands over a stack is the
`SubClass` of the item template, whatever category the row is stored under. -/
theorem WithdrawItem_invalidates_template_subclass {Inv : Type} (host : Host Inv)
    (catalog : Catalog) (store : Store) (inv : Inv) (entry c : Nat)
    (h : Effect.invalidate c ∈ (WithdrawItem host catalog store inv entry).1) :
    ∃ temp, catalog entry = some temp ∧ c = temp.SubClass := by
  unfold WithdrawItem at h
  cases ha : Store.amountOf entry store with
  | none => simp [ha] at h
  | some a =>
    simp only [ha] at h
    cases hc : catalog entry with
    | none => simp [hc] at h
    | some temp =>
      simp only [hc] at h
      refine ⟨temp, rfl, ?_⟩
      split_ifs at h <;> simp at h <;> exact h

/-- C20 at a failing input: 15 of item 200, a gem whose template has `SubClass`
1, are deposited; `AccumulateInventory` files the row under Jewelcrafting (4).
With the summary (1 item, 15 in total) of category 4 cached, `WithdrawItem`
hands over the 15, deletes the row and invalidates category 1: the ledger has
no row of category 4 while the cache still answers (1, 15) for it. -/
theorem WithdrawItem_leaves_gem_summary_cached :
    runEffects (DepositAllReagents exampleEnums gemCatalog false []
      [some ⟨some gemB, 15⟩]).1 [] = [⟨200, 4, 15⟩] ∧
    (WithdrawItem slotsHost gemCatalog [⟨200, 4, 15⟩] 3 200).1
      = [Effect.delete 200, Effect.storeNewItem 200 15,
          Effect.message (Message.withdrew 15 200), Effect.invalidate 1] ∧
    (runWorld defaultAuditConfig 1700000000
      (WithdrawItem slotsHost gemCatalog [⟨200, 4, 15⟩] 3 200).1
      { ledger := [⟨200, 4, 15⟩], audit := emptyAudit,
        cache := StoreCategorySummary 4 (1, 15) emptyCache }).ledger = [] ∧
    GetCachedCategorySummary 4
      (runWorld defaultAuditConfig 1700000000
        (WithdrawItem slotsHost gemCatalog [⟨200, 4, 15⟩] 3 200).1
        { ledger := [⟨200, 4, 15⟩], audit := emptyAudit,
          cache := StoreCategorySummary 4 (1, 15) emptyCache }).cache = some (1, 15) := by
  refine ⟨by decide, by decide, by decide, by decide⟩

/-! ## Audit records of the deposit flows -/

theorem removedQuantity_of_categoryOf_none (K : HostEnums) (f : Option Nat) (k : Nat)
    (inventory : Inventory) (h : categoryOf K f k inventory = none) :
    removedQuantity K f k inventory = 0 := by
  induction inventory with
  | nil => rfl
  | cons slot rest ih =>
    unfold categoryOf at h
    unfold removedQuantity
    cases he : eligibleStack K f slot with
    | none =>
      rw [he] at h
      simp only at h ⊢
      rw [ih h]
    | some t =>
      obtain ⟨entry, subclass, count⟩ := t
      rw [he] at h
      simp only at h ⊢
      by_cases hk : entry = k
      · rw [if_pos hk] at h
        cases h
      · rw [if_neg hk] at h
        rw [if_neg hk, ih h]

theorem categoryOf_eq_none_iff (K : HostEnums) (f : Option Nat) (k : Nat)
    (inventory : Inventory) :
    categoryOf K f k inventory = none ↔
      ∀ slot ∈ inventory, ∀ sub count, eligibleStack K f slot ≠ some (k, sub, count) := by
  induction inventory with
  | nil => simp [categoryOf]
  | cons slot rest ih =>
    unfold categoryOf
    cases he : eligibleStack K f slot with
    | none =>
      simp only
      rw [ih]
      constructor
      · intro h s hs sub count
        rcases List.mem_cons.mp hs with hs | hs
        · subst hs
          rw [he]
          exact fun hx => by cases hx
        · exact h s hs sub count
      · intro h s hs
        exact h s (List.mem_cons_of_mem _ hs)
    | some t =>
      obtain ⟨entry, subclass, count⟩ := t
      simp only
      by_cases hk : entry = k
      · rw [if_pos hk]
        constructor
        · intro h
          cases h
        · intro h
          exact absurd (by rw [he, hk]) (h slot (List.mem_cons_self _ _) subclass count)
      · rw [if_neg hk, ih]
        constructor
        · intro h s hs sub c
          rcases List.mem_cons.mp hs with hs | hs
          · subst hs
            rw [he]
            intro hx
            simp only [Option.some.injEq, Prod.mk.injEq] at hx
            exact hk hx.1
          · exact h s hs sub c
        · intro h s hs
          exact h s (List.mem_cons_of_mem _ hs)

theorem categoryOf_mem (K : HostEnums) (f : Option Nat) (k sub : Nat) (inventory : Inventory)
    (h : categoryOf K f k inventory = some sub) :
    ∃ slot ∈ inventory, ∃ count, eligibleStack K f slot = some (k, sub, count) := by
  induction inventory with
  | nil => simp [categoryOf] at h
  | cons slot rest ih =>
    unfold categoryOf at h
    cases he : eligibleStack K f slot with
    | none =>
      rw [he] at h
      simp only at h
      obtain ⟨s, hs, c, hc⟩ := ih h
      exact ⟨s, List.mem_cons_of_mem _ hs, c, hc⟩
    | some t =>
      obtain ⟨entry, subclass, count⟩ := t
      rw [he] at h
      simp only at h
      by_cases hk : entry = k
      · rw [if_pos hk] at h
        simp only [Option.some.injEq] at h
        subst hk h
        exact ⟨slot, List.mem_cons_self _ _, count, he⟩
      · rw [if_neg hk] at h
        obtain ⟨s, hs, c, hc⟩ := ih h
        exact ⟨s, List.mem_cons_of_mem _ hs, c, hc⟩

/-- A stack passes the filter of a category only with that category. -/
theorem eligibleStack_filter (K : HostEnums) (c : Nat) (slot : Option InvItem)
    (entry sub count : Nat) (h : eligibleStack K (some c) slot = some (entry, sub, count)) :
    sub = c := by
  unfold eligibleStack at h
  cases slot with
  | none => cases h
  | some pItem =>
    simp only at h
    cases ht : pItem.template with
    | none =>
      rw [ht] at h
      cases h
    | some temp =>
      rw [ht] at h
      simp only at h
      split_ifs at h <;> simp_all

theorem accumulateFrom_find_added (K : HostEnums) (f : Option Nat) (k : Nat)
    (inventory : Inventory) (result : AccumulateResult) :
    UMap.find k (accumulateFrom K f inventory result).1.addedCounts =
      match categoryOf K f k inventory with
      | some _ =>
        some ((UMap.get k result.addedCounts + removedQuantity K f k inventory) % U32)
      | none => UMap.find k result.addedCounts := by
  induction inventory generalizing result with
  | nil => rfl
  | cons slot rest ih =>
    unfold accumulateFrom categoryOf removedQuantity
    cases he : eligibleStack K f slot with
    | none =>
      simp only [zero_add]
      exact ih result
    | some t =>
      obtain ⟨entry, subclass, count⟩ := t
      simp only
      rw [ih]
      by_cases hk : entry = k
      · subst hk
        rw [if_pos rfl, if_pos rfl]
        have hg : UMap.get entry (recordStack result entry subclass count).addedCounts
            = (UMap.get entry result.addedCounts + count) % U32 := by
          simp only [recordStack, UMap.get, UMap.find_addTo_self, Option.getD_some]
        have hf : UMap.find entry (recordStack result entry subclass count).addedCounts
            = some ((UMap.get entry result.addedCounts + count) % U32) := by
          simp only [recordStack, UMap.find_addTo_self]
        cases hc : categoryOf K f entry rest with
        | none =>
          simp only
          rw [hf, removedQuantity_of_categoryOf_none K f entry rest hc, Nat.add_zero]
        | some s =>
          simp only
          rw [hg]
          congr 1
          unfold U32
          omega
      · rw [if_neg hk, if_neg hk, Nat.zero_add]
        have hf : UMap.find k (recordStack result entry subclass count).addedCounts
            = UMap.find k result.addedCounts := by
          simp only [recordStack]
          exact UMap.find_addTo_ne (Ne.symm hk) count result.addedCounts
        simp only [UMap.get, hf]

theorem accumulateFrom_find_subclass (K : HostEnums) (f : Option Nat) (k : Nat)
    (inventory : Inventory) (result : AccumulateResult) :
    UMap.find k (accumulateFrom K f inventory result).1.subclassByEntry =
      match UMap.find k result.subclassByEntry with
      | some s => some s
      | none => categoryOf K f k inventory := by
  induction inventory generalizing result with
  | nil =>
    simp only [accumulateFrom, categoryOf]
    cases UMap.find k result.subclassByEntry <;> rfl
  | cons slot rest ih =>
    unfold accumulateFrom categoryOf
    cases he : eligibleStack K f slot with
    | none =>
      simp only
      exact ih result
    | some t =>
      obtain ⟨entry, subclass, count⟩ := t
      simp only
      rw [ih]
      by_cases hk : entry = k
      · subst hk
        rw [if_pos rfl]
        cases hs : UMap.find entry result.subclassByEntry with
        | some s => simp [recordStack, hs]
        | none => simp [recordStack, hs, UMap.find_set]
      · rw [if_neg hk]
        have hf : UMap.find k (recordStack result entry subclass count).subclassByEntry
            = UMap.find k result.subclassByEntry := by
          simp only [recordStack]
          split_ifs
          · rfl
          · rw [UMap.find_set, if_neg (Ne.symm hk)]
        rw [hf]

/-- The stacks that `AccumulateInventory` takes are destroyed, every other slot
is as it was. -/
theorem accumulateFrom_inventory (K : HostEnums) (f : Option Nat) (inventory : Inventory)
    (result : AccumulateResult) :
    (accumulateFrom K f inventory result).2
      = inventory.map (fun slot => if (eligibleStack K f slot).isSome then none else slot) := by
  induction inventory generalizing result with
  | nil => rfl
  | cons slot rest ih =>
    unfold accumulateFrom
    cases he : eligibleStack K f slot with
    | none => simp [ih, he]
    | some t =>
      obtain ⟨entry, subclass, count⟩ := t
      simp [ih, he]

theorem auditRecords_append (a b : List Effect) :
    auditRecords (a ++ b) = auditRecords a ++ auditRecords b := by
  simp [auditRecords, List.filter_append]

theorem auditRecords_map_other {α : Type} (g : α → Effect) (l : List α)
    (h : ∀ x, (g x).isAudit = false) : auditRecords (l.map g) = [] := by
  induction l with
  | nil => rfl
  | cons x rest ih =>
    simp only [auditRecords, List.map_cons, List.filter_cons, h x] at ih ⊢
    exact ih

theorem auditRecords_map_audit {α : Type} (g : α → Effect) (l : List α)
    (h : ∀ x, (g x).isAudit = true) : auditRecords (l.map g) = l.map g := by
  induction l with
  | nil => rfl
  | cons x rest ih =>
    simp only [auditRecords, List.map_cons, List.filter_cons, h x] at ih ⊢
    simp only [if_true, ih]

theorem auditRecords_FlushReagentState (finalAmounts subclassByEntry : UMap) :
    auditRecords (FlushReagentState finalAmounts subclassByEntry) = [] :=
  auditRecords_map_other _ _ (fun _ => rfl)

theorem auditRecords_depositedMessages (catalog : Catalog) (addedCounts : UMap) :
    auditRecords (depositedMessages catalog addedCounts) = [] :=
  auditRecords_map_other _ _ (fun _ => rfl)

/-- The audit inserts of `DepositAllReagents`: one per entry of `addedCounts`
when auditing is on. -/
theorem DepositAllReagents_auditRecords (K : HostEnums) (catalog : Catalog) (auditOn : Bool)
    (store : Store) (inventory : Inventory) :
    auditRecords (DepositAllReagents K catalog auditOn store inventory).1
      = if auditOn then
          (AccumulateInventory K inventory none).1.addedCounts.map (fun kv =>
            Effect.audit AuditAction.DEPOSIT kv.1
              (UMap.get kv.1 (AccumulateInventory K inventory none).1.subclassByEntry) kv.2)
        else [] := by
  unfold DepositAllReagents
  simp only
  by_cases he : (AccumulateInventory K inventory none).1.addedCounts = []
  · rw [if_pos he, he]
    cases auditOn <;> rfl
  · rw [if_neg he]
    simp only [auditRecords_append, auditRecords_FlushReagentState]
    rw [auditRecords_map_other Effect.invalidate _ (fun _ => rfl)]
    have hm : ∀ l, auditRecords (Effect.message Message.followingWasDeposited :: l)
        = auditRecords l := fun l => rfl
    rw [hm, auditRecords_depositedMessages]
    cases auditOn
    · rfl
    · simp only [if_true, List.append_nil]
      exact auditRecords_map_audit _ _ (fun _ => rfl)

/-- The audit inserts of `DepositAllReagentsForCategory`. -/
theorem DepositAllReagentsForCategory_auditRecords (K : HostEnums) (catalog : Catalog)
    (auditOn : Bool) (item_subclass : Nat) (store : Store) (inventory : Inventory) :
    auditRecords (DepositAllReagentsForCategory K catalog auditOn item_subclass store inventory).1
      = if auditOn then
          (AccumulateInventory K inventory (some item_subclass)).1.addedCounts.map (fun kv =>
            Effect.audit AuditAction.DEPOSIT kv.1 item_subclass kv.2)
        else [] := by
  unfold DepositAllReagentsForCategory
  simp only
  by_cases he : (AccumulateInventory K inventory (some item_subclass)).1.addedCounts = []
  · rw [if_pos he, he]
    cases auditOn <;> rfl
  · rw [if_neg he]
    simp only [auditRecords_append, auditRecords_FlushReagentState]
    have hm : ∀ l, auditRecords (Effect.invalidate item_subclass
        :: Effect.message Message.followingWasDeposited :: l) = auditRecords l := fun l => rfl
    rw [hm, auditRecords_depositedMessages]
    cases auditOn
    · rfl
    · simp only [if_true, List.append_nil]
      exact auditRecords_map_audit _ _ (fun _ => rfl)

/-- Among the audit inserts built from a map with increasing keys, the ones for
item `k` are the one built from its entry, if it has one. -/
theorem filter_audit_map (g : Nat → Nat) (k : Nat) (m : UMap) (hs : UMap.Sorted m) :
    (m.map (fun kv => Effect.audit AuditAction.DEPOSIT kv.1 (g kv.1) kv.2)).filter
        (fun e => e.auditEntry == some k)
      = match UMap.find k m with
        | some v => [Effect.audit AuditAction.DEPOSIT k (g k) v]
        | none => [] := by
  induction m with
  | nil => rfl
  | cons hd tl ih =>
    obtain ⟨k', v'⟩ := hd
    obtain ⟨h1, h2⟩ := UMap.sorted_cons.mp hs
    simp only at h1
    have hf : UMap.find k ((k', v') :: tl)
        = if k < k' then none else if k = k' then some v' else UMap.find k tl := rfl
    rw [List.map_cons, List.filter_cons, ih h2, hf]
    by_cases c1 : k < k'
    · have hn : UMap.find k tl = none :=
        UMap.find_eq_none_of_lt (fun q hq => Nat.lt_trans c1 (h1 q hq))
      have hne : ¬ k' = k := by omega
      simp [c1, hn, Effect.auditEntry, hne]
    · by_cases c2 : k = k'
      · subst c2
        have hn : UMap.find k tl = none := UMap.find_eq_none_of_lt h1
        simp [hn, Effect.auditEntry]
      · have hne : ¬ k' = k := fun h => c2 h.symm
        simp [c1, c2, Effect.auditEntry, hne]

theorem AccumulateInventory_find_added (K : HostEnums) (f : Option Nat) (k : Nat)
    (inventory : Inventory) :
    UMap.find k (AccumulateInventory K inventory f).1.addedCounts =
      match categoryOf K f k inventory with
      | some _ => some (removedQuantity K f k inventory % U32)
      | none => none := by
  unfold AccumulateInventory
  rw [accumulateFrom_find_added]
  cases categoryOf K f k inventory with
  | none => rfl
  | some s => simp [UMap.get, UMap.find]

theorem AccumulateInventory_find_subclass (K : HostEnums) (f : Option Nat) (k : Nat)
    (inventory : Inventory) :
    UMap.find k (AccumulateInventory K inventory f).1.subclassByEntry
      = categoryOf K f k inventory := by
  unfold AccumulateInventory
  rw [accumulateFrom_find_subclass]
  rfl

theorem AccumulateInventory_nothing_taken (K : HostEnums) (f : Option Nat)
    (inventory : Inventory) (h : ∀ slot ∈ inventory, eligibleStack K f slot = none) :
    (AccumulateInventory K inventory f).1.addedCounts = [] := by
  cases hm : (AccumulateInventory K inventory f).1.addedCounts with
  | nil => rfl
  | cons hd tl =>
    exfalso
    have hs := AccumulateInventory_sorted K inventory f
    have hf : UMap.find hd.1 (AccumulateInventory K inventory f).1.addedCounts = some hd.2 :=
      UMap.find_of_mem hs (by rw [hm]; exact List.mem_cons_self _ _)
    rw [AccumulateInventory_find_added] at hf
    have hn : categoryOf K f hd.1 inventory = none :=
      (categoryOf_eq_none_iff K f hd.1 inventory).mpr
        (fun slot hslot sub count hx => by rw [h slot hslot] at hx; cases hx)
    rw [hn] at hf
    cases hf

theorem DepositAllReagents_auditRecordsOn (K : HostEnums) (catalog : Catalog) (store : Store)
    (inventory : Inventory) (k : Nat) :
    auditRecordsOn k (DepositAllReagents K catalog true store inventory).1 =
      match categoryOf K none k inventory with
      | some sub =>
        [Effect.audit AuditAction.DEPOSIT k sub (removedQuantity K none k inventory % U32)]
      | none => [] := by
  unfold auditRecordsOn
  rw [DepositAllReagents_auditRecords, if_pos rfl]
  rw [filter_audit_map
    (fun j => UMap.get j (AccumulateInventory K inventory none).1.subclassByEntry) k _
    (AccumulateInventory_sorted K inventory none)]
  rw [AccumulateInventory_find_added]
  simp only [UMap.get, AccumulateInventory_find_subclass]
  cases categoryOf K none k inventory with
  | none => rfl
  | some s => rfl

theorem DepositAllReagentsForCategory_auditRecordsOn (K : HostEnums) (catalog : Catalog)
    (item_subclass : Nat) (store : Store) (inventory : Inventory) (k : Nat) :
    auditRecordsOn k
        (DepositAllReagentsForCategory K catalog true item_subclass store inventory).1 =
      match categoryOf K (some item_subclass) k inventory with
      | some _ =>
        [Effect.audit AuditAction.DEPOSIT k item_subclass
          (removedQuantity K (some item_subclass) k inventory % U32)]
      | none => [] := by
  unfold auditRecordsOn
  rw [DepositAllReagentsForCategory_auditRecords, if_pos rfl]
  rw [filter_audit_map (fun _ => item_subclass) k _
    (AccumulateInventory_sorted K inventory (some item_subclass))]
  rw [AccumulateInventory_find_added]
  cases categoryOf K (some item_subclass) k inventory with
  | none => rfl
  | some s => rfl

theorem DepositAllReagents_inventory (K : HostEnums) (catalog : Catalog) (auditOn : Bool)
    (store : Store) (inventory : Inventory) :
    (DepositAllReagents K catalog auditOn store inventory).2
      = inventory.map (fun slot => if (eligibleStack K none slot).isSome then none else slot) := by
  unfold DepositAllReagents
  simp only
  split_ifs <;> exact accumulateFrom_inventory K none inventory _

theorem DepositAllReagentsForCategory_inventory (K : HostEnums) (catalog : Catalog)
    (auditOn : Bool) (item_subclass : Nat) (store : Store) (inventory : Inventory) :
    (DepositAllReagentsForCategory K catalog auditOn item_subclass store inventory).2
      = inventory.map (fun slot =>
          if (eligibleStack K (some item_subclass) slot).isSome then none else slot) := by
  unfold DepositAllReagentsForCategory
  simp only
  split_ifs <;> exact accumulateFrom_inventory K (some item_subclass) inventory _

/-- Every audit insert of a flow is an insert for some item. -/
theorem auditRecords_covered (effects : List Effect) (e : Effect)
    (h : e ∈ auditRecords effects) : ∃ k, e ∈ auditRecordsOn k effects := by
  have hm := List.mem_filter.mp h
  cases e with
  | audit action entry subclass delta =>
    exact ⟨entry, List.mem_filter.mpr ⟨h, by simp [Effect.auditEntry]⟩⟩
  | _ => simp [Effect.isAudit] at hm

/-- C14 at three full stacks of item 300, stack size 2147483646: the deposit
flows destroy the three stacks, 6442450938 of item 300, and the one audit
record they append has delta 2147483642, the sum in `uint32`. -/
theorem DepositAllReagents_audit_delta_wraps :
    removedQuantity exampleEnums none 300 bulkInventory = 6442450938 ∧
    (DepositAllReagents exampleEnums bulkCatalog true [] bulkInventory).2
      = [none, none, none] ∧
    auditRecords (DepositAllReagents exampleEnums bulkCatalog true [] bulkInventory).1
      = [Effect.audit AuditAction.DEPOSIT 300 5 2147483642] ∧
    removedQuantity exampleEnums (some 5) 300 bulkInventory = 6442450938 ∧
    auditRecords (DepositAllReagentsForCategory exampleEnums bulkCatalog true 5 []
      bulkInventory).1 = [Effect.audit AuditAction.DEPOSIT 300 5 2147483642] := by
  refine ⟨by decide, by decide, by decide, by decide, by decide⟩

/-- C14, amended: audit records of the deposit flows. With auditing disabled
`DepositAllReagents` and `DepositAllReagentsForCategory` append no audit
record, and with auditing enabled they append none when no stack is taken.
With auditing enabled they append, for every item id of which a stack is
taken, exactly one audit record: action DEPOSIT, the category computed for the
item (in the category flow the category of the call, which is the category of
every stack taken), and delta the quantity removed for that item modulo
`2^32`, which is the quantity itself when that is below `2^32`; for an item id
of which no stack is taken they append none. The stacks taken are the ones
destroyed in the inventory. -/
theorem deposit_audit_records (K : HostEnums) (catalog : Catalog) (item_subclass : Nat)
    (store : Store) (inventory : Inventory) :
    auditRecords (DepositAllReagents K catalog false store inventory).1 = [] ∧
    auditRecords
      (DepositAllReagentsForCategory K catalog false item_subclass store inventory).1 = [] ∧
    ((∀ slot ∈ inventory, eligibleStack K none slot = none) →
      auditRecords (DepositAllReagents K catalog true store inventory).1 = []) ∧
    ((∀ slot ∈ inventory, eligibleStack K (some item_subclass) slot = none) →
      auditRecords
        (DepositAllReagentsForCategory K catalog true item_subclass store inventory).1 = []) ∧
    (∀ k,
      auditRecordsOn k (DepositAllReagents K catalog true store inventory).1 =
        (match categoryOf K none k inventory with
          | some sub =>
            [Effect.audit AuditAction.DEPOSIT k sub (removedQuantity K none k inventory % U32)]
          | none => []) ∧
      auditRecordsOn k
          (DepositAllReagentsForCategory K catalog true item_subclass store inventory).1 =
        (match categoryOf K (some item_subclass) k inventory with
          | some _ =>
            [Effect.audit AuditAction.DEPOSIT k item_subclass
              (removedQuantity K (some item_subclass) k inventory % U32)]
          | none => [])) ∧
    (∀ k sub, categoryOf K none k inventory = some sub →
      removedQuantity K none k inventory < U32 →
      auditRecordsOn k (DepositAllReagents K catalog true store inventory).1
        = [Effect.audit AuditAction.DEPOSIT k sub (removedQuantity K none k inventory)]) ∧
    (∀ k sub, categoryOf K (some item_subclass) k inventory = some sub →
      removedQuantity K (some item_subclass) k inventory < U32 →
      sub = item_subclass ∧
      auditRecordsOn k
          (DepositAllReagentsForCategory K catalog true item_subclass store inventory).1
        = [Effect.audit AuditAction.DEPOSIT k item_subclass
            (removedQuantity K (some item_subclass) k inventory)]) ∧
    (∀ f k, (categoryOf K f k inventory = none ↔
        ∀ slot ∈ inventory, ∀ sub count, eligibleStack K f slot ≠ some (k, sub, count)) ∧
      ∀ sub, categoryOf K f k inventory = some sub →
        ∃ slot ∈ inventory, ∃ count, eligibleStack K f slot = some (k, sub, count)) ∧
    (DepositAllReagents K catalog true store inventory).2
      = inventory.map (fun slot => if (eligibleStack K none slot).isSome then none else slot) ∧
    (DepositAllReagentsForCategory K catalog true item_subclass store inventory).2
      = inventory.map (fun slot =>
          if (eligibleStack K (some item_subclass) slot).isSome then none else slot) := by
  refine ⟨?_, ?_, ?_, ?_, ?_, ?_, ?_, ?_, ?_, ?_⟩
  · rw [DepositAllReagents_auditRecords]
    rfl
  · rw [DepositAllReagentsForCategory_auditRecords]
    rfl
  · intro h
    rw [DepositAllReagents_auditRecords, AccumulateInventory_nothing_taken K none inventory h]
    rfl
  · intro h
    rw [DepositAllReagentsForCategory_auditRecords,
      AccumulateInventory_nothing_taken K (some item_subclass) inventory h]
    rfl
  · intro k
    exact ⟨DepositAllReagents_auditRecordsOn K catalog store inventory k,
      DepositAllReagentsForCategory_auditRecordsOn K catalog item_subclass store inventory k⟩
  · intro k sub hc hlt
    rw [DepositAllReagents_auditRecordsOn, hc]
    simp only
    rw [Nat.mod_eq_of_lt hlt]
  · intro k sub hc hlt
    obtain ⟨slot, _, count, hs⟩ := categoryOf_mem K (some item_subclass) k sub inventory hc
    refine ⟨eligibleStack_filter K item_subclass slot k sub count hs, ?_⟩
    rw [DepositAllReagentsForCategory_auditRecordsOn, hc]
    simp only
    rw [Nat.mod_eq_of_lt hlt]
  · intro f k
    exact ⟨categoryOf_eq_none_iff K f k inventory, fun sub h => categoryOf_mem K f k sub inventory h⟩
  · exact DepositAllReagents_inventory K catalog true store inventory
  · exact DepositAllReagentsForCategory_inventory K catalog true item_subclass store inventory

/-- Witness of C14: two stacks of item 100 (20 and 10) and 15 of the gem 200
in the inventory. `DepositAllReagents` appends one record of delta 30 in
category 5 for item 100. -/
theorem deposit_audit_records_witness :
    categoryOf exampleEnums none 100
      [some ⟨some itemA, 20⟩, some ⟨some gemB, 15⟩, some ⟨some itemA, 10⟩] = some 5 ∧
    removedQuantity exampleEnums none 100
      [some ⟨some itemA, 20⟩, some ⟨some gemB, 15⟩, some ⟨some itemA, 10⟩] = 30 ∧
    auditRecordsOn 100 (DepositAllReagents exampleEnums itemACatalog true [⟨100, 5, 45⟩]
      [some ⟨some itemA, 20⟩, some ⟨some gemB, 15⟩, some ⟨some itemA, 10⟩]).1
      = [Effect.audit AuditAction.DEPOSIT 100 5
          (removedQuantity exampleEnums none 100
            [some ⟨some itemA, 20⟩, some ⟨some gemB, 15⟩, some ⟨some itemA, 10⟩])] ∧
    auditRecords (DepositAllReagents exampleEnums itemACatalog true [⟨100, 5, 45⟩]
      [some ⟨some itemA, 20⟩, some ⟨some gemB, 15⟩, some ⟨some itemA, 10⟩]).1
      = [Effect.audit AuditAction.DEPOSIT 100 5 30, Effect.audit AuditAction.DEPOSIT 200 4 15] ∧
    auditRecords (DepositAllReagentsForCategory exampleEnums itemACatalog true 4 [⟨100, 5, 45⟩]
      [some ⟨some itemA, 20⟩, some ⟨some gemB, 15⟩, some ⟨some itemA, 10⟩]).1
      = [Effect.audit AuditAction.DEPOSIT 200 4 15] :=
  ⟨by decide, by decide,
    (deposit_audit_records exampleEnums itemACatalog 4 [⟨100, 5, 45⟩]
      [some ⟨some itemA, 20⟩, some ⟨some gemB, 15⟩, some ⟨some itemA, 10⟩]).2.2.2.2.2.1
      100 5 (by decide) (by decide),
    by decide, by decide⟩

/-! ## Requests without a template, and the order of requests -/

theorem simulateRequest_no_template (catalog : Catalog) (s : SimState) (i n : Nat)
    (h : catalog i = none) : simulateRequest catalog s (i, n) = s :=
  simulateRequest_skip catalog s (i, n) (fun temp ht => by
    simp only at ht
    rw [h] at ht
    cases ht)

theorem foldl_simulateRequest_filter (catalog : Catalog) (i : Nat) (h : catalog i = none)
    (items : List (Nat × Nat)) (s : SimState) :
    items.foldl (simulateRequest catalog) s
      = (items.filter (fun pr => decide (pr.1 ≠ i))).foldl (simulateRequest catalog) s := by
  induction items generalizing s with
  | nil => rfl
  | cons pr rest ih =>
    obtain ⟨k, n⟩ := pr
    by_cases hk : k = i
    · subst hk
      simp only [List.foldl_cons, List.filter_cons, ne_eq, not_true_eq_false, decide_False,
        Bool.false_eq_true, if_false]
      rw [simulateRequest_no_template catalog s k n h]
      exact ih s
    · simp only [List.foldl_cons, List.filter_cons, ne_eq, hk, not_false_eq_true, decide_True,
        if_true]
      exact ih _

/-- C24: missing metadata skips only that item. If item `i` has no template, a
request for `i` leaves the whole simulator state as it is (no partial stack
filled, no empty slot consumed, no grant); `SimulateBatchAdd` has no entry for
`i`; and the result, like the final slot table and the final partial stacks, is
what it is for the same list without that request, and for the list without
any request for `i`. -/
theorem SimulateBatchAdd_missing_template_skipped (catalog : Catalog)
    (partials : Nat → List Nat) (table : SlotTable) (xs ys : List (Nat × Nat)) (i n : Nat)
    (h : catalog i = none) :
    (∀ s, simulateRequest catalog s (i, n) = s) ∧
    UMap.find i (SimulateBatchAdd catalog partials table (xs ++ (i, n) :: ys)) = none ∧
    SimulateBatchAdd catalog partials table (xs ++ (i, n) :: ys)
      = SimulateBatchAdd catalog partials table (xs ++ ys) ∧
    (simulateRun catalog partials table (xs ++ (i, n) :: ys)).emptySlotsByFamily
      = (simulateRun catalog partials table (xs ++ ys)).emptySlotsByFamily ∧
    (simulateRun catalog partials table (xs ++ (i, n) :: ys)).partials
      = (simulateRun catalog partials table (xs ++ ys)).partials ∧
    ∀ items, SimulateBatchAdd catalog partials table items
      = SimulateBatchAdd catalog partials table (items.filter (fun pr => decide (pr.1 ≠ i))) := by
  have hrun : simulateRun catalog partials table (xs ++ (i, n) :: ys)
      = simulateRun catalog partials table (xs ++ ys) := by
    unfold simulateRun
    rw [List.foldl_append, List.foldl_cons, simulateRequest_no_template catalog _ i n h,
      List.foldl_append]
  refine ⟨fun s => simulateRequest_no_template catalog s i n h, ?_, ?_, ?_, ?_, ?_⟩
  · have hf := foldl_simulateRequest_find_skip catalog (xs ++ (i, n) :: ys)
      { partials := partials, emptySlotsByFamily := table, granted := [] } i
      (fun temp ht => by rw [h] at ht; cases ht)
    simpa [SimulateBatchAdd, simulateRun, UMap.find] using hf
  · unfold SimulateBatchAdd
    rw [hrun]
  · rw [hrun]
  · rw [hrun]
  · intro items
    unfold SimulateBatchAdd simulateRun
    rw [← foldl_simulateRequest_filter catalog i h items _]

/-- Witness of C24: item 5 has no template in the example catalog; its request
between those of items 7 and 8 changes nothing. -/
theorem SimulateBatchAdd_missing_template_skipped_witness :
    exampleCatalog 5 = none ∧
    SimulateBatchAdd exampleCatalog examplePartials [(0, 1), (2, 1)]
        ([(7, 8)] ++ (5, 10) :: [(8, 45)])
      = SimulateBatchAdd exampleCatalog examplePartials [(0, 1), (2, 1)] ([(7, 8)] ++ [(8, 45)]) ∧
    SimulateBatchAdd exampleCatalog examplePartials [(0, 1), (2, 1)] [(7, 8), (5, 10), (8, 45)]
      = [(7, 8), (8, 20)] :=
  ⟨by decide,
    (SimulateBatchAdd_missing_template_skipped exampleCatalog examplePartials [(0, 1), (2, 1)]
      [(7, 8)] [(8, 45)] 5 10 (by decide)).2.2.1,
    by decide⟩

/-- C25: earlier requests have allocation priority in `SimulateBatchAdd`. The
run over `xs ++ ys` is the run over `xs` continued with `ys`, so what the
requests of `xs` are granted is settled before any request of `ys` is looked
at; and for every item that does not occur in `ys` the entry of the result is
the same for `xs ++ ys` as for `xs`. -/
theorem SimulateBatchAdd_earlier_requests_first (catalog : Catalog)
    (partials : Nat → List Nat) (table : SlotTable) (xs ys : List (Nat × Nat)) :
    simulateRun catalog partials table (xs ++ ys)
      = ys.foldl (simulateRequest catalog) (simulateRun catalog partials table xs) ∧
    (∀ j, j ∉ ys.map Prod.fst →
      UMap.find j (SimulateBatchAdd catalog partials table (xs ++ ys))
        = UMap.find j (SimulateBatchAdd catalog partials table xs) ∧
      UMap.get j (SimulateBatchAdd catalog partials table (xs ++ ys))
        = UMap.get j (SimulateBatchAdd catalog partials table xs)) := by
  have hrun : simulateRun catalog partials table (xs ++ ys)
      = ys.foldl (simulateRequest catalog) (simulateRun catalog partials table xs) := by
    unfold simulateRun
    rw [List.foldl_append]
  refine ⟨hrun, ?_⟩
  intro j hj
  have hf : UMap.find j (SimulateBatchAdd catalog partials table (xs ++ ys))
      = UMap.find j (SimulateBatchAdd catalog partials table xs) := by
    unfold SimulateBatchAdd
    rw [hrun]
    exact foldl_simulateRequest_find_notin catalog ys _ j hj
  exact ⟨hf, by simp only [UMap.get, hf]⟩

/-- Witness of C25: with one unrestricted slot and one slot of family 2, item 8
asked first gets 40 whether or not item 7 is asked after it; asked after item
7, which takes the unrestricted slot, it gets 20. -/
theorem SimulateBatchAdd_earlier_requests_first_witness :
    8 ∉ [(7, 30)].map Prod.fst ∧
    UMap.get 8 (SimulateBatchAdd exampleCatalog noPartials [(0, 1), (2, 1)]
        ([(8, 45)] ++ [(7, 30)]))
      = UMap.get 8 (SimulateBatchAdd exampleCatalog noPartials [(0, 1), (2, 1)] [(8, 45)]) ∧
    SimulateBatchAdd exampleCatalog noPartials [(0, 1), (2, 1)] [(8, 45)] = [(8, 40)] ∧
    SimulateBatchAdd exampleCatalog noPartials [(0, 1), (2, 1)] [(8, 45), (7, 30)]
      = [(8, 40)] ∧
    SimulateBatchAdd exampleCatalog noPartials [(0, 1), (2, 1)] [(7, 30), (8, 45)]
      = [(7, 20), (8, 20)] :=
  ⟨by decide,
    ((SimulateBatchAdd_earlier_requests_first exampleCatalog noPartials [(0, 1), (2, 1)]
      [(8, 45)] [(7, 30)]).2 8 (by decide)).2,
    by decide, by decide, by decide⟩

/-! ## The grant of a single request -/

theorem fillPartialStacks_find_exact (entry : Nat) (vec : List Nat) (remaining : Nat) (g : UMap)
    (hp : ∀ x ∈ vec, 0 < x)
    (hb : UMap.get entry g + min remaining (freeTotal vec) < U32) :
    UMap.find entry (fillPartialStacks entry vec remaining g).2.2
      = if min remaining (freeTotal vec) = 0 then UMap.find entry g
        else some (UMap.get entry g + min remaining (freeTotal vec)) := by
  induction vec generalizing remaining g with
  | nil => simp [fillPartialStacks, freeTotal]
  | cons fs rest ih =>
    have hfs : 0 < fs := hp fs (List.mem_cons_self _ _)
    have hsum : freeTotal (fs :: rest) = fs + freeTotal rest := by simp [freeTotal]
    rw [hsum] at hb ⊢
    unfold fillPartialStacks
    by_cases h0 : remaining = 0
    · simp [h0]
    · simp only [h0, if_false]
      have hfind : UMap.find entry (UMap.addTo entry (min fs remaining) g)
          = some (UMap.get entry g + min fs remaining) := by
        rw [UMap.find_addTo_self, Nat.mod_eq_of_lt (by omega)]
      have hget : UMap.get entry (UMap.addTo entry (min fs remaining) g)
          = UMap.get entry g + min fs remaining := by
        simp only [UMap.get, hfind, Option.getD_some]
      have hih := ih (remaining - min fs remaining) (UMap.addTo entry (min fs remaining) g)
        (fun x hx => hp x (List.mem_cons_of_mem _ hx)) (by rw [hget]; omega)
      rw [hih, hget, hfind]
      have hne : ¬ min remaining (fs + freeTotal rest) = 0 := by omega
      rw [if_neg hne]
      split_ifs with hz
      · congr 1
        omega
      · congr 1
        omega

theorem placeStep_eq_none {entry maxStack bagFamily remaining : Nat} {table : SlotTable}
    {g : UMap} (h : placeStep entry maxStack bagFamily remaining table g = none) :
    takeSpecialty bagFamily table = none ∧ takeGeneric table = none := by
  unfold placeStep at h
  cases hs : takeSpecialty bagFamily table with
  | some t =>
    rw [hs] at h
    cases h
  | none =>
    rw [hs] at h
    cases hg : takeGeneric table with
    | some t =>
      rw [hg] at h
      cases h
    | none => exact ⟨rfl, rfl⟩

theorem placeLoop_find_exact (entry maxStack bagFamily : Nat) (hm : maxStack ≠ 0)
    (fuel remaining : Nat) (hf : remaining ≤ fuel) (table : SlotTable) (g : UMap)
    (hr : SlotTable.InRange table) (hnd : (table.map Prod.fst).Nodup)
    (hb : UMap.get entry g + min remaining (maxStack * compatibleSlots bagFamily table) < U32) :
    UMap.find entry (placeLoop entry maxStack bagFamily fuel remaining table g).2.2
      = if min remaining (maxStack * compatibleSlots bagFamily table) = 0 then UMap.find entry g
        else some (UMap.get entry g
          + min remaining (maxStack * compatibleSlots bagFamily table)) := by
  induction fuel generalizing remaining table g with
  | zero =>
    have h0 : remaining = 0 := by omega
    simp [placeLoop, h0]
  | succ fuel ih =>
    unfold placeLoop
    by_cases h0 : remaining = 0
    · simp [h0]
    · simp only [h0, if_false]
      cases hs : placeStep entry maxStack bagFamily remaining table g with
      | none =>
        obtain ⟨h1, h2⟩ := placeStep_eq_none hs
        have hc : compatibleSlots bagFamily table = 0 := by
          rw [compatibleSlots_split, (takeSpecialty_none_iff bagFamily table).mp h1,
            (takeGeneric_none_iff hnd).mp h2]
        simp [hc]
      | some r =>
        simp only
        obtain ⟨hr1, hr2, hr3⟩ := placeStep_some hs
        have hcount : compatibleSlots bagFamily r.2.1 + 1 = compatibleSlots bagFamily table ∧
            SlotTable.InRange r.2.1 ∧ r.2.1.map Prod.fst = table.map Prod.fst := by
          rw [compatibleSlots_split, compatibleSlots_split]
          rcases hr3 with h | ⟨_, h⟩
          · obtain ⟨a, b, c, d⟩ := takeSpecialty_counts hr h
            exact ⟨by omega, c, d⟩
          · obtain ⟨a, b, c, d⟩ := takeGeneric_counts bagFamily hr h
            exact ⟨by omega, c, d⟩
        obtain ⟨hc1, hc2, hc3⟩ := hcount
        have hmul : maxStack * compatibleSlots bagFamily table
            = maxStack * compatibleSlots bagFamily r.2.1 + maxStack := by
          rw [← hc1, Nat.mul_succ]
        rw [hmul] at hb ⊢
        have hmpos : 0 < maxStack := Nat.pos_of_ne_zero hm
        have hfind : UMap.find entry r.2.2 = some (UMap.get entry g + min maxStack remaining) := by
          rw [hr2, UMap.find_addTo_self, Nat.mod_eq_of_lt (by omega)]
        have hget : UMap.get entry r.2.2 = UMap.get entry g + min maxStack remaining := by
          simp only [UMap.get, hfind, Option.getD_some]
        have hih := ih r.1 (by rw [hr1]; omega) r.2.1 r.2.2 hc2 (by rw [hc3]; exact hnd)
          (by rw [hget, hr1]; omega)
        rw [hih, hget, hfind, hr1]
        have hne : ¬ min remaining (maxStack * compatibleSlots bagFamily r.2.1 + maxStack) = 0 := by
          omega
        rw [if_neg hne]
        split_ifs with hz
        · congr 1
          omega
        · congr 1
          omega

/-- C26: exact grant of a single request. For a snapshot as the scan leaves it
(one table entry per mask with `uint32` counts, every partial stack with free
space) and a request list holding one request `(i, n)` with `n` a `uint32`,
whose item has a template with stack size `m > 0`, `SimulateBatchAdd` grants
exactly `min(n, P + m * E)`, where `P` is the free capacity of the partial
stacks of `i` and `E` the number of empty slots whose mask is 0 or shares a bit
with the family of `i`. The result has an entry for `i` if and only if that
value is positive, and no entry for any other item. -/
theorem SimulateBatchAdd_single_request_exact (catalog : Catalog) (partials : Nat → List Nat)
    (table : SlotTable) (i n : Nat) (temp : ItemTemplate)
    (ht : catalog i = some temp) (hm : 0 < temp.maxStack) (hn : n < U32)
    (hr : SlotTable.InRange table) (hnd : (table.map Prod.fst).Nodup)
    (hp : ∀ x ∈ partials i, 0 < x) :
    UMap.get i (SimulateBatchAdd catalog partials table [(i, n)])
      = min n (freeTotal (partials i) + temp.maxStack * compatibleSlots temp.bagFamily table) ∧
    ((UMap.find i (SimulateBatchAdd catalog partials table [(i, n)])).isSome = true ↔
      0 < min n (freeTotal (partials i)
        + temp.maxStack * compatibleSlots temp.bagFamily table)) ∧
    (∀ j, j ≠ i → UMap.find j (SimulateBatchAdd catalog partials table [(i, n)]) = none) := by
  have hm0 : temp.maxStack ≠ 0 := Nat.pos_iff_ne_zero.mp hm
  have hfill := fillPartialStacks_find_exact i (partials i) n [] hp
    (by simp only [UMap.get, UMap.find, Option.getD_none]; omega)
  have hrem := fillPartialStacks_remaining i (partials i) n []
  have hgfill : UMap.get i (fillPartialStacks i (partials i) n []).2.2
      = min n (freeTotal (partials i)) := by
    simp only [UMap.get, hfill, UMap.find]
    split_ifs with hz
    · simp [hz]
    · simp
  have hplace := placeLoop_find_exact i temp.maxStack temp.bagFamily hm0
    (fillPartialStacks i (partials i) n []).2.1 (fillPartialStacks i (partials i) n []).2.1
    (Nat.le_refl _) table (fillPartialStacks i (partials i) n []).2.2 hr hnd
    (by rw [hgfill, hrem]; omega)
  have hfind : UMap.find i (SimulateBatchAdd catalog partials table [(i, n)])
      = if min n (freeTotal (partials i)
            + temp.maxStack * compatibleSlots temp.bagFamily table) = 0 then none
        else some (min n (freeTotal (partials i)
            + temp.maxStack * compatibleSlots temp.bagFamily table)) := by
    simp only [SimulateBatchAdd, simulateRun, List.foldl_cons, List.foldl_nil, simulateRequest, ht,
      hm0, if_false]
    rw [hplace, hgfill, hfill, hrem]
    simp only [UMap.get, UMap.find, Option.getD_none, Nat.zero_add]
    by_cases h1 : min (n - freeTotal (partials i))
        (temp.maxStack * compatibleSlots temp.bagFamily table) = 0
    · rw [if_pos h1]
      by_cases h2 : min n (freeTotal (partials i)) = 0
      · rw [if_pos h2, if_pos (by omega)]
      · rw [if_neg h2, if_neg (by omega)]
        congr 1
        omega
    · rw [if_neg h1, if_neg (by omega)]
      congr 1
      omega
  refine ⟨?_, ?_, ?_⟩
  · simp only [UMap.get, hfind]
    split_ifs with hz
    · simp [hz]
    · simp
  · rw [hfind]
    split_ifs with hz
    · simp [hz]
    · simp only [Option.isSome_some, true_iff]
      omega
  · intro j hj
    have h := foldl_simulateRequest_find_notin catalog [(i, n)]
      { partials := partials, emptySlotsByFamily := table, granted := [] } j (by simpa using hj)
    simpa [SimulateBatchAdd, simulateRun, UMap.find] using h

/-- Witness of C26: item 7 (stack size 20, no specialty family) with one partial
stack of free space 5, one unrestricted empty slot and one of family 2: a
request of 45 is granted `5 + 20 * 1 = 25`, a request of 8 is granted 8, and a
request of 0 leaves the result without an entry. -/
theorem SimulateBatchAdd_single_request_exact_witness :
    exampleCatalog 7 = some ⟨7, 7, 5, 20, 0⟩ ∧
    UMap.get 7 (SimulateBatchAdd exampleCatalog examplePartials [(0, 1), (2, 1)] [(7, 45)])
      = min 45 (freeTotal (examplePartials 7)
          + (⟨7, 7, 5, 20, 0⟩ : ItemTemplate).maxStack
            * compatibleSlots (⟨7, 7, 5, 20, 0⟩ : ItemTemplate).bagFamily [(0, 1), (2, 1)]) ∧
    SimulateBatchAdd exampleCatalog examplePartials [(0, 1), (2, 1)] [(7, 45)] = [(7, 25)] ∧
    SimulateBatchAdd exampleCatalog examplePartials [(0, 1), (2, 1)] [(7, 8)] = [(7, 8)] ∧
    SimulateBatchAdd exampleCatalog examplePartials [(0, 1), (2, 1)] [(7, 0)] = [] :=
  ⟨by decide,
    (SimulateBatchAdd_single_request_exact exampleCatalog examplePartials [(0, 1), (2, 1)] 7 45
      ⟨7, 7, 5, 20, 0⟩ (by decide) (by decide) (by decide)
      (by unfold SlotTable.InRange; decide) (by decide) (by decide)).1,
    by decide, by decide, by decide⟩

/-! ## Category summaries and storage keys -/

/-- After a call of `GetCategorySummary` for a category the cache has an entry
for it, and a second call for the same category returns that entry whatever
storage key it is given. -/
theorem GetCategorySummary_second_call (query : Nat → Nat → Nat → Option (Nat × Nat))
    (subclass a1 g1 a2 g2 : Nat) (st : CacheState) :
    (GetCategorySummary query subclass a2 g2
        (GetCategorySummary query subclass a1 g1 st).2).1
      = (GetCategorySummary query subclass a1 g1 st).1 := by
  unfold GetCategorySummary
  cases hc : GetCachedCategorySummary subclass st with
  | some cached => simp [hc]
  | none =>
    cases hq : query subclass a1 g1 with
    | some r => simp [GetCachedCategorySummary, StoreCategorySummary]
    | none => simp [GetCachedCategorySummary, StoreCategorySummary]

/-- A call of `GetCategorySummary` on a cache without an entry for the category
returns the count and the sum of the rows of that storage key and category. -/
theorem GetCategorySummary_fresh (db : Database) (subclass accountId guid : Nat)
    (st : CacheState) (h : GetCachedCategorySummary subclass st = none) :
    (GetCategorySummary (summaryQuery db) subclass accountId guid st).1
      = ((Store.rowsOfCategory subclass (db accountId guid)).length % U32,
          ((Store.rowsOfCategory subclass (db accountId guid)).map Row.amount).sum % U64) := by
  unfold GetCategorySummary
  rw [h]
  rfl

/-- A menu line shows what the cache holds for its category, whatever the
result rows of the requester are, unless they have a row for that category. -/
theorem OnGossipHelloCallback_no_rows (kCategories : List Nat) (st : CacheState) :
    OnGossipHelloCallback kCategories true true [] st
      = (kCategories.map (fun subclass =>
          match GetCachedCategorySummary subclass st with
          | some cached => (subclass, cached.1, cached.2)
          | none => (subclass, 0, 0)), st) := by
  simp [OnGossipHelloCallback]

/-- C21 at a failing input: the cache is empty and nothing is written. Key
`(1, 0)` holds 45 of item 100 in category 5, key `(2, 0)` holds no row. The
requester of key `(1, 0)` opens the main menu: the callback of `OnGossipHello`
stores `(1, 45)` under category 5 and shows it. Then the requester of key
`(2, 0)` opens the main menu: the query has no row, nothing is stored, and the
line of category 5 shows the cached `(1, 45)`, while the rows of key `(2, 0)`
in category 5 number 0 with sum 0, which is what the menu shows on an empty
cache. `GetCategorySummary` answers the same way: `(1, 45)` for key `(1, 0)`,
then the cached `(1, 45)` for key `(2, 0)`, and `(0, 0)` for key `(2, 0)` on an
empty cache. -/
theorem category_summary_answers_for_other_key :
    (OnGossipHelloCallback exampleCategories true true (groupSummaryQuery twoKeys 1 0)
      emptyCache).1.filter (fun line => line.1 == 5) = [(5, 1, 45)] ∧
    groupSummaryQuery twoKeys 2 0 = [] ∧
    (OnGossipHelloCallback exampleCategories true true (groupSummaryQuery twoKeys 2 0)
      (OnGossipHelloCallback exampleCategories true true (groupSummaryQuery twoKeys 1 0)
        emptyCache).2).1.filter (fun line => line.1 == 5) = [(5, 1, 45)] ∧
    ((Store.rowsOfCategory 5 (twoKeys 2 0)).length,
      ((Store.rowsOfCategory 5 (twoKeys 2 0)).map Row.amount).sum) = (0, 0) ∧
    (OnGossipHelloCallback exampleCategories true true (groupSummaryQuery twoKeys 2 0)
      emptyCache).1.filter (fun line => line.1 == 5) = [(5, 0, 0)] ∧
    (GetCategorySummary (summaryQuery twoKeys) 5 1 0 emptyCache).1 = (1, 45) ∧
    (GetCategorySummary (summaryQuery twoKeys) 5 2 0
      (GetCategorySummary (summaryQuery twoKeys) 5 1 0 emptyCache).2).1 = (1, 45) ∧
    (GetCategorySummary (summaryQuery twoKeys) 5 2 0 emptyCache).1 = (0, 0) := by
  refine ⟨by decide, by decide, by decide, by decide, by decide, by decide, by decide,
    by decide⟩

/-! ## Order of the effects of a flow -/

theorem pairwise_of_left {α : Type} {R : α → α → Prop} (l : List α)
    (h : ∀ a ∈ l, ∀ b, R a b) : l.Pairwise R := by
  induction l with
  | nil => exact List.Pairwise.nil
  | cons x rest ih =>
    exact List.Pairwise.cons (fun b _ => h x (List.mem_cons_self _ _) b)
      (ih (fun a ha b => h a (List.mem_cons_of_mem _ ha) b))

theorem pairwise_of_right {α : Type} {R : α → α → Prop} (l : List α)
    (h : ∀ a, ∀ b ∈ l, R a b) : l.Pairwise R := by
  induction l with
  | nil => exact List.Pairwise.nil
  | cons x rest ih =>
    exact List.Pairwise.cons (fun b hb => h x b (List.mem_cons_of_mem _ hb))
      (ih (fun a b hb => h a b (List.mem_cons_of_mem _ hb)))

/-- A list made of a part without effects of kind `q` followed by a part
without effects of kind `p` has every `p` before every `q`. -/
theorem allBefore_blocks (p q : Effect → Bool) (l1 l2 : List Effect)
    (h1 : ∀ e ∈ l1, q e = false) (h2 : ∀ e ∈ l2, p e = false) : allBefore p q (l1 ++ l2) := by
  unfold allBefore
  rw [List.pairwise_append]
  refine ⟨pairwise_of_left l1 ?_, pairwise_of_right l2 ?_, ?_⟩
  · intro a ha b hab
    rw [h1 a ha] at hab
    exact Bool.false_ne_true hab.1
  · intro a b hb hab
    rw [h2 b hb] at hab
    exact Bool.false_ne_true hab.2
  · intro a ha b _ hab
    rw [h1 a ha] at hab
    exact Bool.false_ne_true hab.1

theorem giveLoop_no_write {Inv : Type} (host : Host Inv) (entry stackSize : Nat)
    (fuel remainingToGive remainingBank : Nat) (inv : Inv) (any : Bool) :
    ∀ e ∈ (giveLoop host entry stackSize fuel remainingToGive remainingBank inv any).effects,
      e.isInvalidation = false ∧ e.isLedgerWrite = false ∧ e.isAudit = false := by
  induction fuel generalizing remainingToGive remainingBank inv any with
  | zero => simp [giveLoop]
  | succ fuel ih =>
    unfold giveLoop
    by_cases h0 : remainingToGive = 0
    · simp [h0]
    · simp only [h0, if_false]
      by_cases hc : host.canStoreNewItem inv entry (min stackSize remainingToGive) = true
      · simp only [hc, if_true]
        intro e he
        rcases List.mem_cons.mp he with he | he
        · subst he
          exact ⟨rfl, rfl, rfl⟩
        · rcases List.mem_cons.mp he with he | he
          · subst he
            exact ⟨rfl, rfl, rfl⟩
          · exact ih _ _ _ _ e he
      · simp only [hc]
        intro e he
        simp only [Bool.false_eq_true, if_false, List.mem_singleton] at he
        subst he
        exact ⟨rfl, rfl, rfl⟩

theorem ledgerWrite_no_invalidation (entry amount remainingBank : Nat) :
    ∀ e ∈ ledgerWrite entry amount remainingBank, e.isInvalidation = false := by
  intro e he
  unfold ledgerWrite at he
  split_ifs at he <;> simp at he <;> subst he <;> rfl

theorem withdrawAudit_no_invalidation (auditOn : Bool) (item_subclass entry allowed : Nat) :
    ∀ e ∈ withdrawAudit auditOn item_subclass entry allowed, e.isInvalidation = false := by
  intro e he
  unfold withdrawAudit at he
  split_ifs at he <;> simp at he
  subst he
  rfl

theorem withdrawRow_no_invalidation {Inv : Type} (host : Host Inv) (catalog : Catalog)
    (auditOn : Bool) (item_subclass : Nat) (sim : UMap) (inv : Inv) (any : Bool)
    (pr : Nat × Nat) :
    ∀ e ∈ (withdrawRow host catalog auditOn item_subclass sim inv any pr).effects,
      e.isInvalidation = false := by
  intro e he
  unfold withdrawRow at he
  simp only at he
  split_ifs at he with h0
  · simp at he
  · cases hc : catalog pr.1 with
    | none =>
      rw [hc] at he
      simp at he
    | some temp =>
      rw [hc] at he
      simp only [List.mem_append] at he
      rcases he with (he | he) | he
      · exact (giveLoop_no_write host _ _ _ _ _ _ _ e he).1
      · exact ledgerWrite_no_invalidation _ _ _ e he
      · exact withdrawAudit_no_invalidation _ _ _ _ e he

theorem withdrawRows_no_invalidation {Inv : Type} (host : Host Inv) (catalog : Catalog)
    (auditOn : Bool) (item_subclass : Nat) (sim : UMap) (items : List (Nat × Nat)) (inv : Inv)
    (any : Bool) :
    ∀ e ∈ (withdrawRows host catalog auditOn item_subclass sim items inv any).effects,
      e.isInvalidation = false := by
  induction items generalizing inv any with
  | nil => simp [withdrawRows]
  | cons pr rest ih =>
    intro e he
    unfold withdrawRows at he
    simp only [List.mem_append] at he
    rcases he with he | he
    · exact withdrawRow_no_invalidation host catalog auditOn item_subclass sim inv any pr e he
    · exact ih _ _ e he

theorem batch_no_invalidation (auditOn : Bool) (item_subclass : Nat) (sim : UMap)
    (items : List (Nat × Nat)) :
    ∀ e ∈ (items.map (batchRow auditOn item_subclass sim)).flatten,
      e.isInvalidation = false := by
  intro e he
  obtain ⟨l, hl, hel⟩ := List.mem_flatten.mp he
  obtain ⟨pr, _, hpr⟩ := List.mem_map.mp hl
  subst hpr
  unfold batchRow at hel
  simp only at hel
  split_ifs at hel with h0
  · simp at hel
  · rcases List.mem_append.mp hel with h | h
    · exact ledgerWrite_no_invalidation _ _ _ e h
    · exact withdrawAudit_no_invalidation _ _ _ _ e h
  · rcases List.mem_append.mp hel with h | h
    · exact ledgerWrite_no_invalidation _ _ _ e h
    · exact withdrawAudit_no_invalidation _ _ _ _ e h

/-- The effects of `WithdrawAllInCategory` are effects that are no invalidation,
followed by at most the one call of `InvalidateCategorySummary`. -/
theorem WithdrawAllInCategory_invalidation_last {Inv : Type} (host : Host Inv)
    (catalog : Catalog) (auditOn : Bool) (item_subclass : Nat) (store : Store) (inv : Inv) :
    ∃ l1 l2, (WithdrawAllInCategory host catalog auditOn item_subclass store inv).1 = l1 ++ l2 ∧
      (∀ e ∈ l1, e.isInvalidation = false) ∧
      (∀ e ∈ l2, e = Effect.invalidate item_subclass) := by
  unfold WithdrawAllInCategory
  simp only
  by_cases hrows : Store.rowsOfCategory item_subclass store = []
  · rw [if_pos hrows]
    refine ⟨[Effect.message Message.noReagentsToWithdraw], [], rfl, ?_, ?_⟩
    · intro e he
      simp only [List.mem_singleton] at he
      subst he
      rfl
    · intro e he
      cases he
  · rw [if_neg hrows]
    have hflag : ∀ e ∈ (if auditOn = true then [Effect.ensureAuditCleanup] else []),
        e.isInvalidation = false := by
      intro e he
      cases auditOn
      · simp at he
      · simp only [if_true, List.mem_singleton] at he
        subst he
        rfl
    generalize (if auditOn = true then [Effect.ensureAuditCleanup] else []) = flag at hflag ⊢
    split_ifs with hany
    · refine ⟨_, [], (List.append_nil _).symm, ?_, ?_⟩
      · intro e he
        rcases List.mem_append.mp he with h | h
        · exact withdrawRows_no_invalidation _ _ _ _ _ _ _ _ e h
        · simp only [List.mem_singleton] at h
          subst h
          rfl
      · intro e he
        cases he
    · refine ⟨_, [Effect.invalidate item_subclass], rfl, ?_, ?_⟩
      · intro e he
        rcases List.mem_append.mp he with h | h
        · rcases List.mem_append.mp h with h | h
          · exact withdrawRows_no_invalidation _ _ _ _ _ _ _ _ e h
          · exact batch_no_invalidation _ _ _ _ e h
        · exact hflag e h
      · intro e he
        simp only [List.mem_singleton] at he
        exact he

/-- Audit inserts, then ledger statements, then invalidations, then other
effects: every audit insert precedes every ledger statement, and both precede
every invalidation. -/
theorem allBefore_of_phases (A F I M : List Effect)
    (hA : ∀ e ∈ A, e.isLedgerWrite = false ∧ e.isInvalidation = false)
    (hF : ∀ e ∈ F, e.isAudit = false ∧ e.isInvalidation = false)
    (hI : ∀ e ∈ I, e.isAudit = false ∧ e.isLedgerWrite = false)
    (hM : ∀ e ∈ M, e.isAudit = false ∧ e.isLedgerWrite = false) :
    allBefore Effect.isAudit Effect.isLedgerWrite (A ++ F ++ I ++ M) ∧
    allBefore Effect.isLedgerWrite Effect.isInvalidation (A ++ F ++ I ++ M) ∧
    allBefore Effect.isAudit Effect.isInvalidation (A ++ F ++ I ++ M) := by
  have hAF : ∀ e ∈ A ++ F, e.isInvalidation = false := by
    intro e he
    rcases List.mem_append.mp he with h | h
    · exact (hA e h).2
    · exact (hF e h).2
  have hIM : ∀ e ∈ I ++ M, e.isAudit = false ∧ e.isLedgerWrite = false := by
    intro e he
    rcases List.mem_append.mp he with h | h
    · exact hI e h
    · exact hM e h
  refine ⟨?_, ?_, ?_⟩
  · rw [List.append_assoc, List.append_assoc]
    refine allBefore_blocks _ _ A (F ++ (I ++ M)) (fun e he => (hA e he).1) ?_
    intro e he
    rcases List.mem_append.mp he with h | h
    · exact (hF e h).1
    · exact (hIM e h).1
  · rw [List.append_assoc (A ++ F)]
    exact allBefore_blocks _ _ (A ++ F) (I ++ M) hAF (fun e he => (hIM e he).2)
  · rw [List.append_assoc (A ++ F)]
    exact allBefore_blocks _ _ (A ++ F) (I ++ M) hAF (fun e he => (hIM e he).1)

theorem depositedMessages_kinds (catalog : Catalog) (addedCounts : UMap) :
    ∀ e ∈ Effect.message Message.followingWasDeposited :: depositedMessages catalog addedCounts,
      e.isAudit = false ∧ e.isLedgerWrite = false := by
  intro e he
  rcases List.mem_cons.mp he with h | h
  · subst h
    exact ⟨rfl, rfl⟩
  · unfold depositedMessages at h
    obtain ⟨kv, _, hkv⟩ := List.mem_map.mp h
    subst hkv
    exact ⟨rfl, rfl⟩

theorem FlushReagentState_kinds (finalAmounts subclassByEntry : UMap) :
    ∀ e ∈ FlushReagentState finalAmounts subclassByEntry,
      e.isAudit = false ∧ e.isInvalidation = false := by
  intro e he
  unfold FlushReagentState at he
  obtain ⟨kv, _, hkv⟩ := List.mem_map.mp he
  subst hkv
  exact ⟨rfl, rfl⟩

theorem DepositAllReagents_order (K : HostEnums) (catalog : Catalog) (auditOn : Bool)
    (store : Store) (inventory : Inventory) :
    allBefore Effect.isAudit Effect.isLedgerWrite
      (DepositAllReagents K catalog auditOn store inventory).1 ∧
    allBefore Effect.isLedgerWrite Effect.isInvalidation
      (DepositAllReagents K catalog auditOn store inventory).1 ∧
    allBefore Effect.isAudit Effect.isInvalidation
      (DepositAllReagents K catalog auditOn store inventory).1 := by
  unfold DepositAllReagents
  simp only
  by_cases he : (AccumulateInventory K inventory none).1.addedCounts = []
  · rw [if_pos he]
    have h := allBefore_of_phases [] [] [] [Effect.message Message.noReagentsToDeposit]
      (by simp) (by simp) (by simp)
      (by intro e h; simp only [List.mem_singleton] at h; subst h; exact ⟨rfl, rfl⟩)
    simpa using h
  · rw [if_neg he]
    refine allBefore_of_phases _ _ _ _ ?_ (FlushReagentState_kinds _ _) ?_
      (depositedMessages_kinds _ _)
    · intro e h
      cases auditOn
      · simp at h
      · simp only [if_true] at h
        obtain ⟨kv, _, hkv⟩ := List.mem_map.mp h
        subst hkv
        exact ⟨rfl, rfl⟩
    · intro e h
      obtain ⟨c, _, hc⟩ := List.mem_map.mp h
      subst hc
      exact ⟨rfl, rfl⟩

theorem DepositAllReagentsForCategory_order (K : HostEnums) (catalog : Catalog)
    (auditOn : Bool) (item_subclass : Nat) (store : Store) (inventory : Inventory) :
    allBefore Effect.isAudit Effect.isLedgerWrite
      (DepositAllReagentsForCategory K catalog auditOn item_subclass store inventory).1 ∧
    allBefore Effect.isLedgerWrite Effect.isInvalidation
      (DepositAllReagentsForCategory K catalog auditOn item_subclass store inventory).1 ∧
    allBefore Effect.isAudit Effect.isInvalidation
      (DepositAllReagentsForCategory K catalog auditOn item_subclass store inventory).1 := by
  unfold DepositAllReagentsForCategory
  simp only
  by_cases he : (AccumulateInventory K inventory (some item_subclass)).1.addedCounts = []
  · rw [if_pos he]
    have h := allBefore_of_phases [] [] [] [Effect.message Message.noReagentsToDepositInCategory]
      (by simp) (by simp) (by simp)
      (by intro e h; simp only [List.mem_singleton] at h; subst h; exact ⟨rfl, rfl⟩)
    simpa using h
  · rw [if_neg he]
    have h := allBefore_of_phases
      (if auditOn then
        (AccumulateInventory K inventory (some item_subclass)).1.addedCounts.map (fun kv =>
          Effect.audit AuditAction.DEPOSIT kv.1 item_subclass kv.2)
        else [])
      (FlushReagentState
        (mergeAmounts (existingAmountsOf (Store.rowsOfCategory item_subclass store))
          (AccumulateInventory K inventory (some item_subclass)).1.addedCounts)
        ((mergeAmounts (existingAmountsOf (Store.rowsOfCategory item_subclass store))
          (AccumulateInventory K inventory (some item_subclass)).1.addedCounts).foldl
            (fun m kv => UMap.set kv.1 item_subclass m) []))
      [Effect.invalidate item_subclass]
      (Effect.message Message.followingWasDeposited
        :: depositedMessages catalog
          (AccumulateInventory K inventory (some item_subclass)).1.addedCounts)
      (by
        intro e h
        cases auditOn
        · simp at h
        · simp only [if_true] at h
          obtain ⟨kv, _, hkv⟩ := List.mem_map.mp h
          subst hkv
          exact ⟨rfl, rfl⟩)
      (FlushReagentState_kinds _ _)
      (by intro e h; simp only [List.mem_singleton] at h; subst h; exact ⟨rfl, rfl⟩)
      (depositedMessages_kinds _ _)
    simpa using h

theorem WithdrawAllInCategory_order {Inv : Type} (host : Host Inv) (catalog : Catalog)
    (auditOn : Bool) (item_subclass : Nat) (store : Store) (inv : Inv) :
    allBefore Effect.isLedgerWrite Effect.isInvalidation
      (WithdrawAllInCategory host catalog auditOn item_subclass store inv).1 ∧
    allBefore Effect.isAudit Effect.isInvalidation
      (WithdrawAllInCategory host catalog auditOn item_subclass store inv).1 := by
  obtain ⟨l1, l2, hl, h1, h2⟩ :=
    WithdrawAllInCategory_invalidation_last host catalog auditOn item_subclass store inv
  rw [hl]
  exact ⟨allBefore_blocks _ _ l1 l2 h1 (fun e he => by rw [h2 e he]; rfl),
    allBefore_blocks _ _ l1 l2 h1 (fun e he => by rw [h2 e he]; rfl)⟩

/-- C22 at a concrete input: with auditing enabled `DepositAllReagents` (45 of
item 100 stored, stacks of 20 and 10 in the bags) emits the audit insert, then
the ledger statement, then the invalidation: an invalidation follows an audit
insert, and a ledger statement follows an audit insert. In
`WithdrawAllInCategory` the invalidation is the last effect, after both audit
inserts. -/
theorem deposit_audits_before_invalidation :
    (DepositAllReagents exampleEnums itemACatalog true [⟨100, 5, 45⟩]
        [some ⟨some itemA, 20⟩, some ⟨some itemA, 10⟩]).1
      = [Effect.audit AuditAction.DEPOSIT 100 5 30, Effect.upsert 100 5 75,
          Effect.invalidate 5, Effect.message Message.followingWasDeposited,
          Effect.message (Message.deposited 30 100)] ∧
    ¬ allBefore Effect.isInvalidation Effect.isAudit
      (DepositAllReagents exampleEnums itemACatalog true [⟨100, 5, 45⟩]
        [some ⟨some itemA, 20⟩, some ⟨some itemA, 10⟩]).1 ∧
    ¬ allBefore Effect.isLedgerWrite Effect.isAudit
      (DepositAllReagents exampleEnums itemACatalog true [⟨100, 5, 45⟩]
        [some ⟨some itemA, 20⟩, some ⟨some itemA, 10⟩]).1 ∧
    ¬ allBefore Effect.isInvalidation Effect.isAudit
      (DepositAllReagentsForCategory exampleEnums itemACatalog true 5 [⟨100, 5, 45⟩]
        [some ⟨some itemA, 20⟩, some ⟨some itemA, 10⟩]).1 ∧
    ¬ allBefore Effect.isInvalidation Effect.isAudit
      (WithdrawAllInCategory slotsHost itemACatalog true 5 [⟨100, 5, 45⟩] 3).1 := by
  refine ⟨by decide, ?_, ?_, ?_, ?_⟩ <;> unfold allBefore <;> decide

/-- C22, amended: effect ordering within one use case. In the effects of
`DepositAllReagents`, of `DepositAllReagentsForCategory` and of
`WithdrawAllInCategory`, every ledger write precedes every cache invalidation
and every audit insert precedes every cache invalidation; in the two deposit
flows every audit insert also precedes every ledger write. -/
theorem flow_effect_order {Inv : Type} (K : HostEnums) (host : Host Inv) (catalog : Catalog)
    (auditOn : Bool) (item_subclass : Nat) (store : Store) (inventory : Inventory) (inv : Inv) :
    (allBefore Effect.isLedgerWrite Effect.isInvalidation
        (DepositAllReagents K catalog auditOn store inventory).1 ∧
      allBefore Effect.isAudit Effect.isInvalidation
        (DepositAllReagents K catalog auditOn store inventory).1 ∧
      allBefore Effect.isAudit Effect.isLedgerWrite
        (DepositAllReagents K catalog auditOn store inventory).1) ∧
    (allBefore Effect.isLedgerWrite Effect.isInvalidation
        (DepositAllReagentsForCategory K catalog auditOn item_subclass store inventory).1 ∧
      allBefore Effect.isAudit Effect.isInvalidation
        (DepositAllReagentsForCategory K catalog auditOn item_subclass store inventory).1 ∧
      allBefore Effect.isAudit Effect.isLedgerWrite
        (DepositAllReagentsForCategory K catalog auditOn item_subclass store inventory).1) ∧
    (allBefore Effect.isLedgerWrite Effect.isInvalidation
        (WithdrawAllInCategory host catalog auditOn item_subclass store inv).1 ∧
      allBefore Effect.isAudit Effect.isInvalidation
        (WithdrawAllInCategory host catalog auditOn item_subclass store inv).1) := by
  obtain ⟨a1, a2, a3⟩ := DepositAllReagents_order K catalog auditOn store inventory
  obtain ⟨b1, b2, b3⟩ :=
    DepositAllReagentsForCategory_order K catalog auditOn item_subclass store inventory
  exact ⟨⟨a2, a3, a1⟩, ⟨b2, b3, b1⟩,
    WithdrawAllInCategory_order host catalog auditOn item_subclass store inv⟩

/-! ## `AccumulateInventory` against the eligibility rule -/

/-- What `considerItem` computes for a slot, in terms of the eligibility rule:
a stack is taken exactly when its item is eligible, with its id, its category
and its count. -/
theorem eligibleStack_eq (K : HostEnums) (f : Option Nat) (slot : Option InvItem) :
    eligibleStack K f slot =
      match slot with
      | some ⟨some t, count⟩ =>
        if eligibleItem K f t = true then some (t.ItemId, categoryOfTemplate K t, count) else none
      | _ => none := by
  cases slot with
  | none => rfl
  | some pItem =>
    obtain ⟨template, count⟩ := pItem
    cases template with
    | none => rfl
    | some t =>
      simp only [eligibleStack, eligibleItem, categoryOfTemplate]
      cases f with
      | none =>
        by_cases h1 : t.Class = K.ITEM_CLASS_TRADE_GOODS ∨ t.Class = K.ITEM_CLASS_GEM
        · by_cases h2 : t.maxStack = 1
          · simp [h1, h2]
          · simp [h1, h2]
        · simp [h1]
      | some c =>
        by_cases h1 : t.Class = K.ITEM_CLASS_TRADE_GOODS ∨ t.Class = K.ITEM_CLASS_GEM
        · by_cases h2 : t.maxStack = 1
          · simp [h1, h2]
          · by_cases h3 : (if t.Class = K.ITEM_CLASS_GEM then K.ITEM_SUBCLASS_JEWELCRAFTING
                else t.SubClass) = c
            · simp [h1, h2, h3]
            · simp [h1, h2, h3]
        · simp [h1]

theorem removedQuantity_eq_eligibleCount (K : HostEnums) (f : Option Nat) (k : Nat)
    (inventory : Inventory) :
    removedQuantity K f k inventory = eligibleCount K f k inventory := by
  induction inventory with
  | nil => rfl
  | cons slot rest ih =>
    unfold removedQuantity eligibleCount
    rw [ih, eligibleStack_eq]
    congr 1
    cases slot with
    | none => rfl
    | some pItem =>
      obtain ⟨template, count⟩ := pItem
      cases template with
      | none => rfl
      | some t =>
        simp only
        by_cases he : eligibleItem K f t = true
        · by_cases hk : t.ItemId = k
          · simp [he, hk]
          · simp [he, hk]
        · simp [he]

theorem accumulate_inventory_eq (K : HostEnums) (f : Option Nat) (inventory : Inventory) :
    (AccumulateInventory K inventory f).2 = withoutEligible K f inventory := by
  unfold AccumulateInventory withoutEligible
  rw [accumulateFrom_inventory]
  apply List.map_congr_left
  intro slot _
  rw [eligibleStack_eq]
  cases slot with
  | none => rfl
  | some pItem =>
    obtain ⟨template, count⟩ := pItem
    cases template with
    | none => rfl
    | some t =>
      simp only
      by_cases he : eligibleItem K f t = true
      · simp [he]
      · simp [he]

theorem categoryOf_isSome_iff (K : HostEnums) (f : Option Nat) (k : Nat)
    (inventory : Inventory) :
    (categoryOf K f k inventory).isSome = true ↔
      ∃ t count, some ⟨some t, count⟩ ∈ inventory ∧ t.ItemId = k ∧
        eligibleItem K f t = true := by
  constructor
  · intro h
    cases hc : categoryOf K f k inventory with
    | none => rw [hc] at h; cases h
    | some sub =>
      obtain ⟨slot, hs, count, he⟩ := categoryOf_mem K f k sub inventory hc
      rw [eligibleStack_eq] at he
      cases slot with
      | none => cases he
      | some pItem =>
        obtain ⟨template, c⟩ := pItem
        cases template with
        | none => cases he
        | some t =>
          simp only at he
          by_cases hel : eligibleItem K f t = true
          · rw [if_pos hel] at he
            simp only [Option.some.injEq, Prod.mk.injEq] at he
            exact ⟨t, c, hs, he.1, hel⟩
          · rw [if_neg hel] at he
            cases he
  · rintro ⟨t, count, hs, hk, hel⟩
    cases hc : categoryOf K f k inventory with
    | some sub => rfl
    | none =>
      exfalso
      have h := (categoryOf_eq_none_iff K f k inventory).mp hc _ hs (categoryOfTemplate K t) count
      apply h
      rw [eligibleStack_eq]
      simp only [hel, if_true, hk]

/-- C23 at three full stacks of item 300, stack size 2147483646:
`AccumulateInventory` removes the three stacks, whose counts add up to
6442450938, and `addedCounts[300]` is 2147483642. -/
theorem AccumulateInventory_count_wraps :
    (AccumulateInventory exampleEnums bulkInventory none).2 = [none, none, none] ∧
    eligibleCount exampleEnums none 300 bulkInventory = 6442450938 ∧
    (AccumulateInventory exampleEnums bulkInventory none).1.addedCounts
      = [(300, 2147483642)] ∧
    UMap.get 300 (AccumulateInventory exampleEnums bulkInventory none).1.addedCounts
      ≠ eligibleCount exampleEnums none 300 bulkInventory := by
  refine ⟨by decide, by decide, by decide, by decide⟩

/-- C23, amended: `AccumulateInventory` removes exactly the eligible stacks and
counts them in `uint32`. The inventory afterwards is the inventory without the
stacks of eligible items (class trade goods or gem, stack size not 1, and the
category equal to the filter when one is given, a gem's category being
Jewelcrafting and any other item's its subclass); every other slot is as it
was. For every item id, `addedCounts` has an entry exactly when a stack of an
eligible item of that id is in the inventory, and `addedCounts[id]` is the sum
of the counts of the removed stacks of that id modulo `2^32`, which is the sum
itself when that is below `2^32`. -/
theorem AccumulateInventory_removes_eligible (K : HostEnums) (inventory : Inventory)
    (filterSubclass : Option Nat) :
    (AccumulateInventory K inventory filterSubclass).2
      = withoutEligible K filterSubclass inventory ∧
    (∀ k, ((UMap.find k (AccumulateInventory K inventory filterSubclass).1.addedCounts).isSome
        = true ↔
      ∃ t count, some ⟨some t, count⟩ ∈ inventory ∧ t.ItemId = k ∧
        eligibleItem K filterSubclass t = true)) ∧
    (∀ k, UMap.get k (AccumulateInventory K inventory filterSubclass).1.addedCounts
      = eligibleCount K filterSubclass k inventory % U32) ∧
    (∀ k, eligibleCount K filterSubclass k inventory < U32 →
      UMap.get k (AccumulateInventory K inventory filterSubclass).1.addedCounts
        = eligibleCount K filterSubclass k inventory) := by
  have hget : ∀ k, UMap.get k (AccumulateInventory K inventory filterSubclass).1.addedCounts
      = eligibleCount K filterSubclass k inventory % U32 := by
    intro k
    simp only [UMap.get, AccumulateInventory_find_added]
    cases hc : categoryOf K filterSubclass k inventory with
    | none =>
      rw [← removedQuantity_eq_eligibleCount,
        removedQuantity_of_categoryOf_none K filterSubclass k inventory hc]
      rfl
    | some sub =>
      rw [← removedQuantity_eq_eligibleCount]
      rfl
  refine ⟨accumulate_inventory_eq K filterSubclass inventory, ?_, hget, ?_⟩
  · intro k
    rw [← categoryOf_isSome_iff, AccumulateInventory_find_added]
    cases categoryOf K filterSubclass k inventory <;> simp
  · intro k hlt
    rw [hget k, Nat.mod_eq_of_lt hlt]

/-- Witness of C23: stacks of 20 and 10 of item 100, 15 of the gem 200, an
empty slot and a stack of an item with stack size 1. With the filter 5 the two
stacks of item 100 are removed and counted as 30; nothing else is touched. -/
theorem AccumulateInventory_removes_eligible_witness :
    eligibleCount exampleEnums (some 5) 100
      [some ⟨some itemA, 20⟩, some ⟨some gemB, 15⟩, none, some ⟨some ⟨400, 7, 5, 1, 0⟩, 1⟩,
        some ⟨some itemA, 10⟩] < U32 ∧
    UMap.get 100 (AccumulateInventory exampleEnums
      [some ⟨some itemA, 20⟩, some ⟨some gemB, 15⟩, none, some ⟨some ⟨400, 7, 5, 1, 0⟩, 1⟩,
        some ⟨some itemA, 10⟩] (some 5)).1.addedCounts
      = eligibleCount exampleEnums (some 5) 100
        [some ⟨some itemA, 20⟩, some ⟨some gemB, 15⟩, none, some ⟨some ⟨400, 7, 5, 1, 0⟩, 1⟩,
          some ⟨some itemA, 10⟩] ∧
    AccumulateInventory exampleEnums
      [some ⟨some itemA, 20⟩, some ⟨some gemB, 15⟩, none, some ⟨some ⟨400, 7, 5, 1, 0⟩, 1⟩,
        some ⟨some itemA, 10⟩] (some 5)
      = ({ addedCounts := [(100, 30)], subclassByEntry := [(100, 5)] },
          [none, some ⟨some gemB, 15⟩, none, some ⟨some ⟨400, 7, 5, 1, 0⟩, 1⟩, none]) ∧
    (AccumulateInventory exampleEnums
      [some ⟨some itemA, 20⟩, some ⟨some gemB, 15⟩, none, some ⟨some ⟨400, 7, 5, 1, 0⟩, 1⟩,
        some ⟨some itemA, 10⟩] none).1.addedCounts = [(100, 30), (200, 15)] :=
  ⟨by decide,
    (AccumulateInventory_removes_eligible exampleEnums
      [some ⟨some itemA, 20⟩, some ⟨some gemB, 15⟩, none, some ⟨some ⟨400, 7, 5, 1, 0⟩, 1⟩,
        some ⟨some itemA, 10⟩] (some 5)).2.2.2 100 (by decide),
    by decide, by decide⟩

/-! ## A partly drained row after `WithdrawAllInCategory` -/

/-- C10 at a failing input: the ledger holds 45 of item 100, the scan shows
three empty slots, so the simulator allows 45, and the host accepts one stack
and refuses the next. The row is only partly drained: 20 of 45 are handed over
and the first loop issues the `UPDATE` to 25. The final transaction then issues
the `DELETE`, and the ledger ends without a row for item 100 instead of a row
with a positive amount. `WithdrawItem` on the same ledger hands over 20 and
leaves the row at 25. -/
theorem WithdrawAllInCategory_deletes_partly_drained_row :
    Store.UniqueKeys [⟨100, 5, 45⟩] ∧
    deliveredOf 100
      (WithdrawAllInCategory limitedHost itemACatalog false 5 [⟨100, 5, 45⟩] (3, 1)).1 = 20 ∧
    statementsOn 100
      (WithdrawAllInCategory limitedHost itemACatalog false 5 [⟨100, 5, 45⟩] (3, 1)).1
      = [Effect.update 100 25, Effect.delete 100] ∧
    runEffects (WithdrawAllInCategory limitedHost itemACatalog false 5 [⟨100, 5, 45⟩]
      (3, 1)).1 [⟨100, 5, 45⟩] = [] ∧
    deliveredOf 100 (WithdrawItem limitedHost itemACatalog [⟨100, 5, 45⟩] (3, 1) 100).1 = 20 ∧
    runEffects (WithdrawItem limitedHost itemACatalog [⟨100, 5, 45⟩] (3, 1) 100).1
      [⟨100, 5, 45⟩] = [⟨100, 5, 25⟩] := by
  refine ⟨by unfold Store.UniqueKeys; decide, by decide, by decide, by decide, by decide,
    by decide⟩

end ReagentBank
